import Mathlib

/-!
Verification development for the ProteinCraft Tulip plugin collection.

The Python sources are shallowly embedded as Lean definitions:
* Tulip graph nodes are modelled as indices into a node-record list, edges as
  records holding the two endpoint indices plus the edge attributes.
* Python `str` values are Lean `String`s; the string helpers used by the code
  (`startswith`, `upper`, `in`, `split`) are re-implemented over `List Char`
  so that concrete instances evaluate inside the kernel.
* Python `float` values are modelled as rationals `ℚ`.  Rational arithmetic is
  expressed via `mkRat`-based helpers (`qadd`, `qsub`, `qmul`) so that concrete
  instances evaluate; these are proved equal to the ordinary field operations.
* Python dicts are association lists with insert-or-update semantics, Python
  `sorted`/`list.sort` is a stable insertion sort (`pySort`).
-/

/-! ## Rational arithmetic helpers

`Rat.add`/`Rat.sub`/`Rat.mul` do not reduce inside the kernel, so the embedded
code uses the following `mkRat`-based forms, provably equal to `+`, `-`, `*`. -/

def qadd (a b : ℚ) : ℚ := mkRat (a.num * b.den + b.num * a.den) (a.den * b.den)

def qsub (a b : ℚ) : ℚ := mkRat (a.num * b.den - b.num * a.den) (a.den * b.den)

def qmul (a b : ℚ) : ℚ := mkRat (a.num * b.num) (a.den * b.den)

theorem qadd_eq (a b : ℚ) : qadd a b = a + b := by
  unfold qadd
  rw [Rat.mkRat_eq_div]
  push_cast
  conv_rhs => rw [← Rat.num_div_den a, ← Rat.num_div_den b]
  rw [div_add_div _ _ (by positivity) (by positivity)]
  ring_nf

theorem qsub_eq (a b : ℚ) : qsub a b = a - b := by
  unfold qsub
  rw [Rat.mkRat_eq_div]
  push_cast
  conv_rhs => rw [← Rat.num_div_den a, ← Rat.num_div_den b]
  rw [div_sub_div _ _ (by positivity) (by positivity)]
  ring_nf

theorem qmul_eq (a b : ℚ) : qmul a b = a * b := by
  unfold qmul
  rw [Rat.mkRat_eq_div]
  push_cast
  conv_rhs => rw [← Rat.num_div_den a, ← Rat.num_div_den b]
  rw [div_mul_div_comm]

def qofNat (n : ℕ) : ℚ := mkRat n 1

theorem qofNat_eq (n : ℕ) : qofNat n = (n : ℚ) := by
  unfold qofNat
  rw [Rat.mkRat_eq_div]
  simp

/-! ## Python string helpers -/

/-- Python `s.startswith(pref)`. -/
def pyStartsWith (s pref : String) : Bool := pref.data.isPrefixOf s.data

/-- Python `s.upper()` (ASCII-level model). -/
def pyUpper (s : String) : String := String.mk (s.data.map Char.toUpper)

/-- Whether `pat` occurs as a contiguous subsequence of `hay`
(Python `pat in hay`). -/
def containsSeq (pat : List Char) : List Char → Bool
  | [] => pat.isEmpty
  | c :: t => pat.isPrefixOf (c :: t) || containsSeq pat t

/-- Python `line.split('\t')` (list-of-characters level). -/
def pySplitTab (s : String) : List String :=
  (s.data.splitOn '\t').map String.mk

/-- Python truthiness test `if not line.strip()` for a line: true when the
line consists only of whitespace. -/
def pyBlank (s : String) : Bool := s.data.all (fun c => c.isWhitespace)

/-! ## Stable sort (model of Python `sorted` / `list.sort`) -/

def insertLe {α : Type} (le : α → α → Bool) (x : α) : List α → List α
  | [] => [x]
  | y :: ys => if le x y then x :: y :: ys else y :: insertLe le x ys

/-- Insertion sort; with a `≤`-style comparison this is stable, matching
Python's `sorted`. -/
def pySort {α : Type} (le : α → α → Bool) : List α → List α
  | [] => []
  | x :: xs => insertLe le x (pySort le xs)

theorem insertLe_perm {α : Type} (le : α → α → Bool) (x : α) (l : List α) :
    (insertLe le x l).Perm (x :: l) := by
  induction l with
  | nil => simp [insertLe]
  | cons y ys ih =>
    simp only [insertLe]
    split
    · exact List.Perm.refl _
    · exact (List.Perm.cons y ih).trans (List.Perm.swap x y ys)

theorem pySort_perm {α : Type} (le : α → α → Bool) (l : List α) :
    (pySort le l).Perm l := by
  induction l with
  | nil => simp [pySort]
  | cons x xs ih =>
    exact (insertLe_perm le x (pySort le xs)).trans (ih.cons x)

theorem pySort_mem {α : Type} (le : α → α → Bool) (l : List α) (x : α) :
    x ∈ pySort le l ↔ x ∈ l := (pySort_perm le l).mem_iff

theorem insertLe_pairwise {α : Type} (le : α → α → Bool)
    (htot : ∀ a b, le a b || le b a)
    (htrans : ∀ a b c, le a b → le b c → le a c)
    (x : α) (l : List α) (hl : l.Pairwise (fun a b => le a b)) :
    (insertLe le x l).Pairwise (fun a b => le a b) := by
  induction l with
  | nil => simp [insertLe]
  | cons y ys ih =>
    simp only [insertLe]
    rcases List.pairwise_cons.mp hl with ⟨hy, hys⟩
    split
    · rename_i hxy
      refine List.pairwise_cons.mpr ⟨?_, hl⟩
      intro b hb
      rcases List.mem_cons.mp hb with rfl | hb
      · exact hxy
      · exact htrans x y b hxy (hy _ hb)
    · rename_i hxy
      have hyx : le y x := by
        rcases Bool.or_eq_true_iff.mp (htot x y) with h' | h'
        · exact absurd h' hxy
        · exact h'
      refine List.pairwise_cons.mpr ⟨?_, ih hys⟩
      intro b hb
      rcases List.mem_cons.mp ((insertLe_perm le x ys).mem_iff.mp hb) with rfl | h'
      · exact hyx
      · exact hy _ h'

theorem pySort_pairwise {α : Type} (le : α → α → Bool)
    (htot : ∀ a b, le a b || le b a)
    (htrans : ∀ a b c, le a b → le b c → le a c)
    (l : List α) : (pySort le l).Pairwise (fun a b => le a b) := by
  induction l with
  | nil => simp [pySort]
  | cons x xs ih => exact insertLe_pairwise le htot htrans x _ ih

theorem insertLe_of_le {α : Type} (le : α → α → Bool) (x : α) (l : List α)
    (h : ∀ y ∈ l.head?, le x y) : insertLe le x l = x :: l := by
  cases l with
  | nil => rfl
  | cons y ys => simp only [insertLe, h y rfl, if_true]

theorem pySort_eq_self {α : Type} (le : α → α → Bool) (l : List α)
    (h : l.Pairwise (fun a b => le a b)) : pySort le l = l := by
  induction l with
  | nil => rfl
  | cons x xs ih =>
    rcases List.pairwise_cons.mp h with ⟨hx, hxs⟩
    simp only [pySort, ih hxs]
    refine insertLe_of_le le x xs ?_
    intro y hy
    exact hx y (List.mem_of_mem_head? hy)

/-! ## The structural graph model

A Tulip graph as populated by `RINGImport.py`: nodes are records carrying the
per-residue attributes, edges carry two endpoint indices (into the node list)
and the per-interaction attributes. -/

structure RNode where
  nodeId : String
  chain : String
  position : ℤ
  residue : String
  resType : String
  dssp : String
  degree : ℤ
  bfactor : ℚ
  x : ℚ
  y : ℚ
  z : ℚ
  pdbFileName : String
  model : ℤ
deriving DecidableEq

instance : Inhabited RNode :=
  ⟨⟨"", "", 0, "", "", "", 0, 0, 0, 0, 0, "", 0⟩⟩

structure REdge where
  src : ℕ
  tgt : ℕ
  interaction : String
  distance : ℚ
  angle : ℚ
  atom1 : String
  atom2 : String
  donor : String
  positive : String
  cation : String
  orientation : String
  emodel : ℤ
deriving DecidableEq

instance : Inhabited REdge := ⟨⟨0, 0, "", 0, 0, "", "", "", "", "", "", 0⟩⟩

structure RGraph where
  nodes : List RNode
  edges : List REdge
deriving DecidableEq

/-- Tulip `graph.getInOutEdges(n)`: the edges incident to node `n`. -/
def getInOutEdges (g : RGraph) (n : ℕ) : List REdge :=
  g.edges.filter (fun e => e.src = n || e.tgt = n)

/-- Node attribute access `prop[n]` with Tulip's default value on a
nonexistent node. -/
def nodeRec (g : RGraph) (n : ℕ) : RNode := g.nodes.getD n default

namespace Intra
/-! Embedding of `src/layout/BinderIntraInteraction.py`. -/

/-- Closure `is_interesting_interaction` from `BinderIntraInteraction.run`:
empty category strings are rejected, `VDW`-prefixed ones only when
`include_vdw` is set, everything else accepted. -/
def is_interesting_interaction (include_vdw : Bool) (int_type : String) : Bool :=
  if int_type = "" then false
  else if pyStartsWith int_type "VDW" then include_vdw
  else true

/-- Closure `is_covalent` from `BinderIntraInteraction.run`: `COV`-prefixed
categories, and any category containing `PEPTIDE` case-insensitively. -/
def is_covalent (int_type : String) : Bool :=
  if int_type = "" then false
  else pyStartsWith int_type "COV" || containsSeq "PEPTIDE".data (pyUpper int_type).data

/-- Closure `do_components_interact` from `BinderIntraInteraction.run`:
some non-covalent interesting edge joins a node of `compA` to a node of
`compB`.  Node sets are lists of node indices. -/
def do_components_interact (g : RGraph) (include_vdw : Bool)
    (compA compB : List ℕ) : Bool :=
  compA.any (fun nA =>
    (getInOutEdges g nA).any (fun e =>
      is_interesting_interaction include_vdw e.interaction &&
      !is_covalent e.interaction &&
      (if e.src = nA then e.tgt else e.src) ∈ compB))

end Intra

namespace BT
/-! Embedding of `src/layout/BinderTargetInteraction.py`. -/

/-- `is_interesting_interaction(inter_type, include_vdw)` from
`BinderTargetInteraction.py`. -/
def is_interesting_interaction (inter_type : String) (include_vdw : Bool) : Bool :=
  if inter_type = "" then false
  else if pyStartsWith inter_type "VDW" then include_vdw
  else true

end BT

/-! ## Claim C6 — category classification of non-COV, non-VDW edges -/

/--
Claim C6, as stated, is false: it asserts that every edge whose category
starts with neither `COV` nor `VDW` qualifies unconditionally, "including
edges whose category string is empty or contains 'PEPTIDE' without the 'COV'
prefix".  The code rejects the empty category in both
`is_interesting_interaction` functions (`if not int_type: return False`) and
treats any category containing `PEPTIDE` as covalent in
`BinderIntraInteraction.is_covalent`, excluding it from the intra-chain
interaction test.
-/
theorem c6_counterexample :
    pyStartsWith "" "COV" = false ∧ pyStartsWith "" "VDW" = false ∧
    Intra.is_interesting_interaction true "" = false ∧
    BT.is_interesting_interaction "" true = false ∧
    pyStartsWith "PEPTIDE BOND" "COV" = false ∧
    pyStartsWith "PEPTIDE BOND" "VDW" = false ∧
    Intra.is_covalent "PEPTIDE BOND" = true := by
  decide

/--
Claim C6 (amended): for every edge whose interaction-category string is
nonempty and starts with neither `COV` nor `VDW`, the edge is accepted by
`is_interesting_interaction` for every value of the van-der-Waals-inclusion
flag (both in `BinderIntraInteraction` and in `BinderTargetInteraction`); in
the intra-chain interaction tests it is furthermore a qualifying (non-covalent)
edge provided its category does not contain `PEPTIDE` case-insensitively.
Empty categories are rejected, and `PEPTIDE`-containing categories are
treated as covalent by the intra-chain test.
-/
theorem c6_other_accepted (t : String) (vdw : Bool)
    (hne : t ≠ "")
    (hcov : pyStartsWith t "COV" = false)
    (hvdw : pyStartsWith t "VDW" = false) :
    BT.is_interesting_interaction t vdw = true ∧
    Intra.is_interesting_interaction vdw t = true ∧
    (containsSeq "PEPTIDE".data (pyUpper t).data = false →
      Intra.is_covalent t = false) := by
  refine ⟨?_, ?_, ?_⟩
  · simp [BT.is_interesting_interaction, hne, hvdw]
  · simp [Intra.is_interesting_interaction, hne, hvdw]
  · intro hpep
    simp [Intra.is_covalent, hne, hcov, hpep]

/-- Witness for `c6_other_accepted` at a concrete category string. -/
theorem c6_other_accepted_witness :
    BT.is_interesting_interaction "HBOND:MC_MC" false = true ∧
    Intra.is_interesting_interaction false "HBOND:MC_MC" = true ∧
    (containsSeq "PEPTIDE".data (pyUpper "HBOND:MC_MC").data = false →
      Intra.is_covalent "HBOND:MC_MC" = false) :=
  c6_other_accepted "HBOND:MC_MC" false (by decide) (by decide) (by decide)

/-! ## Claim C8 — symmetry of the inter-component interaction test -/

/--
Claim C8: for every graph, every pair of node lists and every value of the
van-der-Waals-inclusion flag, `do_components_interact` is symmetric:
`interacting(i, j) = interacting(j, i)`.
-/
theorem c8_interact_symm (g : RGraph) (include_vdw : Bool)
    (compA compB : List ℕ) :
    Intra.do_components_interact g include_vdw compA compB =
      Intra.do_components_interact g include_vdw compB compA := by
  have main : ∀ (X Y : List ℕ),
      Intra.do_components_interact g include_vdw X Y = true →
      Intra.do_components_interact g include_vdw Y X = true := by
    intro X Y h
    rw [Intra.do_components_interact, List.any_eq_true] at h
    obtain ⟨nA, hnA, h1⟩ := h
    rw [List.any_eq_true] at h1
    obtain ⟨e, he, h2⟩ := h1
    rw [getInOutEdges, List.mem_filter] at he
    obtain ⟨heE, hePred⟩ := he
    have hinc : e.src = nA ∨ e.tgt = nA := by simpa using hePred
    rw [Bool.and_eq_true, Bool.and_eq_true] at h2
    obtain ⟨⟨hint, hncov⟩, hmem⟩ := h2
    have hmemY : (if e.src = nA then e.tgt else e.src) ∈ Y := by simpa using hmem
    rw [Intra.do_components_interact, List.any_eq_true]
    by_cases hsrc : e.src = nA
    · rw [if_pos hsrc] at hmemY
      refine ⟨e.tgt, hmemY, ?_⟩
      rw [List.any_eq_true]
      refine ⟨e, ?_, ?_⟩
      · rw [getInOutEdges, List.mem_filter]
        exact ⟨heE, by simp⟩
      · rw [Bool.and_eq_true, Bool.and_eq_true]
        refine ⟨⟨hint, hncov⟩, ?_⟩
        by_cases hst : e.src = e.tgt
        · simp only [if_pos hst, decide_eq_true_eq]
          rw [← hst, hsrc]
          exact hnA
        · simp only [if_neg hst, decide_eq_true_eq]
          rw [hsrc]
          exact hnA
    · have htgt : e.tgt = nA := hinc.resolve_left hsrc
      rw [if_neg hsrc] at hmemY
      refine ⟨e.src, hmemY, ?_⟩
      rw [List.any_eq_true]
      refine ⟨e, ?_, ?_⟩
      · rw [getInOutEdges, List.mem_filter]
        exact ⟨heE, by simp⟩
      · rw [Bool.and_eq_true, Bool.and_eq_true]
        refine ⟨⟨hint, hncov⟩, ?_⟩
        simp only [if_pos rfl, decide_eq_true_eq]
        rw [htgt]
        exact hnA
  by_cases hAB : Intra.do_components_interact g include_vdw compA compB = true
  · rw [hAB, (main _ _ hAB)]
  · by_cases hBA : Intra.do_components_interact g include_vdw compB compA = true
    · exact absurd (main _ _ hBA) hAB
    · rw [Bool.not_eq_true] at hAB hBA
      rw [hAB, hBA]

/-! ## Layout model

Coordinates are `tlp.Vec3f` vectors, modelled over `ℚ`.  The edge-length
heuristic in the source computes floating-point Euclidean norms; the embedding
is parametric in the distance function `d : Vec3f → Vec3f → ℚ` standing for
`(src - tgt).norm()`, since the two-candidate choice logic is independent of
how the norm evaluates. -/

structure Vec3f where
  x : ℚ
  y : ℚ
  z : ℚ
deriving DecidableEq

/-- `calculate_edge_lengths(graph, nodes, view_layout)` from
`BinderIntraInteraction.py`: for each node of `nodes`, sum `d` over its
incident edges whose two endpoints both lie in `nodes`. -/
def calculate_edge_lengths (g : RGraph) (nodes : List ℕ) (L : ℕ → Vec3f)
    (d : Vec3f → Vec3f → ℚ) : ℚ :=
  nodes.foldl (fun total n =>
    (getInOutEdges g n).foldl (fun t e =>
      if e.src ∈ nodes ∧ e.tgt ∈ nodes then qadd t (d (L e.src) (L e.tgt))
      else t) total) 0

/-- Placement loop `for i, node in enumerate(ns): layout[node] = (i*space, yv, 0)`
(used by `layout_bipartite_subgraph`), with explicit running index. -/
def placeRowFrom (i0 : ℕ) (yv space : ℚ) (ns : List ℕ) (L : ℕ → Vec3f) : ℕ → Vec3f :=
  match ns with
  | [] => L
  | n :: t =>
    placeRowFrom (i0 + 1) yv space t (Function.update L n ⟨qmul (qofNat i0) space, yv, 0⟩)

def placeRow (yv space : ℚ) (ns : List ℕ) (L : ℕ → Vec3f) : ℕ → Vec3f :=
  placeRowFrom 0 yv space ns L

/-- Placement loop with accumulating `y` coordinate
(`for nd in ns: layout[nd] = (xv, y, 0); y += step`), used by the vertical
branches of `layout_bipartite`. -/
def placeColAcc (xv y0 step : ℚ) (ns : List ℕ) (L : ℕ → Vec3f) : ℕ → Vec3f :=
  match ns with
  | [] => L
  | n :: t => placeColAcc xv (qadd y0 step) step t (Function.update L n ⟨xv, y0, 0⟩)

/-- Placement loop with accumulating `x` coordinate
(`for nd in ns: layout[nd] = (x, yv, 0); x += step`), used by the horizontal
branch of `layout_bipartite`. -/
def placeRowAcc (yv x0 step : ℚ) (ns : List ℕ) (L : ℕ → Vec3f) : ℕ → Vec3f :=
  match ns with
  | [] => L
  | n :: t => placeRowAcc yv (qadd x0 step) step t (Function.update L n ⟨x0, yv, 0⟩)

theorem placeRowFrom_not_mem (i0 : ℕ) (yv space : ℚ) (ns : List ℕ)
    (L : ℕ → Vec3f) (n : ℕ) (h : n ∉ ns) :
    placeRowFrom i0 yv space ns L n = L n := by
  induction ns generalizing i0 L with
  | nil => rfl
  | cons m t ih =>
    simp only [placeRowFrom]
    rw [ih _ _ (fun hm => h (List.mem_cons_of_mem m hm))]
    exact Function.update_noteq (fun hnm => h (by rw [hnm]; exact List.mem_cons_self m t)) _ L

theorem placeRowFrom_mem_congr (i0 : ℕ) (yv space : ℚ) (ns : List ℕ)
    (L L' : ℕ → Vec3f) (n : ℕ) (h : n ∈ ns) :
    placeRowFrom i0 yv space ns L n = placeRowFrom i0 yv space ns L' n := by
  induction ns generalizing i0 L L' with
  | nil => cases h
  | cons m t ih =>
    simp only [placeRowFrom]
    by_cases hnt : n ∈ t
    · exact ih _ _ _ hnt
    · have hnm : n = m := by
        rcases List.mem_cons.mp h with h' | h'
        · exact h'
        · exact absurd h' hnt
      rw [placeRowFrom_not_mem _ _ _ _ _ _ hnt, placeRowFrom_not_mem _ _ _ _ _ _ hnt]
      subst hnm
      rw [Function.update_same, Function.update_same]

theorem placeColAcc_not_mem (xv y0 step : ℚ) (ns : List ℕ)
    (L : ℕ → Vec3f) (n : ℕ) (h : n ∉ ns) :
    placeColAcc xv y0 step ns L n = L n := by
  induction ns generalizing y0 L with
  | nil => rfl
  | cons m t ih =>
    simp only [placeColAcc]
    rw [ih _ _ (fun hm => h (List.mem_cons_of_mem m hm))]
    exact Function.update_noteq (fun hnm => h (by rw [hnm]; exact List.mem_cons_self m t)) _ L

theorem placeColAcc_mem_congr (xv y0 step : ℚ) (ns : List ℕ)
    (L L' : ℕ → Vec3f) (n : ℕ) (h : n ∈ ns) :
    placeColAcc xv y0 step ns L n = placeColAcc xv y0 step ns L' n := by
  induction ns generalizing y0 L L' with
  | nil => cases h
  | cons m t ih =>
    simp only [placeColAcc]
    by_cases hnt : n ∈ t
    · exact ih _ _ _ hnt
    · have hnm : n = m := by
        rcases List.mem_cons.mp h with h' | h'
        · exact h'
        · exact absurd h' hnt
      rw [placeColAcc_not_mem _ _ _ _ _ _ hnt, placeColAcc_not_mem _ _ _ _ _ _ hnt]
      subst hnm
      rw [Function.update_same, Function.update_same]

theorem placeRowAcc_not_mem (yv x0 step : ℚ) (ns : List ℕ)
    (L : ℕ → Vec3f) (n : ℕ) (h : n ∉ ns) :
    placeRowAcc yv x0 step ns L n = L n := by
  induction ns generalizing x0 L with
  | nil => rfl
  | cons m t ih =>
    simp only [placeRowAcc]
    rw [ih _ _ (fun hm => h (List.mem_cons_of_mem m hm))]
    exact Function.update_noteq (fun hnm => h (by rw [hnm]; exact List.mem_cons_self m t)) _ L

theorem placeRowAcc_mem_congr (yv x0 step : ℚ) (ns : List ℕ)
    (L L' : ℕ → Vec3f) (n : ℕ) (h : n ∈ ns) :
    placeRowAcc yv x0 step ns L n = placeRowAcc yv x0 step ns L' n := by
  induction ns generalizing x0 L L' with
  | nil => cases h
  | cons m t ih =>
    simp only [placeRowAcc]
    by_cases hnt : n ∈ t
    · exact ih _ _ _ hnt
    · have hnm : n = m := by
        rcases List.mem_cons.mp h with h' | h'
        · exact h'
        · exact absurd h' hnt
      rw [placeRowAcc_not_mem _ _ _ _ _ _ hnt, placeRowAcc_not_mem _ _ _ _ _ _ hnt]
      subst hnm
      rw [Function.update_same, Function.update_same]

theorem placeColAcc_replay (xv y0 step : ℚ) (ns : List ℕ) (M : ℕ → Vec3f) :
    placeColAcc xv y0 step ns
        (placeColAcc xv y0 step ns.reverse (placeColAcc xv y0 step ns M)) =
      placeColAcc xv y0 step ns M := by
  funext n
  by_cases h : n ∈ ns
  · exact placeColAcc_mem_congr _ _ _ _ _ _ _ h
  · have h' : n ∉ ns.reverse := fun hh => h (List.mem_reverse.mp hh)
    rw [placeColAcc_not_mem _ _ _ _ _ _ h, placeColAcc_not_mem _ _ _ _ _ _ h',
        placeColAcc_not_mem _ _ _ _ _ _ h]

theorem placeRowAcc_replay (yv x0 step : ℚ) (ns : List ℕ) (M : ℕ → Vec3f) :
    placeRowAcc yv x0 step ns
        (placeRowAcc yv x0 step ns.reverse (placeRowAcc yv x0 step ns M)) =
      placeRowAcc yv x0 step ns M := by
  funext n
  by_cases h : n ∈ ns
  · exact placeRowAcc_mem_congr _ _ _ _ _ _ _ h
  · have h' : n ∉ ns.reverse := fun hh => h (List.mem_reverse.mp hh)
    rw [placeRowAcc_not_mem _ _ _ _ _ _ h, placeRowAcc_not_mem _ _ _ _ _ _ h',
        placeRowAcc_not_mem _ _ _ _ _ _ h]

namespace BT

/-- Layout after the first two placement loops of `layout_bipartite_subgraph`:
target nodes at `y = 0`, binder nodes at `y = 3`, both spaced by
`space_x = 1.5` (`mkRat 3 2`). -/
def sub_orig_layout (binder target : List ℕ) (L : ℕ → Vec3f) : ℕ → Vec3f :=
  placeRow 3 (mkRat 3 2) binder (placeRow 0 (mkRat 3 2) target L)

/-- `orig_length` from `layout_bipartite_subgraph`. -/
def sub_orig_length (g : RGraph) (binder target : List ℕ) (L : ℕ → Vec3f)
    (d : Vec3f → Vec3f → ℚ) : ℚ :=
  calculate_edge_lengths g (binder ++ target) (sub_orig_layout binder target L) d

/-- Layout after re-placing the target nodes in reversed order. -/
def sub_rev_layout (binder target : List ℕ) (L : ℕ → Vec3f) : ℕ → Vec3f :=
  placeRow 0 (mkRat 3 2) target.reverse (sub_orig_layout binder target L)

/-- `reversed_length` from `layout_bipartite_subgraph`. -/
def sub_rev_length (g : RGraph) (binder target : List ℕ) (L : ℕ → Vec3f)
    (d : Vec3f → Vec3f → ℚ) : ℚ :=
  calculate_edge_lengths g (binder ++ target) (sub_rev_layout binder target L) d

/-- `layout_bipartite_subgraph(graph, interacting_binder_list,
interacting_target_list, sub_view_layout)` from `BinderTargetInteraction.py`:
keep the reversed target order when strictly shorter, otherwise re-run the
original target placement. -/
def layout_bipartite_subgraph (g : RGraph) (binder target : List ℕ)
    (L : ℕ → Vec3f) (d : Vec3f → Vec3f → ℚ) : ℕ → Vec3f :=
  if sub_rev_length g binder target L d < sub_orig_length g binder target L d
  then sub_rev_layout binder target L
  else placeRow 0 (mkRat 3 2) target (sub_rev_layout binder target L)

theorem sub_replay (binder target : List ℕ) (L : ℕ → Vec3f)
    (hdisj : ∀ n ∈ binder, n ∉ target) :
    placeRow 0 (mkRat 3 2) target (sub_rev_layout binder target L) =
      sub_orig_layout binder target L := by
  funext n
  by_cases ht : n ∈ target
  · have hb : n ∉ binder := fun hb => hdisj n hb ht
    unfold sub_rev_layout sub_orig_layout placeRow
    rw [placeRowFrom_mem_congr _ _ _ _ _
        (placeRowFrom 0 0 (mkRat 3 2) target L) _ ht,
      placeRowFrom_not_mem _ _ _ _ _ _ hb]
    exact placeRowFrom_mem_congr _ _ _ _ _ L _ ht
  · have ht' : n ∉ target.reverse := fun hh => ht (List.mem_reverse.mp hh)
    unfold sub_rev_layout placeRow
    rw [placeRowFrom_not_mem _ _ _ _ _ _ ht]
    unfold sub_orig_layout placeRow
    rw [placeRowFrom_not_mem _ _ _ _ _ _ ht']

end BT

namespace Intra

/-- Closure `get_position_int` from `BinderIntraInteraction.run`; the
`position` property is an integer property, so the `int()` conversion always
succeeds in the model. -/
def get_position_int (g : RGraph) (n : ℕ) : ℤ := (nodeRec g n).position

/-- Comparison key for `sorted(nodes, key=get_position_int)`. -/
def posLe (g : RGraph) (a b : ℕ) : Bool :=
  decide (get_position_int g a ≤ get_position_int g b)

/-- Layout after the original-order placements of `layout_bipartite`
(both node groups sorted by ascending position first).  Vertical: two columns
at `x = 0` and `x = 3`, descending in steps of `-1.5`; horizontal: two rows at
`y = 0` and `y = -1.5`, ascending in steps of `3`; unrecognized orientations
fall back to the vertical placement. -/
def bip_orig_layout (g : RGraph) (orientation : String) (compA compB : List ℕ)
    (L : ℕ → Vec3f) : ℕ → Vec3f :=
  if orientation = "vertical" then
    placeColAcc 3 0 (mkRat (-3) 2) (pySort (posLe g) compB)
      (placeColAcc 0 0 (mkRat (-3) 2) (pySort (posLe g) compA) L)
  else if orientation = "horizontal" then
    placeRowAcc (mkRat (-3) 2) 0 3 (pySort (posLe g) compB)
      (placeRowAcc 0 0 3 (pySort (posLe g) compA) L)
  else
    placeColAcc 3 0 (mkRat (-3) 2) (pySort (posLe g) compB)
      (placeColAcc 0 0 (mkRat (-3) 2) (pySort (posLe g) compA) L)

/-- `orig_length` from `layout_bipartite`. -/
def bip_orig_length (g : RGraph) (orientation : String) (compA compB : List ℕ)
    (L : ℕ → Vec3f) (d : Vec3f → Vec3f → ℚ) : ℚ :=
  calculate_edge_lengths g (pySort (posLe g) compA ++ pySort (posLe g) compB)
    (bip_orig_layout g orientation compA compB L) d

/-- Layout after re-placing `compB` in reversed order (the fallback branch
performs no reversal attempt). -/
def bip_rev_layout (g : RGraph) (orientation : String) (compA compB : List ℕ)
    (L : ℕ → Vec3f) : ℕ → Vec3f :=
  if orientation = "vertical" then
    placeColAcc 3 0 (mkRat (-3) 2) (pySort (posLe g) compB).reverse
      (bip_orig_layout g orientation compA compB L)
  else if orientation = "horizontal" then
    placeRowAcc (mkRat (-3) 2) 0 3 (pySort (posLe g) compB).reverse
      (bip_orig_layout g orientation compA compB L)
  else
    bip_orig_layout g orientation compA compB L

/-- `reversed_length` from `layout_bipartite`. -/
def bip_rev_length (g : RGraph) (orientation : String) (compA compB : List ℕ)
    (L : ℕ → Vec3f) (d : Vec3f → Vec3f → ℚ) : ℚ :=
  calculate_edge_lengths g (pySort (posLe g) compA ++ pySort (posLe g) compB)
    (bip_rev_layout g orientation compA compB L) d

/-- `layout_bipartite(compA_nodes, compB_nodes, sub_layout)` from
`BinderIntraInteraction.run`. -/
def layout_bipartite (g : RGraph) (orientation : String) (compA compB : List ℕ)
    (L : ℕ → Vec3f) (d : Vec3f → Vec3f → ℚ) : ℕ → Vec3f :=
  if orientation = "vertical" then
    if bip_rev_length g orientation compA compB L d <
        bip_orig_length g orientation compA compB L d
    then bip_rev_layout g orientation compA compB L
    else placeColAcc 3 0 (mkRat (-3) 2) (pySort (posLe g) compB)
      (bip_rev_layout g orientation compA compB L)
  else if orientation = "horizontal" then
    if bip_rev_length g orientation compA compB L d <
        bip_orig_length g orientation compA compB L d
    then bip_rev_layout g orientation compA compB L
    else placeRowAcc (mkRat (-3) 2) 0 3 (pySort (posLe g) compB)
      (bip_rev_layout g orientation compA compB L)
  else
    bip_orig_layout g orientation compA compB L

end Intra

/-! ## Claim C1 — the two-candidate layout heuristic keeps the shorter total -/

/-- Squared Euclidean distance between two layout vectors, a concrete instance
of the distance parameter used for evaluating the optimizer on explicit
inputs. -/
def sqDistQ (u v : Vec3f) : ℚ :=
  qadd (qadd (qmul (qsub u.x v.x) (qsub u.x v.x))
             (qmul (qsub u.y v.y) (qsub u.y v.y)))
       (qmul (qsub u.z v.z) (qsub u.z v.z))

/-- All-zeros base layout. -/
def zeroLayout : ℕ → Vec3f := fun _ => ⟨0, 0, 0⟩

/-- Two-node, one-edge graph used by the C1 counterexample and witness. -/
def c1Graph : RGraph :=
  { nodes := [default, default],
    edges := [⟨0, 1, "HBOND:SC_SC", 0, 0, "", "", "", "", "", "", 0⟩] }

/--
Claim C1, as stated, is false: it asserts the chosen-arrangement property for
*any* two ordered node sequences.  When the two sequences share a node,
`layout_bipartite_subgraph`'s revert branch replays only the target-row
placement, which does not reproduce the measured baseline layout (in the
baseline the shared node's coordinate was subsequently overwritten by the
binder-row placement), so the retained arrangement can be strictly longer
than the non-reversed baseline.  Concretely, with binder list `[0, 1]`,
target list `[1]` and one edge `0–1`: the baseline places node 1 at
`(1.5, 3)` (binder row), total squared length `6.75`; the reversed and the
reverted placements both put node 1 at `(0, 0)`, total `27`; the code
measures `27 ≥ 6.75` and "reverts", leaving total `27 > 6.75` in place.
(At this input every measured segment is axis-aligned, so the genuine
floating-point Euclidean totals `4.5` / `9` / `9` violate the claim the same
way.)
-/
theorem c1_counterexample :
    c1Graph.edges ≠ [] ∧
    ¬ (calculate_edge_lengths c1Graph ([0, 1] ++ [1])
          (BT.layout_bipartite_subgraph c1Graph [0, 1] [1] zeroLayout sqDistQ)
          sqDistQ ≤
        BT.sub_orig_length c1Graph [0, 1] [1] zeroLayout sqDistQ) := by
  constructor
  · decide
  · decide

/--
Claim C1 (amended): for any two ordered node sequences that are *disjoint*
(as the binder/target chains and the intra-chain components always are), any
edge set with a nonempty edge list, and any evaluation `d` of the edge-length
function, both bipartite layout optimizers (`layout_bipartite_subgraph` from
`BinderTargetInteraction.py`, and `layout_bipartite` from
`BinderIntraInteraction.py` under every orientation string) leave in place a
coordinate assignment whose total edge length is less than or equal to the
non-reversed baseline arrangement, and when the reversed total is not
strictly smaller — in particular on ties — the retained assignment is exactly
the non-reversed baseline arrangement.  (`layout_bipartite` needs no
disjointness: its revert branch replays the same placement that produced the
baseline.)
-/
theorem c1_shorter_kept (g : RGraph) (binder target compA compB : List ℕ)
    (orientation : String) (L M : ℕ → Vec3f) (d : Vec3f → Vec3f → ℚ)
    (hdisj : ∀ n ∈ binder, n ∉ target) (hne : g.edges ≠ []) :
    (calculate_edge_lengths g (binder ++ target)
        (BT.layout_bipartite_subgraph g binder target L d) d ≤
          BT.sub_orig_length g binder target L d ∧
      (BT.sub_orig_length g binder target L d ≤
          BT.sub_rev_length g binder target L d →
        BT.layout_bipartite_subgraph g binder target L d =
          BT.sub_orig_layout binder target L)) ∧
    (calculate_edge_lengths g
        (pySort (Intra.posLe g) compA ++ pySort (Intra.posLe g) compB)
        (Intra.layout_bipartite g orientation compA compB M d) d ≤
          Intra.bip_orig_length g orientation compA compB M d ∧
      (Intra.bip_orig_length g orientation compA compB M d ≤
          Intra.bip_rev_length g orientation compA compB M d →
        Intra.layout_bipartite g orientation compA compB M d =
          Intra.bip_orig_layout g orientation compA compB M)) := by
  constructor
  · unfold BT.layout_bipartite_subgraph
    by_cases hlt : BT.sub_rev_length g binder target L d <
        BT.sub_orig_length g binder target L d
    · rw [if_pos hlt]
      refine ⟨le_of_lt hlt, ?_⟩
      intro hle
      exact absurd hlt (not_lt.mpr hle)
    · rw [if_neg hlt, BT.sub_replay binder target L hdisj]
      exact ⟨le_refl _, fun _ => rfl⟩
  · by_cases hv : orientation = "vertical"
    · subst hv
      unfold Intra.layout_bipartite
      rw [if_pos rfl]
      by_cases hlt : Intra.bip_rev_length g "vertical" compA compB M d <
          Intra.bip_orig_length g "vertical" compA compB M d
      · rw [if_pos hlt]
        refine ⟨le_of_lt hlt, ?_⟩
        intro hle
        exact absurd hlt (not_lt.mpr hle)
      · rw [if_neg hlt]
        have hrepl : placeColAcc 3 0 (mkRat (-3) 2) (pySort (Intra.posLe g) compB)
            (Intra.bip_rev_layout g "vertical" compA compB M) =
            Intra.bip_orig_layout g "vertical" compA compB M := by
          unfold Intra.bip_rev_layout Intra.bip_orig_layout
          rw [if_pos rfl, if_pos rfl]
          exact placeColAcc_replay _ _ _ _ _
        rw [hrepl]
        exact ⟨le_refl _, fun _ => rfl⟩
    · by_cases hh : orientation = "horizontal"
      · subst hh
        unfold Intra.layout_bipartite
        rw [if_neg (by decide), if_pos rfl]
        by_cases hlt : Intra.bip_rev_length g "horizontal" compA compB M d <
            Intra.bip_orig_length g "horizontal" compA compB M d
        · rw [if_pos hlt]
          refine ⟨le_of_lt hlt, ?_⟩
          intro hle
          exact absurd hlt (not_lt.mpr hle)
        · rw [if_neg hlt]
          have hrepl : placeRowAcc (mkRat (-3) 2) 0 3 (pySort (Intra.posLe g) compB)
              (Intra.bip_rev_layout g "horizontal" compA compB M) =
              Intra.bip_orig_layout g "horizontal" compA compB M := by
            unfold Intra.bip_rev_layout Intra.bip_orig_layout
            rw [if_neg (by decide), if_pos rfl, if_neg (by decide), if_pos rfl]
            exact placeRowAcc_replay _ _ _ _ _
          rw [hrepl]
          exact ⟨le_refl _, fun _ => rfl⟩
      · unfold Intra.layout_bipartite
        rw [if_neg hv, if_neg hh]
        exact ⟨le_refl _, fun _ => rfl⟩

/-- Witness for `c1_shorter_kept` on a concrete graph with disjoint binder and
target lists. -/
theorem c1_shorter_kept_witness :
    (calculate_edge_lengths c1Graph ([0] ++ [1])
        (BT.layout_bipartite_subgraph c1Graph [0] [1] zeroLayout sqDistQ)
        sqDistQ ≤
          BT.sub_orig_length c1Graph [0] [1] zeroLayout sqDistQ ∧
      (BT.sub_orig_length c1Graph [0] [1] zeroLayout sqDistQ ≤
          BT.sub_rev_length c1Graph [0] [1] zeroLayout sqDistQ →
        BT.layout_bipartite_subgraph c1Graph [0] [1] zeroLayout sqDistQ =
          BT.sub_orig_layout [0] [1] zeroLayout)) ∧
    (calculate_edge_lengths c1Graph
        (pySort (Intra.posLe c1Graph) [0] ++ pySort (Intra.posLe c1Graph) [1])
        (Intra.layout_bipartite c1Graph "vertical" [0] [1] zeroLayout sqDistQ)
        sqDistQ ≤
          Intra.bip_orig_length c1Graph "vertical" [0] [1] zeroLayout sqDistQ ∧
      (Intra.bip_orig_length c1Graph "vertical" [0] [1] zeroLayout sqDistQ ≤
          Intra.bip_rev_length c1Graph "vertical" [0] [1] zeroLayout sqDistQ →
        Intra.layout_bipartite c1Graph "vertical" [0] [1] zeroLayout sqDistQ =
          Intra.bip_orig_layout c1Graph "vertical" [0] [1] zeroLayout)) :=
  c1_shorter_kept c1Graph [0] [1] [0] [1] "vertical" zeroLayout zeroLayout
    sqDistQ (by decide) (by decide)

/-! ## ReverseLine (`src/layout/ReverseLine.py`) -/

/-- One graph node as seen by the ReverseLine plugin: its identity, its
`viewSelection` flag and its `viewLayout` coordinates. -/
structure RLEntry where
  nid : ℕ
  sel : Bool
  pos : Vec3f
deriving DecidableEq

namespace RL

/-- `get_selected_nodes(graph, view_selection)`. -/
def get_selected_nodes (st : List RLEntry) : List RLEntry :=
  st.filter (fun e => e.sel)

/-- `get_node_coordinates(graph, nodes, view_layout)`: tuples `(node, x, y)`. -/
def get_node_coordinates (sel : List RLEntry) : List (ℕ × ℚ × ℚ) :=
  sel.map (fun e => (e.nid, e.pos.x, e.pos.y))

/-- Python `min` over a nonempty list (`0` is never used by the callers,
which only pass nonempty lists). -/
def minQ : List ℚ → ℚ
  | [] => 0
  | x :: t => t.foldl min x

/-- Python `max` over a nonempty list. -/
def maxQ : List ℚ → ℚ
  | [] => 0
  | x :: t => t.foldl max x

/-- `determine_orientation(coords)`: `is_horizontal = (range_x >= range_y)`. -/
def determine_orientation (coords : List (ℕ × ℚ × ℚ)) : Bool :=
  decide (qsub (maxQ (coords.map (fun c => c.2.2))) (minQ (coords.map (fun c => c.2.2))) ≤
          qsub (maxQ (coords.map (fun c => c.2.1))) (minQ (coords.map (fun c => c.2.1))))

/-- The sort key used by `sort_coordinates` and `reverse_node_positions`:
the `x` coordinate for a horizontal line, else the `y` coordinate. -/
def key (horiz : Bool) (c : ℕ × ℚ × ℚ) : ℚ :=
  if horiz then c.2.1 else c.2.2

/-- `sort_coordinates(coords, is_horizontal)`. -/
def sort_coordinates (coords : List (ℕ × ℚ × ℚ)) (horiz : Bool) :
    List (ℕ × ℚ × ℚ) :=
  pySort (fun a b => decide (key horiz a ≤ key horiz b)) coords

/-- `view_layout[node] = v` over the whole node list. -/
def setPos (st : List RLEntry) (n : ℕ) (v : Vec3f) : List RLEntry :=
  st.map (fun e => if e.nid = n then { e with pos := v } else e)

/-- The per-update new coordinate vector assigned by
`reverse_node_positions`: the reversed key at the same sorted index, the
other coordinate kept, `z` set to `0`. -/
def updVec (horiz : Bool) (u : (ℕ × ℚ × ℚ) × ℚ) : Vec3f :=
  if horiz then ⟨u.2, u.1.2.2, 0⟩ else ⟨u.1.2.1, u.2, 0⟩

/-- `reverse_node_positions(graph, coords, view_layout, is_horizontal)`:
assign the reversed sorted positions back in sorted order. -/
def reverse_node_positions (st : List RLEntry) (coords : List (ℕ × ℚ × ℚ))
    (horiz : Bool) : List RLEntry :=
  (coords.zip ((coords.map (key horiz)).reverse)).foldl
    (fun s u => setPos s u.1.1 (updVec horiz u)) st

/-- Local `selected_nodes` of `ReverseLine.run`. -/
def selectedOf (st : List RLEntry) : List RLEntry := get_selected_nodes st

/-- Local `coords` of `ReverseLine.run`. -/
def coordsOf (st : List RLEntry) : List (ℕ × ℚ × ℚ) :=
  get_node_coordinates (selectedOf st)

/-- Local `is_horizontal` of `ReverseLine.run`. -/
def horizOf (st : List RLEntry) : Bool := determine_orientation (coordsOf st)

/-- Local `sorted_coords` of `ReverseLine.run`. -/
def sortedOf (st : List RLEntry) : List (ℕ × ℚ × ℚ) :=
  sort_coordinates (coordsOf st) (horizOf st)

/-- The zipped update list built inside `reverse_node_positions` when called
from `run`: each sorted coordinate paired with the reversed key at the same
index. -/
def upsOf (st : List RLEntry) : List ((ℕ × ℚ × ℚ) × ℚ) :=
  (sortedOf st).zip (((sortedOf st).map (key (horizOf st))).reverse)

/-- `ReverseLine.run`. -/
def run (st : List RLEntry) : List RLEntry :=
  if (selectedOf st).length < 2 then st
  else reverse_node_positions st (sortedOf st) (horizOf st)

end RL

/-- Three selected collinear nodes with a duplicated sort key, on which the
double reversal does not restore the original coordinates. -/
def c10st : List RLEntry :=
  [⟨0, true, ⟨0, 0, 0⟩⟩, ⟨1, true, ⟨1, 0, 0⟩⟩, ⟨2, true, ⟨1, 0, 0⟩⟩]

/--
Claim C10, as stated, is false: with at least two selected nodes, all
coordinates at `z = 0`, applying `ReverseLine.run` twice need not restore the
selected nodes' coordinates.  With selected nodes `0, 1, 2` at `x = 0, 1, 1`
(all `y = z = 0`), the duplicated key `1` makes the second run's stable sort
pair the reversed positions with different nodes: after two applications
node `0` sits at `x = 1` and node `1` at `x = 0`.
-/
theorem c10_counterexample :
    (¬ (RL.get_selected_nodes c10st).length < 2) ∧
    (∀ e ∈ c10st, e.sel = true → e.pos.z = 0) ∧
    RL.run (RL.run c10st) ≠ c10st := by
  refine ⟨by decide, by decide, by decide⟩

namespace RL

theorem foldl_min_or (t : List ℚ) : ∀ x : ℚ, t.foldl min x = x ∨ t.foldl min x ∈ t := by
  induction t with
  | nil => intro x; left; rfl
  | cons y t ih =>
    intro x
    rcases ih (min x y) with h | h
    · rcases min_choice x y with h' | h'
      · left; rw [List.foldl_cons, h, h']
      · right; rw [List.foldl_cons, h, h']; exact List.mem_cons_self _ _
    · right; exact List.mem_cons_of_mem _ h

theorem foldl_min_le (t : List ℚ) : ∀ x : ℚ, t.foldl min x ≤ x ∧ ∀ y ∈ t, t.foldl min x ≤ y := by
  induction t with
  | nil => intro x; exact ⟨le_refl x, fun y hy => absurd hy (List.not_mem_nil y)⟩
  | cons z t ih =>
    intro x
    refine ⟨le_trans (ih (min x z)).1 (min_le_left x z), ?_⟩
    intro y hy
    rcases List.mem_cons.mp hy with rfl | hy
    · exact le_trans (ih (min x y)).1 (min_le_right x y)
    · exact (ih (min x z)).2 y hy

theorem minQ_mem (l : List ℚ) (h : l ≠ []) : minQ l ∈ l := by
  cases l with
  | nil => exact absurd rfl h
  | cons x t =>
    rcases foldl_min_or t x with h' | h'
    · rw [minQ, h']; exact List.mem_cons_self _ _
    · exact List.mem_cons_of_mem _ h'

theorem minQ_le (l : List ℚ) (y : ℚ) (hy : y ∈ l) : minQ l ≤ y := by
  cases l with
  | nil => cases hy
  | cons x t =>
    rcases List.mem_cons.mp hy with rfl | hy
    · exact (foldl_min_le t y).1
    · exact (foldl_min_le t x).2 y hy

theorem minQ_perm {l l' : List ℚ} (p : l.Perm l') : minQ l = minQ l' := by
  cases l with
  | nil => rw [← p.nil_eq]
  | cons x t =>
    have hne' : l' ≠ [] := by
      intro h
      rw [h] at p
      exact List.cons_ne_nil x t p.eq_nil
    exact le_antisymm
      (minQ_le (x :: t) (minQ l') (p.mem_iff.mpr (minQ_mem l' hne')))
      (minQ_le l' (minQ (x :: t)) (p.mem_iff.mp (minQ_mem (x :: t) (List.cons_ne_nil x t))))

theorem foldl_max_or (t : List ℚ) : ∀ x : ℚ, t.foldl max x = x ∨ t.foldl max x ∈ t := by
  induction t with
  | nil => intro x; left; rfl
  | cons y t ih =>
    intro x
    rcases ih (max x y) with h | h
    · rcases max_choice x y with h' | h'
      · left; rw [List.foldl_cons, h, h']
      · right; rw [List.foldl_cons, h, h']; exact List.mem_cons_self _ _
    · right; exact List.mem_cons_of_mem _ h

theorem foldl_le_max (t : List ℚ) : ∀ x : ℚ, x ≤ t.foldl max x ∧ ∀ y ∈ t, y ≤ t.foldl max x := by
  induction t with
  | nil => intro x; exact ⟨le_refl x, fun y hy => absurd hy (List.not_mem_nil y)⟩
  | cons z t ih =>
    intro x
    refine ⟨le_trans (le_max_left x z) (ih (max x z)).1, ?_⟩
    intro y hy
    rcases List.mem_cons.mp hy with rfl | hy
    · exact le_trans (le_max_right x y) (ih (max x y)).1
    · exact (ih (max x z)).2 y hy

theorem maxQ_mem (l : List ℚ) (h : l ≠ []) : maxQ l ∈ l := by
  cases l with
  | nil => exact absurd rfl h
  | cons x t =>
    rcases foldl_max_or t x with h' | h'
    · rw [maxQ, h']; exact List.mem_cons_self _ _
    · exact List.mem_cons_of_mem _ h'

theorem le_maxQ (l : List ℚ) (y : ℚ) (hy : y ∈ l) : y ≤ maxQ l := by
  cases l with
  | nil => cases hy
  | cons x t =>
    rcases List.mem_cons.mp hy with rfl | hy
    · exact (foldl_le_max t y).1
    · exact (foldl_le_max t x).2 y hy

theorem maxQ_perm {l l' : List ℚ} (p : l.Perm l') : maxQ l = maxQ l' := by
  cases l with
  | nil => rw [← p.nil_eq]
  | cons x t =>
    have hne' : l' ≠ [] := by
      intro h
      rw [h] at p
      exact List.cons_ne_nil x t p.eq_nil
    exact le_antisymm
      (le_maxQ l' (maxQ (x :: t)) (p.mem_iff.mp (maxQ_mem (x :: t) (List.cons_ne_nil x t))))
      (le_maxQ (x :: t) (maxQ l') (p.mem_iff.mpr (maxQ_mem l' hne')))

theorem determine_orientation_congr (c₁ c₂ : List (ℕ × ℚ × ℚ))
    (hx : (c₁.map (fun c => c.2.1)).Perm (c₂.map (fun c => c.2.1)))
    (hy : (c₁.map (fun c => c.2.2)).Perm (c₂.map (fun c => c.2.2))) :
    determine_orientation c₁ = determine_orientation c₂ := by
  unfold determine_orientation
  rw [minQ_perm hx, maxQ_perm hx, minQ_perm hy, maxQ_perm hy]

/-- Value paired with a node id in an update list (proof-side accessor for
the `reversed_positions[i]` assignment). -/
def rkOf (ups : List ((ℕ × ℚ × ℚ) × ℚ)) (n : ℕ) : ℚ :=
  match ups.find? (fun u => u.1.1 = n) with
  | some u => u.2
  | none => 0

/-- Effect of the assignment loop of `reverse_node_positions` on one entry. -/
def applyUpd (horiz : Bool) (ups : List ((ℕ × ℚ × ℚ) × ℚ)) (e : RLEntry) : RLEntry :=
  match ups.find? (fun u => u.1.1 = e.nid) with
  | some u => { e with pos := updVec horiz u }
  | none => e

/-- New coordinate tuple of a selected node after one `reverse_node_positions`
pass: the key coordinate is replaced by the paired reversed key, the other
coordinate kept. -/
def gShift (horiz : Bool) (ups : List ((ℕ × ℚ × ℚ) × ℚ)) (c : ℕ × ℚ × ℚ) : ℕ × ℚ × ℚ :=
  if horiz then (c.1, rkOf ups c.1, c.2.2) else (c.1, c.2.1, rkOf ups c.1)

theorem applyUpd_nid (horiz : Bool) (ups : List ((ℕ × ℚ × ℚ) × ℚ)) (e : RLEntry) :
    (applyUpd horiz ups e).nid = e.nid := by
  unfold applyUpd
  cases ups.find? (fun u => u.1.1 = e.nid) <;> rfl

theorem applyUpd_sel (horiz : Bool) (ups : List ((ℕ × ℚ × ℚ) × ℚ)) (e : RLEntry) :
    (applyUpd horiz ups e).sel = e.sel := by
  unfold applyUpd
  cases ups.find? (fun u => u.1.1 = e.nid) <;> rfl

theorem foldl_setPos_eq (horiz : Bool) (ups : List ((ℕ × ℚ × ℚ) × ℚ))
    (st : List RLEntry) (h : (ups.map (fun u => u.1.1)).Nodup) :
    ups.foldl (fun s u => setPos s u.1.1 (updVec horiz u)) st =
      st.map (applyUpd horiz ups) := by
  induction ups generalizing st with
  | nil =>
    rw [List.foldl_nil]
    have : applyUpd horiz [] = id := by
      funext e
      unfold applyUpd
      rfl
    rw [this, List.map_id]
  | cons u ups ih =>
    rw [List.map_cons, List.nodup_cons] at h
    rw [List.foldl_cons, ih _ h.2]
    unfold setPos
    rw [List.map_map]
    refine List.map_congr_left ?_
    intro e _
    simp only [Function.comp]
    by_cases hnid : e.nid = u.1.1
    · rw [if_pos hnid]
      unfold applyUpd
      have hnone : ups.find? (fun v => v.1.1 = e.nid) = none := by
        rw [List.find?_eq_none]
        intro v hv
        simp only [decide_eq_true_eq]
        intro hveq
        have hmm : u.1.1 ∈ ups.map (fun u => u.1.1) := by
          rw [← hnid, ← hveq]
          exact List.mem_map_of_mem (fun u => u.1.1) hv
        exact h.1 hmm
      have hhead : (decide (u.1.1 = e.nid)) = true := by
        simp [hnid]
      rw [List.find?_cons]
      simp only [hhead, hnone]
    · rw [if_neg hnid]
      unfold applyUpd
      have hhead : (decide (u.1.1 = e.nid)) = false := by
        simp only [decide_eq_false_iff_not]
        exact fun hh => hnid hh.symm
      rw [List.find?_cons]
      simp only [hhead]

theorem find?_eq_of_mem_nodup (ups : List ((ℕ × ℚ × ℚ) × ℚ))
    (h : (ups.map (fun u => u.1.1)).Nodup) (u : (ℕ × ℚ × ℚ) × ℚ) (hu : u ∈ ups) :
    ups.find? (fun v => v.1.1 = u.1.1) = some u := by
  induction ups with
  | nil => cases hu
  | cons w ups ih =>
    rw [List.map_cons, List.nodup_cons] at h
    rcases List.mem_cons.mp hu with rfl | hu
    · rw [List.find?_cons]
      simp
    · have hne : (decide (w.1.1 = u.1.1)) = false := by
        simp only [decide_eq_false_iff_not]
        intro hh
        exact h.1 (hh ▸ List.mem_map_of_mem (fun v => v.1.1) hu)
      rw [List.find?_cons]
      simp only [hne]
      exact ih h.2 hu

theorem map_rkOf_zip (S : List (ℕ × ℚ × ℚ)) (r : List ℚ)
    (h : (S.map (fun c => c.1)).Nodup) (hlen : S.length = r.length) :
    S.map (fun c => rkOf (S.zip r) c.1) = r := by
  induction S generalizing r with
  | nil =>
    cases r with
    | nil => rfl
    | cons v r' => cases hlen
  | cons c S' ih =>
    cases r with
    | nil => cases hlen
    | cons v r' =>
      rw [List.map_cons, List.nodup_cons] at h
      rw [List.zip_cons_cons, List.map_cons]
      congr 1
      · unfold rkOf
        rw [List.find?_cons]
        simp
      · have step : S'.map (fun c' => rkOf ((c, v) :: S'.zip r') c'.1) =
            S'.map (fun c' => rkOf (S'.zip r') c'.1) := by
          refine List.map_congr_left ?_
          intro c' hc'
          unfold rkOf
          have hne : (decide ((c, v).1.1 = c'.1)) = false := by
            simp only [decide_eq_false_iff_not]
            intro hh
            exact h.1 (hh ▸ List.mem_map_of_mem (fun x => x.1) hc')
          rw [List.find?_cons]
          simp only [hne]
        rw [step]
        exact ih r' h.2 (Nat.succ_injective hlen)

theorem zip_reverse {α β : Type} (l : List α) (r : List β)
    (hlen : l.length = r.length) :
    l.reverse.zip r.reverse = (l.zip r).reverse := by
  induction l generalizing r with
  | nil =>
    cases r with
    | nil => rfl
    | cons v r' => cases hlen
  | cons a l' ih =>
    cases r with
    | nil => cases hlen
    | cons b r' =>
      have hlen' : l'.length = r'.length := Nat.succ_injective hlen
      rw [List.reverse_cons, List.reverse_cons,
        List.zip_append (by rw [List.length_reverse, List.length_reverse, hlen']),
        ih r' hlen', List.zip_cons_cons, List.zip_nil_right,
        List.zip_cons_cons, List.reverse_cons]

end RL

namespace RL

theorem zip_self_map {α β : Type} (l : List α) (f : α → β) :
    l.zip (l.map f) = l.map (fun a => (a, f a)) := by
  induction l with
  | nil => rfl
  | cons a t ih => rw [List.map_cons, List.zip_cons_cons, ih, List.map_cons]

theorem pairwise_lt_of_pairwise_le_nodup {α : Type} (k : α → ℚ) (l : List α)
    (h1 : l.Pairwise (fun a b => k a ≤ k b)) (h2 : (l.map k).Nodup) :
    l.Pairwise (fun a b => k a < k b) :=
  (h1.and (List.pairwise_map.mp h2)).imp (fun h => lt_of_le_of_ne h.1 h.2)

theorem gShift_fst (horiz : Bool) (ups : List ((ℕ × ℚ × ℚ) × ℚ)) (c : ℕ × ℚ × ℚ) :
    (gShift horiz ups c).1 = c.1 := by
  cases horiz <;> rfl

theorem key_gShift (horiz : Bool) (ups : List ((ℕ × ℚ × ℚ) × ℚ)) (c : ℕ × ℚ × ℚ) :
    key horiz (gShift horiz ups c) = rkOf ups c.1 := by
  cases horiz <;> rfl

theorem run_eq_map (st : List RLEntry)
    (hguard : ¬ (selectedOf st).length < 2)
    (hnodup : ((upsOf st).map (fun u => u.1.1)).Nodup) :
    run st = st.map (applyUpd (horizOf st) (upsOf st)) := by
  unfold run
  rw [if_neg hguard]
  unfold reverse_node_positions
  exact foldl_setPos_eq (horizOf st) (upsOf st) st hnodup

end RL

namespace RL

/-- The new coordinate vector assigned to a selected entry by the first
`reverse_node_positions` pass. -/
def updOf (st : List RLEntry) (e : RLEntry) : Vec3f :=
  updVec (horizOf st) ((e.nid, e.pos.x, e.pos.y), rkOf (upsOf st) e.nid)

theorem double_reverse_restore (st : List RLEntry)
    (hids : (st.map (fun e => e.nid)).Nodup)
    (hguard : ¬ (selectedOf st).length < 2)
    (hz : ∀ e ∈ st, e.sel = true → e.pos.z = 0)
    (hkeys : ((coordsOf st).map (key (horizOf st))).Nodup) :
    run (run st) = st ∧
    (run st).filter (fun e => !e.sel) = st.filter (fun e => !e.sel) ∧
    (run st).map (fun e => (e.nid, e.sel)) = st.map (fun e => (e.nid, e.sel)) := by
  have hsel_nodup : ((selectedOf st).map (fun e => e.nid)).Nodup :=
    List.Nodup.sublist (List.Sublist.map _ (List.filter_sublist st)) hids
  have hcoords_fst : (coordsOf st).map (fun c => c.1) =
      (selectedOf st).map (fun e => e.nid) := by
    unfold coordsOf get_node_coordinates
    rw [List.map_map]
    rfl
  have hS_perm : (sortedOf st).Perm (coordsOf st) := pySort_perm _ _
  have hS_fst_nodup : ((sortedOf st).map (fun c => c.1)).Nodup := by
    rw [(hS_perm.map _).nodup_iff, hcoords_fst]
    exact hsel_nodup
  have hlenrev : (sortedOf st).length ≤
      (((sortedOf st).map (key (horizOf st))).reverse).length := by
    rw [List.length_reverse, List.length_map]
  have hups_fst : (upsOf st).map (fun u => u.1.1) =
      (sortedOf st).map (fun c => c.1) := by
    unfold upsOf
    rw [show (fun (u : (ℕ × ℚ × ℚ) × ℚ) => u.1.1) =
        ((fun c : ℕ × ℚ × ℚ => c.1) ∘ Prod.fst) from rfl,
      ← List.map_map, List.map_fst_zip _ _ hlenrev]
  have hups_nodup : ((upsOf st).map (fun u => u.1.1)).Nodup := by
    rw [hups_fst]
    exact hS_fst_nodup
  have hrun : run st = st.map (applyUpd (horizOf st) (upsOf st)) :=
    run_eq_map st hguard hups_nodup
  have hrevkeys : (sortedOf st).map (fun c => rkOf (upsOf st) c.1) =
      ((sortedOf st).map (key (horizOf st))).reverse :=
    map_rkOf_zip _ _ hS_fst_nodup (by rw [List.length_reverse, List.length_map])
  have hups_eq : upsOf st =
      (sortedOf st).map (fun c => (c, rkOf (upsOf st) c.1)) := by
    have hU : upsOf st =
        (sortedOf st).zip (((sortedOf st).map (key (horizOf st))).reverse) := rfl
    conv_lhs => rw [hU, ← hrevkeys]
    exact zip_self_map _ _
  have hmemS_ups : ∀ c ∈ sortedOf st, (c, rkOf (upsOf st) c.1) ∈ upsOf st := by
    intro c hc
    have hmm : (c, rkOf (upsOf st) c.1) ∈
        (sortedOf st).map (fun c' => (c', rkOf (upsOf st) c'.1)) :=
      List.mem_map_of_mem _ hc
    rw [← hups_eq] at hmm
    exact hmm
  have hproj_mem : ∀ e ∈ selectedOf st,
      (e.nid, e.pos.x, e.pos.y) ∈ sortedOf st := by
    intro e he
    unfold sortedOf sort_coordinates
    rw [pySort_mem]
    unfold coordsOf get_node_coordinates
    exact List.mem_map_of_mem _ he
  have hfind : ∀ e ∈ selectedOf st,
      (upsOf st).find? (fun v => v.1.1 = e.nid) =
        some ((e.nid, e.pos.x, e.pos.y), rkOf (upsOf st) e.nid) := by
    intro e he
    exact find?_eq_of_mem_nodup (upsOf st) hups_nodup _
      (hmemS_ups _ (hproj_mem e he))
  have hF1_sel_eq : ∀ e ∈ selectedOf st,
      applyUpd (horizOf st) (upsOf st) e = { e with pos := updOf st e } := by
    intro e he
    unfold applyUpd updOf
    rw [hfind e he]
  have hnid_not : ∀ e ∈ st, e.sel = false →
      e.nid ∉ (upsOf st).map (fun u => u.1.1) := by
    intro e he hsel hmem
    rw [hups_fst, (hS_perm.map _).mem_iff, hcoords_fst] at hmem
    obtain ⟨e', he', hnid⟩ := List.mem_map.mp hmem
    have he'st : e' ∈ st := List.mem_of_mem_filter he'
    have he'sel : e'.sel = true := by
      have := List.of_mem_filter he'
      simpa using this
    have heq : e' = e := List.inj_on_of_nodup_map hids he'st he hnid
    rw [heq, hsel] at he'sel
    cases he'sel
  have hF1_unsel : ∀ e ∈ st, e.sel = false →
      applyUpd (horizOf st) (upsOf st) e = e := by
    intro e he hsel
    unfold applyUpd
    have hnone : (upsOf st).find? (fun v => v.1.1 = e.nid) = none := by
      rw [List.find?_eq_none]
      intro v hv hveq
      refine hnid_not e he hsel ?_
      have hveq' : v.1.1 = e.nid := by simpa using hveq
      rw [← hveq']
      exact List.mem_map_of_mem _ hv
    rw [hnone]
  have hsel' : selectedOf (run st) =
      (selectedOf st).map (applyUpd (horizOf st) (upsOf st)) := by
    rw [hrun]
    unfold selectedOf get_selected_nodes
    rw [List.filter_map]
    have hpred : ((fun e : RLEntry => e.sel) ∘ applyUpd (horizOf st) (upsOf st)) =
        (fun e : RLEntry => e.sel) := by
      funext e
      simp [Function.comp, applyUpd_sel]
    rw [hpred]
  have hcoords' : coordsOf (run st) =
      (coordsOf st).map (gShift (horizOf st) (upsOf st)) := by
    unfold coordsOf
    rw [hsel']
    unfold get_node_coordinates
    rw [List.map_map, List.map_map]
    refine List.map_congr_left ?_
    intro e he
    simp only [Function.comp]
    rw [hF1_sel_eq e he]
    cases hh : horizOf st <;>
      simp [updOf, updVec, gShift, hh]
  have hkg : (coordsOf st).map
      (fun c => key (horizOf st) (gShift (horizOf st) (upsOf st) c)) =
      (coordsOf st).map (fun c => rkOf (upsOf st) c.1) :=
    List.map_congr_left (fun c _ => key_gShift _ _ c)
  have hperm_rk : ((coordsOf st).map (fun c => rkOf (upsOf st) c.1)).Perm
      ((coordsOf st).map (key (horizOf st))) :=
    ((hS_perm.symm).map _).trans
      ((List.Perm.of_eq hrevkeys).trans
        ((List.reverse_perm _).trans (hS_perm.map _)))
  have horiz' : horizOf (run st) = horizOf st := by
    unfold horizOf
    rw [hcoords']
    refine determine_orientation_congr _ _ ?_ ?_
    · rcases Bool.dichotomy (horizOf st) with hh | hh
      · -- vertical: x coordinates unchanged by gShift
        rw [List.map_map]
        refine List.Perm.of_eq (List.map_congr_left ?_)
        intro c _
        simp [Function.comp, gShift, hh]
      · -- horizontal: new x coordinates are a permutation of the old keys
        rw [List.map_map]
        have hx1 : (coordsOf st).map
            ((fun c : ℕ × ℚ × ℚ => c.2.1) ∘ gShift (horizOf st) (upsOf st)) =
            (coordsOf st).map (fun c => rkOf (upsOf st) c.1) := by
          refine List.map_congr_left ?_
          intro c _
          simp [Function.comp, gShift, hh]
        have hx2 : (coordsOf st).map (key (horizOf st)) =
            (coordsOf st).map (fun c => c.2.1) := by
          refine List.map_congr_left ?_
          intro c _
          simp [key, hh]
        rw [hx1, ← hx2]
        exact hperm_rk
    · rcases Bool.dichotomy (horizOf st) with hh | hh
      · -- vertical: new y coordinates are a permutation of the old keys
        rw [List.map_map]
        have hy1 : (coordsOf st).map
            ((fun c : ℕ × ℚ × ℚ => c.2.2) ∘ gShift (horizOf st) (upsOf st)) =
            (coordsOf st).map (fun c => rkOf (upsOf st) c.1) := by
          refine List.map_congr_left ?_
          intro c _
          simp [Function.comp, gShift, hh]
        have hy2 : (coordsOf st).map (key (horizOf st)) =
            (coordsOf st).map (fun c => c.2.2) := by
          refine List.map_congr_left ?_
          intro c _
          simp [key, hh]
        rw [hy1, ← hy2]
        exact hperm_rk
      · -- horizontal: y coordinates unchanged by gShift
        rw [List.map_map]
        refine List.Perm.of_eq (List.map_congr_left ?_)
        intro c _
        simp [Function.comp, gShift, hh]
  have htot : ∀ a b : ℕ × ℚ × ℚ,
      (decide (key (horizOf st) a ≤ key (horizOf st) b) ||
       decide (key (horizOf st) b ≤ key (horizOf st) a)) = true := by
    intro a b
    rcases le_total (key (horizOf st) a) (key (horizOf st) b) with h | h
    · simp [h]
    · simp [h]
  have htrans : ∀ a b c : ℕ × ℚ × ℚ,
      decide (key (horizOf st) a ≤ key (horizOf st) b) = true →
      decide (key (horizOf st) b ≤ key (horizOf st) c) = true →
      decide (key (horizOf st) a ≤ key (horizOf st) c) = true := by
    intro a b c hab hbc
    simp only [decide_eq_true_eq] at hab hbc ⊢
    exact le_trans hab hbc
  have hkgS : (sortedOf st).map
      (key (horizOf st) ∘ gShift (horizOf st) (upsOf st)) =
      ((sortedOf st).map (key (horizOf st))).reverse := by
    rw [← hrevkeys]
    exact List.map_congr_left (fun c _ => key_gShift _ _ c)
  have hkeysS : ((sortedOf st).map (key (horizOf st))).Nodup := by
    rw [(hS_perm.map _).nodup_iff]
    exact hkeys
  have hS_strict : (sortedOf st).Pairwise
      (fun a b => key (horizOf st) a < key (horizOf st) b) := by
    refine pairwise_lt_of_pairwise_le_nodup _ _ ?_ hkeysS
    exact (pySort_pairwise _ htot htrans _).imp (fun h => by
      simpa using h)
  have hstart1 : sortedOf (run st) =
      pySort (fun a b => decide (key (horizOf st) a ≤ key (horizOf st) b))
        ((coordsOf st).map (gShift (horizOf st) (upsOf st))) := by
    unfold sortedOf sort_coordinates
    rw [hcoords', horiz']
  have hsorted' : sortedOf (run st) =
      ((sortedOf st).map (gShift (horizOf st) (upsOf st))).reverse := by
    rw [hstart1]
    haveI : IsAntisymm (ℕ × ℚ × ℚ)
        (fun a b => key (horizOf st) a < key (horizOf st) b) :=
      ⟨fun a b h1 h2 => absurd (lt_trans h1 h2) (lt_irrefl _)⟩
    refine List.eq_of_perm_of_sorted
      (r := fun a b => key (horizOf st) a < key (horizOf st) b) ?_ ?_ ?_
    · exact (pySort_perm _ _).trans
        (((hS_perm.symm).map _).trans (List.reverse_perm _).symm)
    · refine pairwise_lt_of_pairwise_le_nodup _ _ ?_ ?_
      · exact (pySort_pairwise _ htot htrans _).imp (fun h => by simpa using h)
      · refine (List.Perm.nodup_iff ?_).mpr hkeysS
        refine ((pySort_perm _ _).map _).trans ?_
        rw [List.map_map]
        refine (List.Perm.of_eq (List.map_congr_left
          (fun c _ => key_gShift _ _ c))).trans ?_
        exact ((hS_perm.symm).map _).trans
          ((List.Perm.of_eq hrevkeys).trans (List.reverse_perm _))
    · show (((sortedOf st).map (gShift (horizOf st) (upsOf st))).reverse).Pairwise
        (fun a b => key (horizOf st) a < key (horizOf st) b)
      rw [List.pairwise_reverse, List.pairwise_map]
      have h1 : (((sortedOf st).map (key (horizOf st))).reverse).Pairwise
          (fun a b : ℚ => b < a) := by
        rw [List.pairwise_reverse]
        exact List.pairwise_map.mpr hS_strict
      have h2 : ((sortedOf st).map
          (key (horizOf st) ∘ gShift (horizOf st) (upsOf st))).Pairwise
          (fun a b : ℚ => b < a) := by
        rw [hkgS]
        exact h1
      exact List.pairwise_map.mp h2
  have hstart2 : upsOf (run st) = (sortedOf (run st)).zip
      (((sortedOf (run st)).map (key (horizOf (run st)))).reverse) := rfl
  have hups'_eq : upsOf (run st) = ((sortedOf st).map
      (fun c => (gShift (horizOf st) (upsOf st) c,
        key (horizOf st) c))).reverse := by
    rw [hstart2, hsorted', horiz', List.map_reverse, List.map_map, hkgS,
      List.reverse_reverse]
    rw [zip_reverse _ _ (by rw [List.length_map, List.length_map])]
    rw [List.zip_map']
  have hups'_fst : (upsOf (run st)).map (fun u => u.1.1) =
      ((sortedOf st).map (fun c => c.1)).reverse := by
    rw [hups'_eq, List.map_reverse, List.map_map]
    congr 1
    refine List.map_congr_left ?_
    intro c _
    exact gShift_fst _ _ c
  have hups'_nodup : ((upsOf (run st)).map (fun u => u.1.1)).Nodup := by
    rw [hups'_fst, List.nodup_reverse]
    exact hS_fst_nodup
  have hguard' : ¬ (selectedOf (run st)).length < 2 := by
    rw [hsel', List.length_map]
    exact hguard
  have hrun2 : run (run st) =
      (run st).map (applyUpd (horizOf (run st)) (upsOf (run st))) :=
    run_eq_map _ hguard' hups'_nodup
  have hfind' : ∀ e ∈ selectedOf st,
      (upsOf (run st)).find? (fun v => v.1.1 = e.nid) =
        some (gShift (horizOf st) (upsOf st) (e.nid, e.pos.x, e.pos.y),
          key (horizOf st) (e.nid, e.pos.x, e.pos.y)) := by
    intro e he
    have hu : (gShift (horizOf st) (upsOf st) (e.nid, e.pos.x, e.pos.y),
        key (horizOf st) (e.nid, e.pos.x, e.pos.y)) ∈ upsOf (run st) := by
      rw [hups'_eq, List.mem_reverse]
      exact List.mem_map_of_mem _ (hproj_mem e he)
    have hres := find?_eq_of_mem_nodup _ hups'_nodup _ hu
    have hpredeq : (fun v : (ℕ × ℚ × ℚ) × ℚ =>
        decide (v.1.1 = (gShift (horizOf st) (upsOf st) (e.nid, e.pos.x, e.pos.y),
          key (horizOf st) (e.nid, e.pos.x, e.pos.y)).1.1)) =
        (fun v : (ℕ × ℚ × ℚ) × ℚ => decide (v.1.1 = e.nid)) := by
      funext v
      rw [show (gShift (horizOf st) (upsOf st) (e.nid, e.pos.x, e.pos.y),
          key (horizOf st) (e.nid, e.pos.x, e.pos.y)).1.1 = e.nid from
        gShift_fst _ _ _]
    rw [hpredeq] at hres
    exact hres
  have hpoint : ∀ e ∈ st,
      applyUpd (horizOf (run st)) (upsOf (run st))
        (applyUpd (horizOf st) (upsOf st) e) = e := by
    intro e he
    cases hsel : e.sel
    · rw [hF1_unsel e he hsel]
      unfold applyUpd
      have hnone : (upsOf (run st)).find? (fun v => v.1.1 = e.nid) = none := by
        rw [List.find?_eq_none]
        intro v hv hveq
        have hveq' : v.1.1 = e.nid := by simpa using hveq
        refine hnid_not e he hsel ?_
        rw [hups_fst]
        have hv1 : v.1.1 ∈ (upsOf (run st)).map (fun u => u.1.1) :=
          List.mem_map_of_mem _ hv
        rw [hups'_fst, List.mem_reverse] at hv1
        rw [← hveq']
        exact hv1
      rw [hnone]
    · have heSel : e ∈ selectedOf st := by
        unfold selectedOf get_selected_nodes
        rw [List.mem_filter]
        exact ⟨he, by simpa using hsel⟩
      rw [hF1_sel_eq e heSel]
      unfold applyUpd
      have hf := hfind' e heSel
      rw [show ({ nid := e.nid, sel := e.sel, pos := updOf st e } : RLEntry).nid
        = e.nid from rfl, hf]
      have hz0 : e.pos.z = 0 := hz e he hsel
      have hposx : e.pos = ⟨e.pos.x, e.pos.y, 0⟩ := by
        cases hp : e.pos with
        | mk px py pz =>
          rw [hp] at hz0
          have hz0' : pz = 0 := hz0
          show Vec3f.mk px py pz = ⟨px, py, 0⟩
          rw [hz0']
      have hval : updVec (horizOf st)
          (gShift (horizOf st) (upsOf st) (e.nid, e.pos.x, e.pos.y),
            key (horizOf st) (e.nid, e.pos.x, e.pos.y)) = e.pos := by
        rcases Bool.dichotomy (horizOf st) with hh | hh <;>
          · rw [hh]
            show (⟨e.pos.x, e.pos.y, 0⟩ : Vec3f) = e.pos
            exact hposx.symm
      dsimp only
      rw [horiz', hval]
  refine ⟨?_, ?_, ?_⟩
  · rw [hrun2]
    nth_rewrite 3 [hrun]
    rw [List.map_map]
    refine (List.map_congr_left ?_).trans (List.map_id st)
    intro e he
    exact hpoint e he
  · rw [hrun]
    rw [List.filter_map]
    have hpred : ((fun e : RLEntry => !e.sel) ∘ applyUpd (horizOf st) (upsOf st)) =
        (fun e : RLEntry => !e.sel) := by
      funext e
      simp [Function.comp, applyUpd_sel]
    rw [hpred]
    refine (List.map_congr_left ?_).trans (List.map_id _)
    intro e he
    have heSt : e ∈ st := List.mem_of_mem_filter he
    have hsel : e.sel = false := by
      have := List.of_mem_filter he
      simpa using this
    exact hF1_unsel e heSt hsel
  · rw [hrun, List.map_map]
    refine List.map_congr_left ?_
    intro e _
    simp [Function.comp, applyUpd_nid, applyUpd_sel]

end RL

/--
Claim C10 (amended): applying the ReverseLine operation twice in succession
to the same graph with the same selection of at least two nodes — all of whose
coordinates have `z = 0` and whose coordinates along the detected major axis
(`x` if the selection's `x`-range is at least its `y`-range, else `y`) are
pairwise distinct — restores every node's coordinates to their values before
the first application, and nodes outside the selection are never moved by
either application (their entries, selection flags and node identities are
preserved by each run).  Without the distinct-key condition the double
application can scramble coordinates (see the counterexample).
-/
theorem c10_double_reverse (st : List RLEntry)
    (hids : (st.map (fun e => e.nid)).Nodup)
    (hsel : 2 ≤ (RL.get_selected_nodes st).length)
    (hz : ∀ e ∈ st, e.sel = true → e.pos.z = 0)
    (hkeys : ((RL.coordsOf st).map (RL.key (RL.horizOf st))).Nodup) :
    RL.run (RL.run st) = st ∧
    (RL.run st).filter (fun e => !e.sel) = st.filter (fun e => !e.sel) ∧
    (RL.run st).map (fun e => (e.nid, e.sel)) = st.map (fun e => (e.nid, e.sel)) :=
  RL.double_reverse_restore st hids (not_lt.mpr hsel) hz hkeys

/-- Concrete state for the C10 witness: two selected nodes with distinct keys
plus one unselected node. -/
def c10wit : List RLEntry :=
  [⟨0, true, ⟨0, 0, 0⟩⟩, ⟨1, true, ⟨1, 0, 0⟩⟩, ⟨2, false, ⟨5, 7, 9⟩⟩]

/-- Witness for `c10_double_reverse` at a concrete state. -/
theorem c10_double_reverse_witness :
    RL.run (RL.run c10wit) = c10wit ∧
    (RL.run c10wit).filter (fun e => !e.sel) = c10wit.filter (fun e => !e.sel) ∧
    (RL.run c10wit).map (fun e => (e.nid, e.sel)) =
      c10wit.map (fun e => (e.nid, e.sel)) :=
  c10_double_reverse c10wit (by decide) (by decide) (by decide) (by decide)

/-! ## Secondary-structure segmentation (`BinderIntraInteraction.run`, part 1) -/

theorem pairwise_lt_of_le_nodup {α β : Type} [PartialOrder β] (k : α → β)
    (l : List α) (h1 : l.Pairwise (fun a b => k a ≤ k b))
    (h2 : (l.map k).Nodup) : l.Pairwise (fun a b => k a < k b) :=
  (h1.and (List.pairwise_map.mp h2)).imp (fun h => lt_of_le_of_ne h.1 h.2)

namespace Intra

/-- A secondary-structure component (`components` entry of
`BinderIntraInteraction.run`): node list (graph index paired with its record),
shared DSSP code, start and end sequence positions. -/
structure Seg where
  nodes : List (ℕ × RNode)
  dssp : String
  startPos : ℤ
  endPos : ℤ
deriving DecidableEq

/-- The loop state of the segmentation scan: `curr_nodes`, `curr_dssp`,
`curr_start`, `curr_end`, `prev_pos` and the accumulated `components`. -/
structure SegState where
  curr : List (ℕ × RNode)
  currDssp : Option String
  currStart : Option ℤ
  currEnd : Option ℤ
  prevPos : Option ℤ
  comps : List Seg
deriving DecidableEq

/-- `d in ("H","E")`. -/
def isHE (d : String) : Bool := d = "H" || d = "E"

/-- `flush_component(node_list, dssp_code, start_p, end_p)`. -/
def flush_component (comps : List Seg) (nodes : List (ℕ × RNode))
    (d : Option String) (sp ep : Option ℤ) : List Seg :=
  if nodes ≠ [] ∧ (d = some "H" ∨ d = some "E") then
    comps ++ [⟨nodes, d.getD "", sp.getD 0, ep.getD 0⟩]
  else comps

/-- One iteration of the segmentation scan.  The source's `i == 0` branch
coincides with the empty-`curr_nodes` branch, since the initial state has
`curr_nodes = []`; `prev_pos + 1` is modelled on `Option` (it is always set
when a run is open). -/
def segStep (st : SegState) (nd : ℕ × RNode) : SegState :=
  let d := nd.2.dssp
  let p := nd.2.position
  if st.curr ≠ [] then
    if st.currDssp = some d ∧ st.prevPos.map (· + 1) = some p ∧ isHE d then
      { st with curr := st.curr ++ [nd], currEnd := some p, prevPos := some p }
    else
      let comps' := flush_component st.comps st.curr st.currDssp st.currStart st.currEnd
      if isHE d then
        { curr := [nd], currDssp := some d, currStart := some p,
          currEnd := some p, prevPos := some p, comps := comps' }
      else
        { curr := [], currDssp := none, currStart := none,
          currEnd := none, prevPos := some p, comps := comps' }
  else
    if isHE d then
      { st with curr := [nd], currDssp := some d, currStart := some p, currEnd := some p, prevPos := some p }
    else
      { st with prevPos := some p }

/-- The whole scan over the position-sorted chain-A node list. -/
def segFold (l : List (ℕ × RNode)) : SegState :=
  l.foldl segStep ⟨[], none, none, none, none, []⟩

/-- The chain-A node list (graph index paired with record). -/
def chainANodes (g : RGraph) : List (ℕ × RNode) :=
  g.nodes.enum.filter (fun p => p.2.chain = "A")

/-- Chain-A nodes sorted by ascending sequence position
(`chain_a_nodes.sort(key=get_position_int)`). -/
def chainASorted (g : RGraph) : List (ℕ × RNode) :=
  pySort (fun a b => decide (a.2.position ≤ b.2.position)) (chainANodes g)

/-- The segmentation part of `BinderIntraInteraction.run`: scan the sorted
chain-A nodes, final flush, then sort the components by start position. -/
def binderIntraComponents (g : RGraph) : List Seg :=
  let st := segFold (chainASorted g)
  let comps := flush_component st.comps st.curr st.currDssp st.currStart st.currEnd
  pySort (fun c1 c2 => decide (c1.startPos ≤ c2.startPos)) comps

/-- Well-formedness of one emitted component, as stated by claim C2: nonempty,
a shared code `H` or `E`, consecutive positions, and endpoint fields agreeing
with the first and last node. -/
@[reducible] def SegOk (c : Seg) : Prop :=
  c.nodes ≠ [] ∧ (c.dssp = "H" ∨ c.dssp = "E") ∧
  (∀ nd ∈ c.nodes, nd.2.dssp = c.dssp) ∧
  List.Chain' (fun a b => b.2.position = a.2.position + 1) c.nodes ∧
  (c.nodes.map (fun nd => nd.2.position)).head? = some c.startPos ∧
  (c.nodes.map (fun nd => nd.2.position)).getLast? = some c.endPos

/-- Two consecutive components would not have been merged: they do not share
a code with adjacent end/start positions. -/
@[reducible] def notMerge (c1 c2 : Seg) : Prop :=
  ¬ (c1.dssp = c2.dssp ∧ c2.startPos = c1.endPos + 1)

/-- Invariant of an open run. -/
def RunOk (st : SegState) : Prop :=
  ∃ D, st.currDssp = some D ∧ (D = "H" ∨ D = "E") ∧
    (∀ nd ∈ st.curr, nd.2.dssp = D) ∧
    List.Chain' (fun a b => b.2.position = a.2.position + 1) st.curr ∧
    st.currStart = (st.curr.map (fun nd => nd.2.position)).head? ∧
    st.currEnd = (st.curr.map (fun nd => nd.2.position)).getLast? ∧
    st.prevPos = (st.curr.map (fun nd => nd.2.position)).getLast?

/-- All nodes collected so far, in collection order. -/
def joined (st : SegState) : List (ℕ × RNode) :=
  (st.comps.map (fun c => c.nodes)).flatten ++ st.curr

/-- The full loop invariant of the segmentation scan (under strictly
increasing input positions). -/
structure SegInv (st : SegState) : Prop where
  comps_ok : ∀ c ∈ st.comps, SegOk c
  run_ok : st.curr ≠ [] → RunOk st
  chain_ok : List.Chain' notMerge st.comps
  bound_run : st.curr ≠ [] → ∀ cl ∈ st.comps.getLast?, ∀ D s,
    st.currDssp = some D → st.currStart = some s →
    ¬ (cl.dssp = D ∧ s = cl.endPos + 1)
  bound_gap : st.curr = [] → ∀ cl ∈ st.comps.getLast?, ∀ q,
    st.prevPos = some q → cl.endPos < q
  start_run : st.curr ≠ [] → ∀ c ∈ st.comps, ∀ s,
    st.currStart = some s → c.startPos ≤ s
  start_gap : st.curr = [] → ∀ c ∈ st.comps, ∀ q,
    st.prevPos = some q → c.startPos ≤ q
  sorted_comps : st.comps.Pairwise (fun c1 c2 => c1.startPos ≤ c2.startPos)
  init_none : st.prevPos = none → st.comps = [] ∧ st.curr = []

end Intra

/-- Executable conjunction of a relation over consecutive list elements
(used to evaluate `List.Chain'` on concrete component lists, whose library
`Decidable` instance does not reduce in the kernel). -/
def chainConsec {α : Type} (r : α → α → Bool) : List α → Bool
  | [] => true
  | [_] => true
  | a :: b :: t => r a b && chainConsec r (b :: t)

theorem chainConsec_iff {α : Type} (r : α → α → Bool) (l : List α) :
    chainConsec r l = true ↔ List.Chain' (fun a b => r a b = true) l := by
  induction l with
  | nil => simp [chainConsec]
  | cons a t ih =>
    cases t with
    | nil => simp [chainConsec]
    | cons b t' =>
      rw [chainConsec, Bool.and_eq_true, ih, List.chain'_cons]

/-- Boolean form of `Intra.notMerge`. -/
def notMergeB (c1 c2 : Intra.Seg) : Bool :=
  !(decide (c1.dssp = c2.dssp) && decide (c2.startPos = c1.endPos + 1))

theorem notMergeB_of_notMerge (c1 c2 : Intra.Seg) (h : Intra.notMerge c1 c2) :
    notMergeB c1 c2 = true := by
  unfold notMergeB
  simp only [Bool.not_eq_true', Bool.and_eq_false_iff, decide_eq_false_iff_not]
  by_cases h1 : c1.dssp = c2.dssp
  · right
    intro h2
    exact h ⟨h1, h2⟩
  · left
    exact h1

/-- Chain-A nodes of the C2 counterexample graph: positions `5, 6, 6, 7` with
codes `H, L, H, H` (a duplicated sequence position, e.g. an insertion code). -/
def c2Graph : RGraph :=
  { nodes := [
      { nodeId := "", chain := "A", position := 5, residue := "", resType := "",
        dssp := "H", degree := 0, bfactor := 0, x := 0, y := 0, z := 0,
        pdbFileName := "", model := 0 },
      { nodeId := "", chain := "A", position := 6, residue := "", resType := "",
        dssp := "L", degree := 0, bfactor := 0, x := 0, y := 0, z := 0,
        pdbFileName := "", model := 0 },
      { nodeId := "", chain := "A", position := 6, residue := "", resType := "",
        dssp := "H", degree := 0, bfactor := 0, x := 0, y := 0, z := 0,
        pdbFileName := "", model := 0 },
      { nodeId := "", chain := "A", position := 7, residue := "", resType := "",
        dssp := "H", degree := 0, bfactor := 0, x := 0, y := 0, z := 0,
        pdbFileName := "", model := 0 }],
    edges := [] }

/--
Claim C2, as stated, is false for graphs in which two chain-A nodes share a
sequence position: the segmentation of `c2Graph` (positions `5, 6, 6, 7`,
codes `H, L, H, H`) emits the components `(H, 5–5)` and `(H, 6–7)`, two
consecutive components sharing code `H` with adjacent end/start positions —
the loop could not merge them because the loop-coded duplicate position `6`
sat between them in the sorted order.
-/
theorem c2_counterexample :
    ¬ List.Chain' Intra.notMerge (Intra.binderIntraComponents c2Graph) := by
  intro h
  have h2 : chainConsec notMergeB (Intra.binderIntraComponents c2Graph) = true :=
    (chainConsec_iff _ _).mpr (h.imp (fun a b hab => notMergeB_of_notMerge a b hab))
  have h1 : chainConsec notMergeB (Intra.binderIntraComponents c2Graph) = false := by
    decide
  rw [h1] at h2
  cases h2

namespace Intra

theorem isHE_iff (d : String) : isHE d = true ↔ (d = "H" ∨ d = "E") := by
  unfold isHE
  rw [Bool.or_eq_true]
  simp

theorem head?_append_left {α : Type} (l l' : List α) (h : l ≠ []) :
    (l ++ l').head? = l.head? := by
  cases l with
  | nil => exact absurd rfl h
  | cons a t => rfl

theorem chain_head_le_last (l : List ℤ)
    (h : List.Chain' (fun a b => b = a + 1) l) :
    ∀ x ∈ l.head?, ∀ y ∈ l.getLast?, x ≤ y := by
  induction l with
  | nil => intro x hx; cases hx
  | cons a t ih =>
    intro x hx y hy
    rw [List.head?_cons, Option.mem_some_iff] at hx
    cases t with
    | nil =>
      rw [List.getLast?_singleton, Option.mem_some_iff] at hy
      omega
    | cons b t' =>
      rw [List.chain'_cons] at h
      rw [List.getLast?_cons_cons] at hy
      have hb : b ∈ (b :: t').head? := rfl
      have hby := ih h.2 b hb y hy
      have h1 := h.1
      omega

theorem mapPos_chain (l : List (ℕ × RNode))
    (h : List.Chain' (fun a b => b.2.position = a.2.position + 1) l) :
    List.Chain' (fun a b : ℤ => b = a + 1)
      (l.map (fun nd => nd.2.position)) := by
  rw [List.chain'_map]
  exact h

/-- On an open run, the flush appends exactly one well-formed component. -/
theorem flush_eq (st : SegState) (hcur : st.curr ≠ []) (hrun : RunOk st) :
    ∃ s e D, st.currStart = some s ∧ st.currEnd = some e ∧
      st.currDssp = some D ∧ st.prevPos = some e ∧ s ≤ e ∧
      flush_component st.comps st.curr st.currDssp st.currStart st.currEnd =
        st.comps ++ [⟨st.curr, D, s, e⟩] ∧
      SegOk ⟨st.curr, D, s, e⟩ := by
  obtain ⟨D, hD, hHE, hdssp, hchain, hs, he, hprev⟩ := hrun
  have hmapne : st.curr.map (fun nd => nd.2.position) ≠ [] := by
    intro hh
    exact hcur (List.map_eq_nil_iff.mp hh)
  obtain ⟨x, hx⟩ := List.exists_mem_of_ne_nil _ hmapne
  obtain ⟨shd, hshd⟩ : ∃ v, (st.curr.map (fun nd => nd.2.position)).head? = some v := by
    cases hh : (st.curr.map (fun nd => nd.2.position)).head? with
    | none => exact absurd (List.head?_eq_none_iff.mp hh) hmapne
    | some v => exact ⟨v, rfl⟩
  obtain ⟨lst, hlst⟩ : ∃ v, (st.curr.map (fun nd => nd.2.position)).getLast? = some v := by
    cases hh : (st.curr.map (fun nd => nd.2.position)).getLast? with
    | none => exact absurd (List.getLast?_eq_none_iff.mp hh) hmapne
    | some v => exact ⟨v, rfl⟩
  refine ⟨shd, lst, D, by rw [hs, hshd], by rw [he, hlst], hD,
    by rw [hprev, hlst], ?_, ?_, ?_⟩
  · exact chain_head_le_last _ (mapPos_chain _ hchain) shd hshd lst hlst
  · unfold flush_component
    rw [if_pos ⟨hcur, by rw [hD]; rcases hHE with h | h <;> rw [h] <;> simp⟩]
    rw [hD, hs, hshd, he, hlst]
    rfl
  · exact ⟨hcur, hHE, hdssp, hchain, by rw [hshd], by rw [hlst]⟩

theorem flush_nil (comps : List Seg) (d : Option String) (sp ep : Option ℤ) :
    flush_component comps [] d sp ep = comps := by
  unfold flush_component
  rw [if_neg]
  intro h
  exact h.1 rfl

theorem segStep_inv (st : SegState) (nd : ℕ × RNode) (hinv : SegInv st)
    (hgt : ∀ q, st.prevPos = some q → q < nd.2.position) :
    SegInv (segStep st nd) ∧
    joined (segStep st nd) =
      joined st ++ (if isHE nd.2.dssp then [nd] else []) ∧
    (segStep st nd).prevPos = some nd.2.position := by
  unfold segStep
  dsimp only
  split_ifs with h1 hm hA hB hC
  · -- extend the open run
    obtain ⟨D, hD, hHE2, hdssp, hchain, hsh, heh, hph⟩ := hinv.run_ok h1
    have hmapne : st.curr.map (fun nd => nd.2.position) ≠ [] := by
      intro hh
      exact h1 (List.map_eq_nil_iff.mp hh)
    refine ⟨⟨?_, ?_, ?_, ?_, ?_, ?_, ?_, ?_, ?_⟩, ?_, rfl⟩
    · exact hinv.comps_ok
    · intro _
      refine ⟨D, hD, hHE2, ?_, ?_, ?_, ?_, ?_⟩
      · intro x hx
        rcases List.mem_append.mp hx with hx | hx
        · exact hdssp x hx
        · rw [List.mem_singleton] at hx
          rw [hx]
          have hDd : st.currDssp = some nd.2.dssp := hm.1
          rw [hD, Option.some.injEq] at hDd
          exact hDd.symm
      · rw [List.chain'_append]
        refine ⟨hchain, List.chain'_singleton nd, ?_⟩
        intro x hx y hy
        rw [List.head?_cons, Option.mem_some_iff] at hy
        subst hy
        have hx' : st.curr.getLast? = some x := Option.mem_def.mp hx
        have hpx : st.prevPos = some x.2.position := by
          rw [hph, List.getLast?_map, hx', Option.map_some']
        have h2 := hm.2.1
        rw [hpx] at h2
        simp only [Option.map_some', Option.some.injEq] at h2
        omega
      · rw [List.map_append, head?_append_left _ _ hmapne]
        exact hsh
      · rw [List.map_append, List.map_cons, List.map_nil, List.getLast?_concat]
      · rw [List.map_append, List.map_cons, List.map_nil, List.getLast?_concat]
    · exact hinv.chain_ok
    · intro _
      exact hinv.bound_run h1
    · intro h
      simp at h
    · intro _
      exact hinv.start_run h1
    · intro h
      simp at h
    · exact hinv.sorted_comps
    · intro h
      simp at h
    · simp only [joined]
      rw [List.append_assoc]
  · -- merge condition holds but the code is not H or E: impossible
    exact absurd hm.2.2 hA
  · -- flush the run and open a new one from this H or E node
    obtain ⟨s, e, D, hsE, heE, hDE, hppE, hse, hfl, hok⟩ :=
      flush_eq st h1 (hinv.run_ok h1)
    rw [hfl]
    have hep : e < nd.2.position := hgt e hppE
    refine ⟨⟨?_, ?_, ?_, ?_, ?_, ?_, ?_, ?_, ?_⟩, ?_, rfl⟩
    · intro c hc
      rcases List.mem_append.mp hc with hc | hc
      · exact hinv.comps_ok c hc
      · rw [List.mem_singleton] at hc
        subst hc
        exact hok
    · intro _
      refine ⟨nd.2.dssp, rfl, (isHE_iff _).mp hB, ?_, List.chain'_singleton _,
        by simp, by simp, by simp⟩
      intro x hx
      rw [List.mem_singleton] at hx
      subst hx
      rfl
    · rw [List.chain'_append]
      refine ⟨hinv.chain_ok, List.chain'_singleton _, ?_⟩
      intro x hx y hy
      rw [List.head?_cons, Option.mem_some_iff] at hy
      subst hy
      exact hinv.bound_run h1 x hx D s hDE hsE
    · intro _ cl hcl D2 s2 hD2 hs2
      rw [List.getLast?_concat, Option.mem_some_iff] at hcl
      subst hcl
      rw [Option.some.injEq] at hD2 hs2
      dsimp only
      intro hcon
      apply hm
      refine ⟨?_, ?_, hB⟩
      · rw [hDE, hcon.1, hD2]
      · rw [hppE]
        simp only [Option.map_some', Option.some.injEq]
        have h2 := hcon.2
        omega
    · intro h
      simp at h
    · intro _ c hc s2 hs2
      rw [Option.some.injEq] at hs2
      rcases List.mem_append.mp hc with hc | hc
      · have := hinv.start_run h1 c hc s hsE
        omega
      · rw [List.mem_singleton] at hc
        subst hc
        dsimp only
        omega
    · intro h
      simp at h
    · rw [List.pairwise_append]
      refine ⟨hinv.sorted_comps, by simp, ?_⟩
      intro a ha b hb
      rw [List.mem_singleton] at hb
      subst hb
      dsimp only
      exact hinv.start_run h1 a ha s hsE
    · intro h
      simp at h
    · simp only [joined]
      simp [List.append_assoc]
  · -- flush the run; this node is a loop, so no run is open afterwards
    obtain ⟨s, e, D, hsE, heE, hDE, hppE, hse, hfl, hok⟩ :=
      flush_eq st h1 (hinv.run_ok h1)
    rw [hfl]
    have hep : e < nd.2.position := hgt e hppE
    refine ⟨⟨?_, ?_, ?_, ?_, ?_, ?_, ?_, ?_, ?_⟩, ?_, rfl⟩
    · intro c hc
      rcases List.mem_append.mp hc with hc | hc
      · exact hinv.comps_ok c hc
      · rw [List.mem_singleton] at hc
        subst hc
        exact hok
    · intro h
      exact absurd rfl h
    · rw [List.chain'_append]
      refine ⟨hinv.chain_ok, List.chain'_singleton _, ?_⟩
      intro x hx y hy
      rw [List.head?_cons, Option.mem_some_iff] at hy
      subst hy
      exact hinv.bound_run h1 x hx D s hDE hsE
    · intro h
      exact absurd rfl h
    · intro _ cl hcl q hq
      rw [List.getLast?_concat, Option.mem_some_iff] at hcl
      subst hcl
      rw [Option.some.injEq] at hq
      dsimp only
      omega
    · intro h
      exact absurd rfl h
    · intro _ c hc q hq
      rw [Option.some.injEq] at hq
      rcases List.mem_append.mp hc with hc | hc
      · have := hinv.start_run h1 c hc s hsE
        omega
      · rw [List.mem_singleton] at hc
        subst hc
        dsimp only
        omega
    · rw [List.pairwise_append]
      refine ⟨hinv.sorted_comps, by simp, ?_⟩
      intro a ha b hb
      rw [List.mem_singleton] at hb
      subst hb
      dsimp only
      exact hinv.start_run h1 a ha s hsE
    · intro h
      simp at h
    · simp only [joined]
      simp [List.append_assoc]
  · -- open a run from the empty state
    have hemp : st.curr = [] := not_not.mp h1
    refine ⟨⟨?_, ?_, ?_, ?_, ?_, ?_, ?_, ?_, ?_⟩, ?_, rfl⟩
    · exact hinv.comps_ok
    · intro _
      refine ⟨nd.2.dssp, rfl, (isHE_iff _).mp hC, ?_, List.chain'_singleton _,
        by simp, by simp, by simp⟩
      intro x hx
      rw [List.mem_singleton] at hx
      subst hx
      rfl
    · exact hinv.chain_ok
    · intro _ cl hcl D2 s2 hD2 hs2
      rw [Option.some.injEq] at hD2 hs2
      cases hpv : st.prevPos with
      | none =>
        rw [(hinv.init_none hpv).1] at hcl
        simp at hcl
      | some q =>
        have hlt := hinv.bound_gap hemp cl hcl q hpv
        have hq := hgt q hpv
        intro hcon
        have h2 := hcon.2
        omega
    · intro h
      simp at h
    · intro _ c hc s2 hs2
      rw [Option.some.injEq] at hs2
      cases hpv : st.prevPos with
      | none =>
        rw [(hinv.init_none hpv).1] at hc
        cases hc
      | some q =>
        have := hinv.start_gap hemp c hc q hpv
        have hq := hgt q hpv
        omega
    · intro h
      simp at h
    · exact hinv.sorted_comps
    · intro h
      simp at h
    · simp only [joined]
      rw [hemp]
      simp
  · -- loop node outside any run: only prev_pos advances
    have hemp : st.curr = [] := not_not.mp h1
    refine ⟨⟨?_, ?_, ?_, ?_, ?_, ?_, ?_, ?_, ?_⟩, ?_, rfl⟩
    · exact hinv.comps_ok
    · intro h
      exact absurd hemp h
    · exact hinv.chain_ok
    · intro h
      exact absurd hemp h
    · intro _ cl hcl q hq
      rw [Option.some.injEq] at hq
      cases hpv : st.prevPos with
      | none =>
        rw [(hinv.init_none hpv).1] at hcl
        simp at hcl
      | some q2 =>
        have := hinv.bound_gap hemp cl hcl q2 hpv
        have hq2 := hgt q2 hpv
        omega
    · intro h
      exact absurd hemp h
    · intro _ c hc q hq
      rw [Option.some.injEq] at hq
      cases hpv : st.prevPos with
      | none =>
        rw [(hinv.init_none hpv).1] at hc
        cases hc
      | some q2 =>
        have := hinv.start_gap hemp c hc q2 hpv
        have hq2 := hgt q2 hpv
        omega
    · exact hinv.sorted_comps
    · intro h
      simp at h
    · simp [joined]

theorem segFold_inv (l : List (ℕ × RNode)) :
    ∀ st : SegState, SegInv st →
    List.Pairwise (fun a b => a.2.position < b.2.position) l →
    (∀ q, st.prevPos = some q → ∀ nd ∈ l, q < nd.2.position) →
    SegInv (l.foldl segStep st) ∧
      joined (l.foldl segStep st) =
        joined st ++ l.filter (fun nd => isHE nd.2.dssp) := by
  induction l with
  | nil =>
    intro st hinv _ _
    exact ⟨hinv, by simp⟩
  | cons a t ih =>
    intro st hinv hsorted hfirst
    rw [List.pairwise_cons] at hsorted
    obtain ⟨hstep, hj, hpv⟩ :=
      segStep_inv st a hinv (fun q hq => hfirst q hq a (by simp))
    have hfirst2 : ∀ q, (segStep st a).prevPos = some q →
        ∀ nd ∈ t, q < nd.2.position := by
      intro q hq nd hnd
      rw [hpv, Option.some.injEq] at hq
      rw [← hq]
      exact hsorted.1 nd hnd
    obtain ⟨hinv2, hj2⟩ := ih (segStep st a) hstep hsorted.2 hfirst2
    refine ⟨by rw [List.foldl_cons]; exact hinv2, ?_⟩
    rw [List.foldl_cons, hj2, hj, List.filter_cons]
    rcases Bool.dichotomy (isHE a.2.dssp) with hhe | hhe <;>
      simp [hhe, List.append_assoc]

theorem final_flush (st : SegState) (hinv : SegInv st) :
    (∀ c ∈ flush_component st.comps st.curr st.currDssp st.currStart st.currEnd,
      SegOk c) ∧
    ((flush_component st.comps st.curr st.currDssp st.currStart
        st.currEnd).map (fun c => c.nodes)).flatten = joined st ∧
    List.Chain' notMerge
      (flush_component st.comps st.curr st.currDssp st.currStart st.currEnd) ∧
    (flush_component st.comps st.curr st.currDssp st.currStart
      st.currEnd).Pairwise (fun c1 c2 => c1.startPos ≤ c2.startPos) := by
  by_cases hcur : st.curr = []
  · rw [hcur, flush_nil]
    refine ⟨hinv.comps_ok, ?_, hinv.chain_ok, hinv.sorted_comps⟩
    simp [joined, hcur]
  · obtain ⟨s, e, D, hsE, heE, hDE, hppE, hse, hfl, hok⟩ :=
      flush_eq st hcur (hinv.run_ok hcur)
    rw [hfl]
    refine ⟨?_, ?_, ?_, ?_⟩
    · intro c hc
      rcases List.mem_append.mp hc with hc | hc
      · exact hinv.comps_ok c hc
      · rw [List.mem_singleton] at hc
        subst hc
        exact hok
    · simp [joined]
    · rw [List.chain'_append]
      refine ⟨hinv.chain_ok, List.chain'_singleton _, ?_⟩
      intro x hx y hy
      rw [List.head?_cons, Option.mem_some_iff] at hy
      subst hy
      exact hinv.bound_run hcur x hx D s hDE hsE
    · rw [List.pairwise_append]
      refine ⟨hinv.sorted_comps, by simp, ?_⟩
      intro a ha b hb
      rw [List.mem_singleton] at hb
      subst hb
      exact hinv.start_run hcur a ha s hsE

end Intra

/-- Witness graph for the amended claim C2: chain-A nodes at the distinct
positions `5, 6, 7, 9` with codes `H, H, L, E`, and one chain-B node. -/
def c2WitGraph : RGraph :=
  { nodes := [
      { nodeId := "", chain := "A", position := 5, residue := "", resType := "",
        dssp := "H", degree := 0, bfactor := 0, x := 0, y := 0, z := 0,
        pdbFileName := "", model := 0 },
      { nodeId := "", chain := "A", position := 6, residue := "", resType := "",
        dssp := "H", degree := 0, bfactor := 0, x := 0, y := 0, z := 0,
        pdbFileName := "", model := 0 },
      { nodeId := "", chain := "A", position := 7, residue := "", resType := "",
        dssp := "L", degree := 0, bfactor := 0, x := 0, y := 0, z := 0,
        pdbFileName := "", model := 0 },
      { nodeId := "", chain := "A", position := 9, residue := "", resType := "",
        dssp := "E", degree := 0, bfactor := 0, x := 0, y := 0, z := 0,
        pdbFileName := "", model := 0 },
      { nodeId := "", chain := "B", position := 5, residue := "", resType := "",
        dssp := "H", degree := 0, bfactor := 0, x := 0, y := 0, z := 0,
        pdbFileName := "", model := 0 }],
    edges := [] }

namespace Intra

/--
Claim C2 (amended: the chain-A nodes are assumed to carry pairwise distinct
sequence positions).  The segmentation of `BinderIntraInteraction.run`
produces exactly the maximal contiguous runs of nodes sharing one
secondary-structure code in `{H, E}` along ascending sequence position:
every emitted component is nonempty, carries a common code `H` or `E`, has
consecutive positions and start/end fields matching its first and last node
(`SegOk`); the concatenation of all components, in order, is exactly the
position-sorted chain-A node list restricted to codes `H` and `E` (so no
loop node belongs to any component and every `H`/`E` node belongs to one);
that concatenation has no duplicates (components do not overlap); and no
two consecutive emitted components share a code with adjacent end/start
positions (`notMerge` — they would have been merged).
-/
theorem c2_segmentation (g : RGraph)
    (hdist : ((chainANodes g).map (fun nd => nd.2.position)).Nodup) :
    (∀ c ∈ binderIntraComponents g, SegOk c) ∧
    ((binderIntraComponents g).map (fun c => c.nodes)).flatten =
      (chainASorted g).filter (fun nd => isHE nd.2.dssp) ∧
    ((binderIntraComponents g).map (fun c => c.nodes)).flatten.Nodup ∧
    List.Chain' notMerge (binderIntraComponents g) := by
  have hperm : (chainASorted g).Perm (chainANodes g) :=
    pySort_perm (fun a b : ℕ × RNode => decide (a.2.position ≤ b.2.position))
      (chainANodes g)
  have hmapnd : ((chainASorted g).map (fun nd => nd.2.position)).Nodup := by
    rw [List.Perm.nodup_iff (List.Perm.map _ hperm)]
    exact hdist
  have hle : (chainASorted g).Pairwise
      (fun a b => a.2.position ≤ b.2.position) := by
    have h := pySort_pairwise
      (fun a b : ℕ × RNode => decide (a.2.position ≤ b.2.position))
      (by
        intro a b
        rcases le_total a.2.position b.2.position with h | h <;> simp [h])
      (by
        intro a b c hab hbc
        simp only [decide_eq_true_eq] at hab hbc ⊢
        exact le_trans hab hbc)
      (chainANodes g)
    exact h.imp (fun hd => of_decide_eq_true hd)
  have hlt : (chainASorted g).Pairwise
      (fun a b => a.2.position < b.2.position) :=
    pairwise_lt_of_le_nodup (fun nd : ℕ × RNode => nd.2.position)
      (chainASorted g) hle hmapnd
  have hinv0 : SegInv ⟨[], none, none, none, none, []⟩ := by
    refine ⟨?_, ?_, ?_, ?_, ?_, ?_, ?_, ?_, ?_⟩
    · intro c hc
      cases hc
    · intro h
      exact absurd rfl h
    · exact List.chain'_nil
    · intro h
      exact absurd rfl h
    · intro _ cl hcl
      simp at hcl
    · intro h
      exact absurd rfl h
    · intro _ c hc
      cases hc
    · exact List.Pairwise.nil
    · intro _
      exact ⟨rfl, rfl⟩
  obtain ⟨hinvF, hjF⟩ := segFold_inv (chainASorted g)
    ⟨[], none, none, none, none, []⟩ hinv0 hlt
    (by intro q hq; simp at hq)
  have hSF : SegInv (segFold (chainASorted g)) := hinvF
  have hJF : joined (segFold (chainASorted g)) =
      (chainASorted g).filter (fun nd => isHE nd.2.dssp) := by
    have h2 : joined (segFold (chainASorted g)) =
        joined ⟨[], none, none, none, none, []⟩ ++
          (chainASorted g).filter (fun nd => isHE nd.2.dssp) := hjF
    rw [h2]
    rfl
  obtain ⟨kOk, kFlat, kChain, kSort⟩ := final_flush (segFold (chainASorted g)) hSF
  have hps : binderIntraComponents g =
      flush_component (segFold (chainASorted g)).comps
        (segFold (chainASorted g)).curr (segFold (chainASorted g)).currDssp
        (segFold (chainASorted g)).currStart (segFold (chainASorted g)).currEnd :=
    pySort_eq_self _ _ (kSort.imp (fun h => decide_eq_true h))
  rw [hps]
  refine ⟨kOk, kFlat.trans hJF, ?_, kChain⟩
  rw [kFlat, hJF]
  have hnd : (chainASorted g).Nodup := List.Nodup.of_map _ hmapnd
  exact hnd.filter _

end Intra

/-- Witness for the amended claim C2: the graph `c2WitGraph` has pairwise
distinct chain-A positions, and its segmentation satisfies every clause of
the amended claim. -/
theorem c2_segmentation_witness :
    ((Intra.chainANodes c2WitGraph).map (fun nd => nd.2.position)).Nodup ∧
    ((∀ c ∈ Intra.binderIntraComponents c2WitGraph, Intra.SegOk c) ∧
     ((Intra.binderIntraComponents c2WitGraph).map (fun c => c.nodes)).flatten =
       (Intra.chainASorted c2WitGraph).filter (fun nd => Intra.isHE nd.2.dssp) ∧
     ((Intra.binderIntraComponents c2WitGraph).map
        (fun c => c.nodes)).flatten.Nodup ∧
     List.Chain' Intra.notMerge (Intra.binderIntraComponents c2WitGraph)) :=
  ⟨by decide, Intra.c2_segmentation c2WitGraph (by decide)⟩

/-! ## Embedding of `src/import/RINGImport.py` (`RINGImport.importGraph`) -/

namespace RING

/-- A TSV file after `f.read().strip().split('\n')`: the header line and the
data lines (`lines[0]` and `lines[1:]`). -/
structure TsvFile where
  header : String
  rows : List String
deriving DecidableEq

/-- Decimal value of a digit list. -/
def decNatVal (l : List Char) : ℕ :=
  l.foldl (fun a c => a * 10 + (c.toNat - 48)) 0

/-- Nonempty and all decimal digits. -/
def allDigits (l : List Char) : Bool :=
  !l.isEmpty && l.all (fun c => c.isDigit)

def pyIntCore (l : List Char) : Option ℤ :=
  if allDigits l then some ((decNatVal l : ℕ) : ℤ) else none

/-- Python `int(s)` on a stripped token: optional sign then digits. -/
def pyIntL : List Char → Option ℤ
  | '-' :: t => (pyIntCore t).map (fun v => -v)
  | '+' :: t => pyIntCore t
  | l => pyIntCore l

def pyInt (s : String) : Option ℤ := pyIntL s.data

/-- Split at the first occurrence of `c`, if any. -/
def splitOnce (c : Char) : List Char → Option (List Char × List Char)
  | [] => none
  | a :: t =>
    if a = c then some ([], t)
    else (splitOnce c t).map (fun p => (a :: p.1, p.2))

/-- Value of a fractional digit block. -/
def fracQ (l : List Char) : ℚ := mkRat (decNatVal l) (10 ^ l.length)

/-- Mantissa of a Python float literal: digits with an optional decimal
point (`1.`, `.5` and `1.5` are accepted, `.` alone is not). -/
def mantissaQ (l : List Char) : Option ℚ :=
  match splitOnce '.' l with
  | none => if allDigits l then some (mkRat (decNatVal l) 1) else none
  | some (ip, fp) =>
    if ip.isEmpty && fp.isEmpty then none
    else if ip.all (fun c => c.isDigit) && fp.all (fun c => c.isDigit) then
      some (qadd (mkRat (decNatVal ip) 1) (fracQ fp))
    else none

def pow10Q (e : ℤ) : ℚ :=
  if 0 ≤ e then mkRat (10 ^ e.toNat) 1 else mkRat 1 (10 ^ (-e).toNat)

/-- Python `float(s)` without the leading sign: mantissa and optional
decimal exponent. -/
def pyFloatL (l : List Char) : Option ℚ :=
  let l2 := l.map (fun c => if c = 'E' then 'e' else c)
  match splitOnce 'e' l2 with
  | none => mantissaQ l2
  | some (m, ex) =>
    match mantissaQ m, pyIntL ex with
    | some mv, some e => some (qmul mv (pow10Q e))
    | _, _ => none

/-- Python `float(s)` over the rationals. -/
def pyFloat (s : String) : Option ℚ :=
  match s.data with
  | '-' :: t => (pyFloatL t).map (fun v => qsub 0 v)
  | '+' :: t => pyFloatL t
  | l => pyFloatL l

/-- Python `d[k] = v` on an insertion-ordered dict held as an association
list: replace in place, or append a fresh key. -/
def dinsert {α β : Type} [DecidableEq α] : List (α × β) → α → β → List (α × β)
  | [], k, v => [(k, v)]
  | p :: t, k, v => if p.1 = k then (k, v) :: t else p :: dinsert t k v

/-- Python `d.get(k)` / `d[k]` on the same representation. -/
def dictGet {α β : Type} [DecidableEq α] (l : List (α × β)) (k : α) : Option β :=
  (l.find? (fun p => decide (p.1 = k))).map (fun p => p.2)

/-- `{colName: i for i, colName in enumerate(headerLine)}`. -/
def colIndexOf (header : String) : List (String × ℕ) :=
  (pySplitTab header).enum.foldl (fun acc q => dinsert acc q.2 q.1) []

/-- The required node-file column indices (lines 126–139). -/
structure NodeCols where
  nodeIdIdx : ℕ
  chainIdx : ℕ
  positionIdx : ℕ
  residueIdx : ℕ
  typeIdx : ℕ
  dsspIdx : ℕ
  degreeIdx : ℕ
  bfactorIdx : ℕ
  xIdx : ℕ
  yIdx : ℕ
  zIdx : ℕ
  pdbFileIdx : ℕ
  modelIdx : ℕ
deriving DecidableEq

/-- Look up all required node columns; `none` models the `KeyError` path
(SchemaError). -/
def requiredNodeCols (h : String) : Option NodeCols :=
  let ci := colIndexOf h
  do
    let nodeIdIdx ← dictGet ci "NodeId"
    let chainIdx ← dictGet ci "Chain"
    let positionIdx ← dictGet ci "Position"
    let residueIdx ← dictGet ci "Residue"
    let typeIdx ← dictGet ci "Type"
    let dsspIdx ← dictGet ci "Dssp"
    let degreeIdx ← dictGet ci "Degree"
    let bfactorIdx ← dictGet ci "Bfactor_CA"
    let xIdx ← dictGet ci "x"
    let yIdx ← dictGet ci "y"
    let zIdx ← dictGet ci "z"
    let pdbFileIdx ← dictGet ci "pdbFileName"
    let modelIdx ← dictGet ci "Model"
    some ⟨nodeIdIdx, chainIdx, positionIdx, residueIdx, typeIdx, dsspIdx,
      degreeIdx, bfactorIdx, xIdx, yIdx, zIdx, pdbFileIdx, modelIdx⟩

/-- The required edge-file column indices (lines 285–297). -/
structure EdgeCols where
  nodeId1Idx : ℕ
  interactionIdx : ℕ
  nodeId2Idx : ℕ
  distanceIdx : ℕ
  angleIdx : ℕ
  atom1Idx : ℕ
  atom2Idx : ℕ
  donorIdx : ℕ
  positiveIdx : ℕ
  cationIdx : ℕ
  orientationIdx : ℕ
  eModelIdx : ℕ
deriving DecidableEq

def requiredEdgeCols (h : String) : Option EdgeCols :=
  let ci := colIndexOf h
  do
    let nodeId1Idx ← dictGet ci "NodeId1"
    let interactionIdx ← dictGet ci "Interaction"
    let nodeId2Idx ← dictGet ci "NodeId2"
    let distanceIdx ← dictGet ci "Distance"
    let angleIdx ← dictGet ci "Angle"
    let atom1Idx ← dictGet ci "Atom1"
    let atom2Idx ← dictGet ci "Atom2"
    let donorIdx ← dictGet ci "Donor"
    let positiveIdx ← dictGet ci "Positive"
    let cationIdx ← dictGet ci "Cation"
    let orientationIdx ← dictGet ci "Orientation"
    let eModelIdx ← dictGet ci "Model"
    some ⟨nodeId1Idx, interactionIdx, nodeId2Idx, distanceIdx, angleIdx,
      atom1Idx, atom2Idx, donorIdx, positiveIdx, cationIdx, orientationIdx,
      eModelIdx⟩

/-- `int(s) if s else 0` (empty field defaults without parsing). -/
def numInt (s : String) : Option ℤ :=
  if s = "" then some 0 else pyInt s

/-- `float(s) if s else 0.0`. -/
def numFloat (s : String) : Option ℚ :=
  if s = "" then some 0 else pyFloat s

/-- The single `try:` block of lines 181–188: all seven numeric node fields
parsed together; any failure raises `ValueError` for the whole block. -/
def parseNums (pos deg bf x y z mdl : String) :
    Option (ℤ × ℤ × ℚ × ℚ × ℚ × ℚ × ℤ) := do
  let p ← numInt pos
  let d ← numInt deg
  let b ← numFloat bf
  let xv ← numFloat x
  let yv ← numFloat y
  let zv ← numFloat z
  let m ← numInt mdl
  some (p, d, b, xv, yv, zv, m)

/-- Build one node record from its thirteen string fields: the string
columns are stored as read, the seven numeric columns come from the joint
`try:` block (all defaulted to zero on any `ValueError`). -/
def mkNode (nodeId chain pos residue resType dssp deg bf x y z pdbF mdl :
    String) : RNode :=
  match parseNums pos deg bf x y z mdl with
  | some (p, d, b, xv, yv, zv, m) =>
    ⟨nodeId, chain, p, residue, resType, dssp, d, b, xv, yv, zv, pdbF, m⟩
  | none =>
    ⟨nodeId, chain, 0, residue, resType, dssp, 0, 0, 0, 0, 0, pdbF, 0⟩

/-- Outcome of one node data row (lines 146–230). -/
inductive NodeRowOut where
  | skip : NodeRowOut
  | crash : NodeRowOut
  | node (n : RNode) : NodeRowOut
deriving DecidableEq

/-- One node data row: blank-line skip, the
`len(tokens) <= max(nodeIdIdx, modelIdx)` guard, the thirteen column reads
(an out-of-range read is an uncaught `IndexError`), then node creation. -/
def processNodeRow (ci : NodeCols) (row : String) : NodeRowOut :=
  if pyBlank row then .skip
  else if (pySplitTab row).length ≤ max ci.nodeIdIdx ci.modelIdx then .skip
  else
    match (pySplitTab row)[ci.nodeIdIdx]?, (pySplitTab row)[ci.chainIdx]?,
      (pySplitTab row)[ci.positionIdx]?, (pySplitTab row)[ci.residueIdx]?,
      (pySplitTab row)[ci.typeIdx]?, (pySplitTab row)[ci.dsspIdx]?,
      (pySplitTab row)[ci.degreeIdx]?, (pySplitTab row)[ci.bfactorIdx]?,
      (pySplitTab row)[ci.xIdx]?, (pySplitTab row)[ci.yIdx]?,
      (pySplitTab row)[ci.zIdx]?, (pySplitTab row)[ci.pdbFileIdx]?,
      (pySplitTab row)[ci.modelIdx]? with
      | some a1, some a2, some a3, some a4, some a5, some a6, some a7,
        some a8, some a9, some a10, some a11, some a12, some a13 =>
        .node (mkNode a1 a2 a3 a4 a5 a6 a7 a8 a9 a10 a11 a12 a13)
      | _, _, _, _, _, _, _, _, _, _, _, _, _ => .crash

/-- All node data rows in order; `none` models an uncaught exception. -/
def processNodeRows (ci : NodeCols) : List String → Option (List RNode)
  | [] => some []
  | r :: t =>
    match processNodeRow ci r with
    | .crash => none
    | .skip => processNodeRows ci t
    | .node n => (processNodeRows ci t).map (fun ns => n :: ns)

def nodeAt (ns : List RNode) (i : ℕ) : RNode := ns.getD i default

/-- `nodeMap` after the node loop: `nodeMap[nodeIdStr] = n` per created
node, in creation order. -/
def nodeMapOf (ns : List RNode) : List (String × ℕ) :=
  ns.enum.foldl (fun acc q => dinsert acc q.2.nodeId q.1) []

/-- One step of the `chain_nodes` construction (lines 251–256):
`chain_nodes[chain][pos] = node` with the chain sub-dict created on
demand. -/
def cnStep (ns : List RNode) (acc : List (String × List (ℤ × ℕ)))
    (q : String × ℕ) : List (String × List (ℤ × ℕ)) :=
  let ch := (nodeAt ns q.2).chain
  let p := (nodeAt ns q.2).position
  match dictGet acc ch with
  | none => acc ++ [(ch, [(p, q.2)])]
  | some d => acc.map (fun r => if r.1 = ch then (ch, dinsert d p q.2) else r)

/-- `chain_nodes` (lines 250–256): chain → (position → node). -/
def chainNodesOf (ns : List RNode) (nm : List (String × ℕ)) :
    List (String × List (ℤ × ℕ)) :=
  nm.foldl (cnStep ns) []

def mkBackboneEdge (n1 n2 : ℕ) : REdge :=
  ⟨n1, n2, "COV:PEP", 0, 0, "", "", "", "", "", "", 0⟩

/-- The synthetic backbone pass (lines 259–271): per chain, sort the
positions and link each consecutive pair with a `COV:PEP` edge. -/
def backboneEdges (cn : List (String × List (ℤ × ℕ))) : List REdge :=
  (cn.map (fun q =>
    let sp := pySort (fun a b : ℤ => decide (a ≤ b)) (q.2.map (fun r => r.1))
    (sp.zip sp.tail).filterMap (fun pr : ℤ × ℤ =>
      if pr.2 = pr.1 + 1 then
        match dictGet q.2 pr.1, dictGet q.2 pr.2 with
        | some n1, some n2 => some (mkBackboneEdge n1 n2)
        | _, _ => none
      else none))).flatten

/-- Build one edge record: category and atom strings stored as read; the
three numeric fields each sit in their own `try:` block (lines 353–366),
so each defaults to zero independently. -/
def mkEdge (n1 n2 : ℕ) (interaction dist ang a1 a2 don pos cat ori em :
    String) : REdge :=
  ⟨n1, n2, interaction,
    (numFloat dist).getD 0, (numFloat ang).getD 0,
    a1, a2, don, pos, cat, ori, (numInt em).getD 0⟩

inductive EdgeRowOut where
  | skip : EdgeRowOut
  | crash : EdgeRowOut
  | edge (e : REdge) : EdgeRowOut
deriving DecidableEq

/-- One edge data row (lines 303–366): blank skip, the
`len(tokens) <= max(nodeId2Idx, eModelIdx)` guard, the twelve column reads
(out-of-range → uncaught `IndexError`), the unknown-endpoint skip, then
edge creation. -/
def processEdgeRow (ci : EdgeCols) (nm : List (String × ℕ)) (row : String) :
    EdgeRowOut :=
  if pyBlank row then .skip
  else if (pySplitTab row).length ≤ max ci.nodeId2Idx ci.eModelIdx then .skip
  else
    match (pySplitTab row)[ci.nodeId1Idx]?, (pySplitTab row)[ci.interactionIdx]?,
      (pySplitTab row)[ci.nodeId2Idx]?, (pySplitTab row)[ci.distanceIdx]?,
      (pySplitTab row)[ci.angleIdx]?, (pySplitTab row)[ci.atom1Idx]?,
      (pySplitTab row)[ci.atom2Idx]?, (pySplitTab row)[ci.donorIdx]?,
      (pySplitTab row)[ci.positiveIdx]?, (pySplitTab row)[ci.cationIdx]?,
      (pySplitTab row)[ci.orientationIdx]?, (pySplitTab row)[ci.eModelIdx]? with
      | some a1, some a2, some a3, some a4, some a5, some a6, some a7,
        some a8, some a9, some a10, some a11, some a12 =>
        match dictGet nm a1, dictGet nm a3 with
        | some n1, some n2 =>
          .edge (mkEdge n1 n2 a2 a4 a5 a6 a7 a8 a9 a10 a11 a12)
        | _, _ => .skip
      | _, _, _, _, _, _, _, _, _, _, _, _ => .crash

def processEdgeRows (ci : EdgeCols) (nm : List (String × ℕ)) :
    List String → Option (List REdge)
  | [] => some []
  | r :: t =>
    match processEdgeRow ci nm r with
    | .crash => none
    | .skip => processEdgeRows ci nm t
    | .edge e => (processEdgeRows ci nm t).map (fun es => e :: es)

/-- Outcome of `RINGImport.importGraph`: an uncaught exception, a reported
error (`return False`) with the graph as mutated so far, or success. -/
inductive ImportOutcome where
  | crash : ImportOutcome
  | failed (g : RGraph) : ImportOutcome
  | ok (g : RGraph) : ImportOutcome
deriving DecidableEq

/-- The full import flow of `RINGImport.importGraph`: node header check,
node rows, `nodeMap` / `chain_nodes` / backbone pass, edge header check,
edge rows. -/
def importGraph (nf ef : TsvFile) : ImportOutcome :=
  match requiredNodeCols nf.header with
  | none => .failed ⟨[], []⟩
  | some ci =>
    match processNodeRows ci nf.rows with
    | none => .crash
    | some ns =>
      let nm := nodeMapOf ns
      let bb := backboneEdges (chainNodesOf ns nm)
      match requiredEdgeCols ef.header with
      | none => .failed ⟨ns, bb⟩
      | some ei =>
        match processEdgeRows ei nm ef.rows with
        | none => .crash
        | some es => .ok ⟨ns, bb ++ es⟩

end RING

namespace RING

/-- The graph carried by a non-crash outcome. -/
def outcomeGraph : ImportOutcome → RGraph
  | .failed g => g
  | .ok g => g
  | .crash => ⟨[], []⟩

def isFailed : ImportOutcome → Bool
  | .failed _ => true
  | _ => false

/-- Largest required column index of the node file. -/
def nodeColsSup (ci : NodeCols) : ℕ :=
  max ci.nodeIdIdx (max ci.chainIdx (max ci.positionIdx (max ci.residueIdx
    (max ci.typeIdx (max ci.dsspIdx (max ci.degreeIdx (max ci.bfactorIdx
      (max ci.xIdx (max ci.yIdx (max ci.zIdx
        (max ci.pdbFileIdx ci.modelIdx)))))))))))

/-- Largest required column index of the edge file. -/
def edgeColsSup (ci : EdgeCols) : ℕ :=
  max ci.nodeId1Idx (max ci.interactionIdx (max ci.nodeId2Idx
    (max ci.distanceIdx (max ci.angleIdx (max ci.atom1Idx (max ci.atom2Idx
      (max ci.donorIdx (max ci.positiveIdx (max ci.cationIdx
        (max ci.orientationIdx ci.eModelIdx))))))))))

end RING

/-- Node file with a well-formed header and two consecutive chain-A rows. -/
def c3nf : RING.TsvFile :=
  { header := "NodeId\tChain\tPosition\tResidue\tType\tDssp\tDegree\tBfactor_CA\tx\ty\tz\tpdbFileName\tModel",
    rows := ["A:1:_:GLU\tA\t1\tGLU\tRES\tH\t2\t25.5\t1.0\t-2.5\t0.0\tf.pdb\t1",
             "A:2:_:LYS\tA\t2\tLYS\tRES\tH\t2\t25.5\t1.5e-2\t-2.5\t0.0\tf.pdb\t1"] }

/-- Edge file whose header lacks the required `Interaction` column. -/
def c3ef : RING.TsvFile :=
  { header := "NodeId1\tNodeId2\tDistance\tAngle\tAtom1\tAtom2\tDonor\tPositive\tCation\tOrientation\tModel",
    rows := ["A:1:_:GLU\tA:2:_:LYS\t2.707\t0\tC\tN\t\t\t\t\t1"] }

/-- Node file whose header lacks the required `Chain` column. -/
def c3badnf : RING.TsvFile :=
  { header := "NodeId\tPosition\tResidue\tType\tDssp\tDegree\tBfactor_CA\tx\ty\tz\tpdbFileName\tModel",
    rows := ["A:1:_:GLU\t1\tGLU\tRES\tH\t2\t25.5\t1.0\t-2.5\t0.0\tf.pdb\t1"] }

/-- Node file with a well-formed header and no data rows. -/
def c3emptynf : RING.TsvFile :=
  { header := "NodeId\tChain\tPosition\tResidue\tType\tDssp\tDegree\tBfactor_CA\tx\ty\tz\tpdbFileName\tModel",
    rows := [] }

/-- A well-formed edge file. -/
def c3okef : RING.TsvFile :=
  { header := "NodeId1\tInteraction\tNodeId2\tDistance\tAngle\tAtom1\tAtom2\tDonor\tPositive\tCation\tOrientation\tModel",
    rows := [] }

/--
Claim C3, as stated, is false for the edge file: when a required column is
absent from the edge file's header, the import reports the schema error
(`failed`) only after every node and every synthetic backbone edge has
already been created — on `c3nf`/`c3ef` the reported-error outcome carries
a graph with two nodes and a backbone edge, so the graph is not unchanged.
-/
theorem c3_counterexample :
    RING.isFailed (RING.importGraph c3nf c3ef) = true ∧
    (RING.outcomeGraph (RING.importGraph c3nf c3ef)).nodes ≠ [] ∧
    (RING.outcomeGraph (RING.importGraph c3nf c3ef)).edges ≠ [] := by
  refine ⟨by decide, by decide, by decide⟩

/--
Claim C3 (amended).  A required column absent from the *node* file's header
is a schema error that aborts the import before any node or edge is
created: the outcome is `failed` with the empty graph, for every edge file.
A required column absent from the *edge* file's header is also a schema
error with outcome `failed`, but it is detected only after the whole node
pass: the reported graph holds exactly the imported nodes and their
synthetic backbone edges.
-/
theorem c3_schema :
    (∀ nf ef : RING.TsvFile, RING.requiredNodeCols nf.header = none →
      RING.importGraph nf ef = RING.ImportOutcome.failed ⟨[], []⟩) ∧
    (∀ nf ef : RING.TsvFile, ∀ ci ns,
      RING.requiredNodeCols nf.header = some ci →
      RING.processNodeRows ci nf.rows = some ns →
      RING.requiredEdgeCols ef.header = none →
      RING.importGraph nf ef = RING.ImportOutcome.failed
        ⟨ns, RING.backboneEdges (RING.chainNodesOf ns (RING.nodeMapOf ns))⟩) := by
  constructor
  · intro nf ef h
    simp only [RING.importGraph, h]
  · intro nf ef ci ns h1 h2 h3
    simp only [RING.importGraph, h1, h2, h3]

/-- Witness for the amended claim C3 at concrete files: a node file missing
`Chain` aborts with the empty graph; a well-formed empty node file with an
edge file missing `Interaction` fails after the (here empty) node pass. -/
theorem c3_schema_witness :
    RING.importGraph c3badnf c3okef = RING.ImportOutcome.failed ⟨[], []⟩ ∧
    RING.importGraph c3emptynf c3ef = RING.ImportOutcome.failed
      ⟨[], RING.backboneEdges (RING.chainNodesOf [] (RING.nodeMapOf []))⟩ :=
  ⟨c3_schema.1 c3badnf c3okef (by decide),
   c3_schema.2 c3emptynf c3ef ⟨0, 1, 2, 3, 4, 5, 6, 7, 8, 9, 10, 11, 12⟩ []
     (by decide) (by decide) (by decide)⟩

/-- Node file whose header carries `Model` as the second column (all
thirteen required columns are present, only permuted), with one data row of
two fields. -/
def c9nf : RING.TsvFile :=
  { header := "NodeId\tModel\tChain\tPosition\tResidue\tType\tDssp\tDegree\tBfactor_CA\tx\ty\tz\tpdbFileName",
    rows := ["A:1:_:GLU\t1"] }

/--
Claim C9, as stated, is false: with the required columns permuted so that
`Model` sits at index 1, a data row of two fields has fewer fields than the
highest required column index (12), yet it is not skipped silently — its
field count passes the `len(tokens) <= max(nodeIdIdx, modelIdx)` guard and
the read of the `Chain` column raises an uncaught `IndexError`, crashing
the import.
-/
theorem c9_counterexample :
    (pySplitTab "A:1:_:GLU\t1").length < 13 ∧
    RING.requiredNodeCols c9nf.header ≠ none ∧
    RING.importGraph c9nf c3okef = RING.ImportOutcome.crash := by
  refine ⟨by decide, by decide, by decide⟩

set_option maxHeartbeats 1000000 in
theorem nodeRowGuardSkip (ci : RING.NodeCols) (row : String)
    (h : (pySplitTab row).length ≤ max ci.nodeIdIdx ci.modelIdx) :
    RING.processNodeRow ci row = RING.NodeRowOut.skip := by
  unfold RING.processNodeRow
  rcases Bool.dichotomy (pyBlank row) with hb | hb
  · rw [hb, if_neg (by simp), if_pos h]
  · rw [hb, if_pos rfl]

set_option maxHeartbeats 2000000 in
theorem nodeRowFullCreates (ci : RING.NodeCols) (row : String)
    (hb : pyBlank row = false)
    (h : RING.nodeColsSup ci < (pySplitTab row).length) :
    ∃ n, RING.processNodeRow ci row = RING.NodeRowOut.node n := by
  have hget : ∀ (l : List String) (i : ℕ), i < l.length → ∃ v, l[i]? = some v := by
    intro l i hi
    exact ⟨l[i], List.getElem?_eq_some_iff.mpr ⟨hi, rfl⟩⟩
  unfold RING.processNodeRow
  rw [hb, if_neg (by simp)]
  unfold RING.nodeColsSup at h
  have hA : ci.nodeIdIdx < (pySplitTab row).length :=
    lt_of_le_of_lt (by simp [le_max_iff]) h
  have hB : ci.modelIdx < (pySplitTab row).length :=
    lt_of_le_of_lt (by simp [le_max_iff]) h
  have hgt : ¬((pySplitTab row).length ≤ max ci.nodeIdIdx ci.modelIdx) := by
    omega
  rw [if_neg hgt]
  obtain ⟨v1, h1⟩ := hget _ ci.nodeIdIdx (lt_of_le_of_lt (by simp [le_max_iff]) h)
  obtain ⟨v2, h2⟩ := hget _ ci.chainIdx (lt_of_le_of_lt (by simp [le_max_iff]) h)
  obtain ⟨v3, h3⟩ := hget _ ci.positionIdx (lt_of_le_of_lt (by simp [le_max_iff]) h)
  obtain ⟨v4, h4⟩ := hget _ ci.residueIdx (lt_of_le_of_lt (by simp [le_max_iff]) h)
  obtain ⟨v5, h5⟩ := hget _ ci.typeIdx (lt_of_le_of_lt (by simp [le_max_iff]) h)
  obtain ⟨v6, h6⟩ := hget _ ci.dsspIdx (lt_of_le_of_lt (by simp [le_max_iff]) h)
  obtain ⟨v7, h7⟩ := hget _ ci.degreeIdx (lt_of_le_of_lt (by simp [le_max_iff]) h)
  obtain ⟨v8, h8⟩ := hget _ ci.bfactorIdx (lt_of_le_of_lt (by simp [le_max_iff]) h)
  obtain ⟨v9, h9⟩ := hget _ ci.xIdx (lt_of_le_of_lt (by simp [le_max_iff]) h)
  obtain ⟨v10, h10⟩ := hget _ ci.yIdx (lt_of_le_of_lt (by simp [le_max_iff]) h)
  obtain ⟨v11, h11⟩ := hget _ ci.zIdx (lt_of_le_of_lt (by simp [le_max_iff]) h)
  obtain ⟨v12, h12⟩ := hget _ ci.pdbFileIdx (lt_of_le_of_lt (by simp [le_max_iff]) h)
  obtain ⟨v13, h13⟩ := hget _ ci.modelIdx (lt_of_le_of_lt (by simp [le_max_iff]) h)
  rw [h1, h2, h3, h4, h5, h6, h7, h8, h9, h10, h11, h12, h13]
  exact ⟨_, rfl⟩

set_option maxHeartbeats 1000000 in
theorem edgeRowGuardSkip (ci : RING.EdgeCols) (nm : List (String × ℕ))
    (row : String)
    (h : (pySplitTab row).length ≤ max ci.nodeId2Idx ci.eModelIdx) :
    RING.processEdgeRow ci nm row = RING.EdgeRowOut.skip := by
  unfold RING.processEdgeRow
  rcases Bool.dichotomy (pyBlank row) with hb | hb
  · rw [hb, if_neg (by simp), if_pos h]
  · rw [hb, if_pos rfl]

set_option maxHeartbeats 2000000 in
theorem edgeRowFullNoCrash (ci : RING.EdgeCols) (nm : List (String × ℕ))
    (row : String) (h : RING.edgeColsSup ci < (pySplitTab row).length) :
    RING.processEdgeRow ci nm row ≠ RING.EdgeRowOut.crash := by
  have hget : ∀ (l : List String) (i : ℕ), i < l.length → ∃ v, l[i]? = some v := by
    intro l i hi
    exact ⟨l[i], List.getElem?_eq_some_iff.mpr ⟨hi, rfl⟩⟩
  unfold RING.processEdgeRow
  rcases Bool.dichotomy (pyBlank row) with hb | hb
  · rw [hb, if_neg (by simp)]
    unfold RING.edgeColsSup at h
    have hA : ci.nodeId2Idx < (pySplitTab row).length :=
      lt_of_le_of_lt (by simp [le_max_iff]) h
    have hB : ci.eModelIdx < (pySplitTab row).length :=
      lt_of_le_of_lt (by simp [le_max_iff]) h
    have hgt : ¬((pySplitTab row).length ≤ max ci.nodeId2Idx ci.eModelIdx) := by
      omega
    rw [if_neg hgt]
    obtain ⟨v1, h1⟩ := hget _ ci.nodeId1Idx (lt_of_le_of_lt (by simp [le_max_iff]) h)
    obtain ⟨v2, h2⟩ := hget _ ci.interactionIdx (lt_of_le_of_lt (by simp [le_max_iff]) h)
    obtain ⟨v3, h3⟩ := hget _ ci.nodeId2Idx (lt_of_le_of_lt (by simp [le_max_iff]) h)
    obtain ⟨v4, h4⟩ := hget _ ci.distanceIdx (lt_of_le_of_lt (by simp [le_max_iff]) h)
    obtain ⟨v5, h5⟩ := hget _ ci.angleIdx (lt_of_le_of_lt (by simp [le_max_iff]) h)
    obtain ⟨v6, h6⟩ := hget _ ci.atom1Idx (lt_of_le_of_lt (by simp [le_max_iff]) h)
    obtain ⟨v7, h7⟩ := hget _ ci.atom2Idx (lt_of_le_of_lt (by simp [le_max_iff]) h)
    obtain ⟨v8, h8⟩ := hget _ ci.donorIdx (lt_of_le_of_lt (by simp [le_max_iff]) h)
    obtain ⟨v9, h9⟩ := hget _ ci.positiveIdx (lt_of_le_of_lt (by simp [le_max_iff]) h)
    obtain ⟨v10, h10⟩ := hget _ ci.cationIdx (lt_of_le_of_lt (by simp [le_max_iff]) h)
    obtain ⟨v11, h11⟩ := hget _ ci.orientationIdx (lt_of_le_of_lt (by simp [le_max_iff]) h)
    obtain ⟨v12, h12⟩ := hget _ ci.eModelIdx (lt_of_le_of_lt (by simp [le_max_iff]) h)
    rw [h1, h2, h3, h4, h5, h6, h7, h8, h9, h10, h11, h12]
    rcases hd1 : RING.dictGet nm v1 with _ | n1 <;>
      rcases hd3 : RING.dictGet nm v3 with _ | n3 <;> simp [hd1, hd3]
  · rw [hb, if_pos rfl]
    intro hcon
    cases hcon

/--
Claim C9 (amended).  The field-count guards compare against
`max(nodeIdIdx, modelIdx)` (node rows) and `max(nodeId2Idx, eModelIdx)`
(edge rows) only, not against the highest required column index: a data
row with at most that many fields is skipped silently, and a row with more
fields than every required column index is never rejected for field count
(a node row always creates a node; an edge row never raises, though it may
still be skipped for unknown endpoints).  Between the two bounds an
uncaught `IndexError` is possible, as the counterexample shows.
-/
theorem c9_guards :
    (∀ (ci : RING.NodeCols) (row : String),
      (pySplitTab row).length ≤ max ci.nodeIdIdx ci.modelIdx →
      RING.processNodeRow ci row = RING.NodeRowOut.skip) ∧
    (∀ (ci : RING.NodeCols) (row : String), pyBlank row = false →
      RING.nodeColsSup ci < (pySplitTab row).length →
      ∃ n, RING.processNodeRow ci row = RING.NodeRowOut.node n) ∧
    (∀ (ci : RING.EdgeCols) (nm : List (String × ℕ)) (row : String),
      (pySplitTab row).length ≤ max ci.nodeId2Idx ci.eModelIdx →
      RING.processEdgeRow ci nm row = RING.EdgeRowOut.skip) ∧
    (∀ (ci : RING.EdgeCols) (nm : List (String × ℕ)) (row : String),
      RING.edgeColsSup ci < (pySplitTab row).length →
      RING.processEdgeRow ci nm row ≠ RING.EdgeRowOut.crash) :=
  ⟨nodeRowGuardSkip, nodeRowFullCreates, edgeRowGuardSkip, edgeRowFullNoCrash⟩

/-- Witness for the amended claim C9 at concrete inputs: a two-field row is
skipped under the canonical header, a full row creates a node, a short edge
row is skipped and a full edge row does not crash. -/
theorem c9_guards_witness :
    RING.processNodeRow ⟨0, 1, 2, 3, 4, 5, 6, 7, 8, 9, 10, 11, 12⟩
      "A:1:_:GLU\tA" = RING.NodeRowOut.skip ∧
    (∃ n, RING.processNodeRow ⟨0, 1, 2, 3, 4, 5, 6, 7, 8, 9, 10, 11, 12⟩
      "A:1:_:GLU\tA\t1\tGLU\tRES\tH\t2\t25.5\t1.0\t-2.5\t0.0\tf.pdb\t1" =
        RING.NodeRowOut.node n) ∧
    RING.processEdgeRow ⟨0, 1, 2, 3, 4, 5, 6, 7, 8, 9, 10, 11⟩ []
      "A:1:_:GLU\tHBOND:MC_MC" = RING.EdgeRowOut.skip ∧
    RING.processEdgeRow ⟨0, 1, 2, 3, 4, 5, 6, 7, 8, 9, 10, 11⟩ []
      "A:1:_:GLU\tHBOND:MC_MC\tA:2:_:LYS\t2.707\t0\tC\tN\t\t\t\t\t1" ≠
      RING.EdgeRowOut.crash :=
  ⟨c9_guards.1 ⟨0, 1, 2, 3, 4, 5, 6, 7, 8, 9, 10, 11, 12⟩ "A:1:_:GLU\tA"
     (by decide),
   c9_guards.2.1 ⟨0, 1, 2, 3, 4, 5, 6, 7, 8, 9, 10, 11, 12⟩
     "A:1:_:GLU\tA\t1\tGLU\tRES\tH\t2\t25.5\t1.0\t-2.5\t0.0\tf.pdb\t1"
     (by decide) (by decide),
   c9_guards.2.2.1 ⟨0, 1, 2, 3, 4, 5, 6, 7, 8, 9, 10, 11⟩ []
     "A:1:_:GLU\tHBOND:MC_MC" (by decide),
   c9_guards.2.2.2 ⟨0, 1, 2, 3, 4, 5, 6, 7, 8, 9, 10, 11⟩ []
     "A:1:_:GLU\tHBOND:MC_MC\tA:2:_:LYS\t2.707\t0\tC\tN\t\t\t\t\t1"
     (by decide)⟩

/-- Equality on the seven parsed numeric node fields (spelled out because
instance search does not reach this nesting depth). -/
instance : DecidableEq (ℤ × ℤ × ℚ × ℚ × ℚ × ℚ × ℤ) :=
  fun a b => @instDecidableEqProd _ _ _ inferInstance a b

/-- Node file with one data row whose `Position` field is the parseable
string `5` but whose `Degree` field is the unparseable string `abc`. -/
def c7nf : RING.TsvFile :=
  { header := "NodeId\tChain\tPosition\tResidue\tType\tDssp\tDegree\tBfactor_CA\tx\ty\tz\tpdbFileName\tModel",
    rows := ["A:5:_:GLU\tA\t5\tGLU\tRES\tH\tabc\t1.5\t1.0\t2.0\t3.0\tf.pdb\t1"] }

/--
Claim C7, as stated, is false: the seven numeric node fields live in one
single `try:` block, so they are not parsed independently.  In `c7nf` the
`Position` field `5` parses to `5` and `Bfactor_CA` `1.5` parses to `3/2`,
yet because the `Degree` field `abc` raises `ValueError`, the created node
stores zero in *all seven* numeric fields (the row itself is still
imported, with its string fields intact).
-/
theorem c7_counterexample :
    RING.pyInt "5" = some 5 ∧
    RING.pyFloat "1.5" = some (mkRat 3 2) ∧
    RING.importGraph c7nf c3okef = RING.ImportOutcome.ok
      ⟨[⟨"A:5:_:GLU", "A", 0, "GLU", "RES", "H", 0, 0, 0, 0, 0, "f.pdb", 0⟩],
        []⟩ := by
  refine ⟨by decide, by decide, by decide⟩

/--
Claim C7 (amended).  The seven numeric node fields (position, degree,
B-factor, x, y, z, model) are parsed *jointly* in a single `try:` block:
when every field parses (an empty field counting as zero), the created
node carries the parsed values; when any one of them fails, every one of
the seven is stored as zero.  In both cases the row is never aborted — a
node is created and its six string fields are stored as read.
-/
theorem c7_joint_numerics (nodeId chain pos residue resType dssp deg bf x y
    z pdbF mdl : String) :
    (∀ p d b xv yv zv m,
      RING.parseNums pos deg bf x y z mdl = some (p, d, b, xv, yv, zv, m) →
      RING.mkNode nodeId chain pos residue resType dssp deg bf x y z pdbF mdl =
        ⟨nodeId, chain, p, residue, resType, dssp, d, b, xv, yv, zv, pdbF, m⟩) ∧
    (RING.parseNums pos deg bf x y z mdl = none →
      RING.mkNode nodeId chain pos residue resType dssp deg bf x y z pdbF mdl =
        ⟨nodeId, chain, 0, residue, resType, dssp, 0, 0, 0, 0, 0, pdbF, 0⟩) := by
  constructor
  · intro p d b xv yv zv m h
    unfold RING.mkNode
    rw [h]
  · intro h
    unfold RING.mkNode
    rw [h]

/-- Witness for the amended claim C7: a fully parseable row stores its
parsed numeric values; the counterexample row (degree `abc`) zeroes all
seven. -/
theorem c7_joint_numerics_witness :
    RING.mkNode "A:5:_:GLU" "A" "5" "GLU" "RES" "H" "2" "1.5" "1.0" "2.0"
        "3.0" "f.pdb" "1" =
      ⟨"A:5:_:GLU", "A", 5, "GLU", "RES", "H", 2, mkRat 3 2, 1, 2, 3,
        "f.pdb", 1⟩ ∧
    RING.mkNode "A:5:_:GLU" "A" "5" "GLU" "RES" "H" "abc" "1.5" "1.0" "2.0"
        "3.0" "f.pdb" "1" =
      ⟨"A:5:_:GLU", "A", 0, "GLU", "RES", "H", 0, 0, 0, 0, 0, "f.pdb", 0⟩ :=
  ⟨(c7_joint_numerics "A:5:_:GLU" "A" "5" "GLU" "RES" "H" "2" "1.5" "1.0"
      "2.0" "3.0" "f.pdb" "1").1 5 2 (mkRat 3 2) 1 2 3 1 (by decide),
   (c7_joint_numerics "A:5:_:GLU" "A" "5" "GLU" "RES" "H" "abc" "1.5" "1.0"
      "2.0" "3.0" "f.pdb" "1").2 (by decide)⟩

namespace RING

theorem mem_dinsert {α β : Type} [DecidableEq α] (l : List (α × β)) (k : α)
    (v : β) : ∀ x ∈ dinsert l k v, x = (k, v) ∨ x ∈ l := by
  induction l with
  | nil =>
    intro x hx
    rw [dinsert, List.mem_singleton] at hx
    exact Or.inl hx
  | cons a t ih =>
    intro x hx
    rw [dinsert] at hx
    by_cases h : a.1 = k
    · rw [if_pos h, List.mem_cons] at hx
      rcases hx with hx | hx
      · exact Or.inl hx
      · exact Or.inr (List.mem_cons_of_mem _ hx)
    · rw [if_neg h, List.mem_cons] at hx
      rcases hx with hx | hx
      · exact Or.inr (by rw [hx]; exact List.mem_cons_self _ _)
      · rcases ih x hx with h2 | h2
        · exact Or.inl h2
        · exact Or.inr (List.mem_cons_of_mem _ h2)

theorem keys_dinsert {α β : Type} [DecidableEq α] (l : List (α × β)) (k : α)
    (v : β) (a : α) :
    a ∈ (dinsert l k v).map Prod.fst ↔ a = k ∨ a ∈ l.map Prod.fst := by
  induction l with
  | nil => simp [dinsert]
  | cons p t ih =>
    rw [dinsert]
    by_cases h : p.1 = k
    · rw [if_pos h]
      simp only [List.map_cons, List.mem_cons]
      constructor
      · rintro (h2 | h2)
        · exact Or.inl h2
        · exact Or.inr (Or.inr h2)
      · rintro (h2 | h2 | h2)
        · exact Or.inl h2
        · rw [h2, h]; exact Or.inl rfl
        · exact Or.inr h2
    · rw [if_neg h]
      simp only [List.map_cons, List.mem_cons]
      rw [ih]
      tauto

theorem keys_dinsert_nodup {α β : Type} [DecidableEq α] (l : List (α × β))
    (k : α) (v : β) (h : (l.map Prod.fst).Nodup) :
    ((dinsert l k v).map Prod.fst).Nodup := by
  induction l with
  | nil => simp [dinsert]
  | cons p t ih =>
    rw [dinsert]
    rw [List.map_cons, List.nodup_cons] at h
    by_cases hh : p.1 = k
    · rw [if_pos hh]
      rw [List.map_cons, List.nodup_cons]
      refine ⟨?_, h.2⟩
      rw [← hh]
      exact h.1
    · rw [if_neg hh]
      rw [List.map_cons, List.nodup_cons]
      refine ⟨?_, ih h.2⟩
      intro hc
      rw [keys_dinsert] at hc
      rcases hc with hc | hc
      · exact hh hc
      · exact h.1 hc

theorem dictGet_eq_none {α β : Type} [DecidableEq α] (l : List (α × β))
    (k : α) : dictGet l k = none ↔ k ∉ l.map Prod.fst := by
  unfold dictGet
  rw [Option.map_eq_none', List.find?_eq_none]
  constructor
  · intro h hc
    rw [List.mem_map] at hc
    obtain ⟨x, hx, hxk⟩ := hc
    exact h x hx (by simp [hxk])
  · intro h x hx
    simp only [decide_eq_true_eq]
    intro hc
    exact h (List.mem_map.mpr ⟨x, hx, hc⟩)

theorem dictGet_isSome {α β : Type} [DecidableEq α] (l : List (α × β))
    (k : α) (h : k ∈ l.map Prod.fst) : ∃ v, dictGet l k = some v := by
  cases hc : dictGet l k with
  | none => exact absurd h ((dictGet_eq_none l k).mp hc)
  | some v => exact ⟨v, rfl⟩

theorem dictGet_mem {α β : Type} [DecidableEq α] (l : List (α × β)) (k : α)
    (v : β) (h : dictGet l k = some v) : (k, v) ∈ l := by
  unfold dictGet at h
  rw [Option.map_eq_some'] at h
  obtain ⟨x, hx, hxv⟩ := h
  have h1 := List.mem_of_find?_eq_some hx
  have h2 := List.find?_some hx
  simp only [decide_eq_true_eq] at h2
  have : x = (k, v) := by
    rw [Prod.ext_iff]
    exact ⟨h2, hxv⟩
  rw [← this]
  exact h1

theorem dinsert_of_not_mem {α β : Type} [DecidableEq α] (l : List (α × β))
    (k : α) (v : β) (h : k ∉ l.map Prod.fst) :
    dinsert l k v = l ++ [(k, v)] := by
  induction l with
  | nil => rfl
  | cons p t ih =>
    rw [List.map_cons, List.mem_cons] at h
    push_neg at h
    rw [dinsert, if_neg (fun hc => h.1 hc.symm), ih h.2]
    rfl

theorem dictGet_append {α β : Type} [DecidableEq α] (l1 l2 : List (α × β))
    (k : α) :
    dictGet (l1 ++ l2) k = (dictGet l1 k).or (dictGet l2 k) := by
  unfold dictGet
  rw [List.find?_append]
  cases List.find? (fun p => decide (p.1 = k)) l1 <;> rfl

theorem dictGet_self_dinsert {α β : Type} [DecidableEq α]
    (l : List (α × β)) (k : α) (v : β) : dictGet (dinsert l k v) k = some v := by
  induction l with
  | nil => simp [dinsert, dictGet, List.find?]
  | cons p t ih =>
    rw [dinsert]
    by_cases h : p.1 = k
    · rw [if_pos h]
      simp [dictGet, List.find?]
    · rw [if_neg h]
      unfold dictGet at ih ⊢
      rw [List.find?_cons_of_neg _ (by simp [h])]
      exact ih

theorem dictGet_dinsert_ne {α β : Type} [DecidableEq α]
    (l : List (α × β)) (k k2 : α) (v : β) (h : k2 ≠ k) :
    dictGet (dinsert l k v) k2 = dictGet l k2 := by
  induction l with
  | nil =>
    unfold dinsert dictGet
    rw [List.find?_cons_of_neg _
      (by simp only [decide_eq_true_eq]; exact fun hc => h hc.symm)]
  | cons p t ih =>
    rw [dinsert]
    by_cases hh : p.1 = k
    · rw [if_pos hh]
      unfold dictGet
      rw [List.find?_cons_of_neg _
          (by simp only [decide_eq_true_eq]; exact fun hc => h hc.symm),
        List.find?_cons_of_neg _
          (by simp only [decide_eq_true_eq]; rw [hh]; exact fun hc => h hc.symm)]
    · rw [if_neg hh]
      unfold dictGet at ih ⊢
      by_cases hp : p.1 = k2
      · rw [List.find?_cons_of_pos _ (by simp [hp]),
          List.find?_cons_of_pos _ (by simp [hp])]
      · rw [List.find?_cons_of_neg _ (by simp [hp]),
          List.find?_cons_of_neg _ (by simp [hp])]
        exact ih

theorem keys_map_upd (acc : List (String × List (ℤ × ℕ))) (ch : String)
    (d2 : List (ℤ × ℕ)) :
    (acc.map (fun r => if r.1 = ch then (ch, d2) else r)).map Prod.fst =
      acc.map Prod.fst := by
  rw [List.map_map]
  refine List.map_congr_left ?_
  intro r _
  by_cases h : r.1 = ch
  · simp [h]
  · simp [h]

theorem dictGet_map_upd_self (acc : List (String × List (ℤ × ℕ)))
    (ch : String) (d d2 : List (ℤ × ℕ)) (h : dictGet acc ch = some d) :
    dictGet (acc.map (fun r => if r.1 = ch then (ch, d2) else r)) ch =
      some d2 := by
  induction acc with
  | nil => exact Option.noConfusion h
  | cons r t ih =>
    rw [List.map_cons]
    by_cases hh : r.1 = ch
    · rw [if_pos hh]
      unfold dictGet
      rw [List.find?_cons_of_pos _ (by simp)]
      rfl
    · rw [if_neg hh]
      unfold dictGet at h ih ⊢
      rw [List.find?_cons_of_neg _ (by simp [hh])] at h
      rw [List.find?_cons_of_neg _ (by simp [hh])]
      exact ih h

theorem dictGet_map_upd_other (acc : List (String × List (ℤ × ℕ)))
    (ch c : String) (d2 : List (ℤ × ℕ)) (h : c ≠ ch) :
    dictGet (acc.map (fun r => if r.1 = ch then (ch, d2) else r)) c =
      dictGet acc c := by
  induction acc with
  | nil => rfl
  | cons r t ih =>
    rw [List.map_cons]
    by_cases hh : r.1 = ch
    · rw [if_pos hh]
      unfold dictGet at ih ⊢
      rw [List.find?_cons_of_neg _
          (by simp only [decide_eq_true_eq]; exact fun hc => h hc.symm),
        List.find?_cons_of_neg _
          (by simp only [decide_eq_true_eq]; rw [hh]; exact fun hc => h hc.symm)]
      exact ih
    · rw [if_neg hh]
      unfold dictGet at ih ⊢
      by_cases hc : r.1 = c
      · rw [List.find?_cons_of_pos _ (by simp [hc]),
          List.find?_cons_of_pos _ (by simp [hc])]
      · rw [List.find?_cons_of_neg _ (by simp [hc]),
          List.find?_cons_of_neg _ (by simp [hc])]
        exact ih

theorem mem_map_upd (acc : List (String × List (ℤ × ℕ))) (ch : String)
    (d2 : List (ℤ × ℕ)) :
    ∀ x ∈ acc.map (fun r => if r.1 = ch then (ch, d2) else r),
      x = (ch, d2) ∨ x ∈ acc := by
  intro x hx
  rw [List.mem_map] at hx
  obtain ⟨r, hr, hrx⟩ := hx
  by_cases h : r.1 = ch
  · rw [if_pos h] at hrx
    exact Or.inl hrx.symm
  · rw [if_neg h] at hrx
    exact Or.inr (hrx ▸ hr)

theorem cnStep_inv (ns : List RNode) (acc : List (String × List (ℤ × ℕ)))
    (q : String × ℕ) (hq : q.2 < ns.length)
    (k1 : (acc.map Prod.fst).Nodup)
    (k2 : ∀ w ∈ acc, (w.2.map Prod.fst).Nodup)
    (k3 : ∀ w ∈ acc, ∀ r ∈ w.2, r.2 < ns.length ∧
      (nodeAt ns r.2).chain = w.1 ∧ (nodeAt ns r.2).position = r.1) :
    ((cnStep ns acc q).map Prod.fst).Nodup ∧
    (∀ w ∈ cnStep ns acc q, (w.2.map Prod.fst).Nodup) ∧
    (∀ w ∈ cnStep ns acc q, ∀ r ∈ w.2, r.2 < ns.length ∧
      (nodeAt ns r.2).chain = w.1 ∧ (nodeAt ns r.2).position = r.1) ∧
    (∀ c d p, dictGet acc c = some d → p ∈ d.map Prod.fst →
      ∃ d2, dictGet (cnStep ns acc q) c = some d2 ∧ p ∈ d2.map Prod.fst) ∧
    (∃ d, dictGet (cnStep ns acc q) (nodeAt ns q.2).chain = some d ∧
      (nodeAt ns q.2).position ∈ d.map Prod.fst) := by
  unfold cnStep
  dsimp only
  cases hd : dictGet acc (nodeAt ns q.2).chain with
  | none =>
    refine ⟨?_, ?_, ?_, ?_, ?_⟩
    · rw [List.map_append, List.nodup_append]
      refine ⟨k1, by simp, ?_⟩
      intro a ha hb
      simp only [List.map_cons, List.map_nil, List.mem_singleton] at hb
      rw [hb] at ha
      exact (dictGet_eq_none _ _).mp hd ha
    · intro w hw
      rcases List.mem_append.mp hw with hw | hw
      · exact k2 w hw
      · rw [List.mem_singleton] at hw
        subst hw
        simp
    · intro w hw
      rcases List.mem_append.mp hw with hw | hw
      · exact k3 w hw
      · rw [List.mem_singleton] at hw
        subst hw
        intro r hr
        rw [List.mem_singleton] at hr
        subst hr
        exact ⟨hq, rfl, rfl⟩
    · intro c d p hdc hp
      refine ⟨d, ?_, hp⟩
      rw [dictGet_append, hdc]
      rfl
    · refine ⟨[((nodeAt ns q.2).position, q.2)], ?_, by simp⟩
      rw [dictGet_append, hd, Option.none_or]
      unfold dictGet
      rw [List.find?_cons_of_pos _ (by simp)]
      rfl
  | some d =>
    refine ⟨?_, ?_, ?_, ?_, ?_⟩
    · rw [keys_map_upd]
      exact k1
    · intro w hw
      rcases mem_map_upd _ _ _ w hw with hw | hw
      · rw [hw]
        exact keys_dinsert_nodup _ _ _ (k2 _ (dictGet_mem _ _ _ hd))
      · exact k2 w hw
    · intro w hw
      rcases mem_map_upd _ _ _ w hw with hw | hw
      · subst hw
        intro r hr
        rcases mem_dinsert _ _ _ r hr with hr | hr
        · rw [hr]
          exact ⟨hq, rfl, rfl⟩
        · exact k3 _ (dictGet_mem _ _ _ hd) r hr
      · exact k3 w hw
    · intro c d0 p0 hdc hp
      by_cases hc : c = (nodeAt ns q.2).chain
      · subst hc
        rw [hd] at hdc
        injection hdc with hdd
        subst hdd
        refine ⟨dinsert d (nodeAt ns q.2).position q.2,
          dictGet_map_upd_self _ _ _ _ hd, ?_⟩
        rw [keys_dinsert]
        exact Or.inr hp
      · refine ⟨d0, ?_, hp⟩
        rw [dictGet_map_upd_other _ _ _ _ hc]
        exact hdc
    · refine ⟨dinsert d (nodeAt ns q.2).position q.2,
        dictGet_map_upd_self _ _ _ _ hd, ?_⟩
      rw [keys_dinsert]
      exact Or.inl rfl

theorem cnFold_inv (ns : List RNode) (l : List (String × ℕ)) :
    ∀ acc : List (String × List (ℤ × ℕ)),
    (∀ q ∈ l, q.2 < ns.length) →
    (acc.map Prod.fst).Nodup →
    (∀ w ∈ acc, (w.2.map Prod.fst).Nodup) →
    (∀ w ∈ acc, ∀ r ∈ w.2, r.2 < ns.length ∧
      (nodeAt ns r.2).chain = w.1 ∧ (nodeAt ns r.2).position = r.1) →
    ((l.foldl (cnStep ns) acc).map Prod.fst).Nodup ∧
    (∀ w ∈ l.foldl (cnStep ns) acc, (w.2.map Prod.fst).Nodup) ∧
    (∀ w ∈ l.foldl (cnStep ns) acc, ∀ r ∈ w.2, r.2 < ns.length ∧
      (nodeAt ns r.2).chain = w.1 ∧ (nodeAt ns r.2).position = r.1) ∧
    (∀ c d p, dictGet acc c = some d → p ∈ d.map Prod.fst →
      ∃ d2, dictGet (l.foldl (cnStep ns) acc) c = some d2 ∧
        p ∈ d2.map Prod.fst) ∧
    (∀ q ∈ l, ∃ d,
      dictGet (l.foldl (cnStep ns) acc) (nodeAt ns q.2).chain = some d ∧
      (nodeAt ns q.2).position ∈ d.map Prod.fst) := by
  induction l with
  | nil =>
    intro acc _ k1 k2 k3
    refine ⟨k1, k2, k3, ?_, ?_⟩
    · intro c d p h1 h2
      exact ⟨d, h1, h2⟩
    · intro q hq
      cases hq
  | cons a t ih =>
    intro acc hl k1 k2 k3
    obtain ⟨s1, s2, s3, s4, s5⟩ := cnStep_inv ns acc a (hl a (by simp)) k1 k2 k3
    obtain ⟨f1, f2, f3, f4, f5⟩ :=
      ih (cnStep ns acc a) (fun q hq => hl q (by simp [hq])) s1 s2 s3
    rw [List.foldl_cons]
    refine ⟨f1, f2, f3, ?_, ?_⟩
    · intro c d p h1 h2
      obtain ⟨d2, hd2, hp2⟩ := s4 c d p h1 h2
      exact f4 c d2 p hd2 hp2
    · intro q hq
      rcases List.mem_cons.mp hq with hq | hq
      · subst hq
        obtain ⟨d, hd, hp⟩ := s5
        exact f4 _ d _ hd hp
      · exact f5 q hq

theorem nodeMap_fold (l : List (ℕ × RNode)) :
    ∀ acc : List (String × ℕ),
    (acc.map Prod.fst ++ l.map (fun q => q.2.nodeId)).Nodup →
    l.foldl (fun a q => dinsert a q.2.nodeId q.1) acc =
      acc ++ l.map (fun q => (q.2.nodeId, q.1)) := by
  induction l with
  | nil =>
    intro acc _
    simp
  | cons a t ih =>
    intro acc h
    rw [List.foldl_cons]
    rw [List.map_cons] at h
    have hfresh : a.2.nodeId ∉ acc.map Prod.fst := by
      rw [List.nodup_append] at h
      intro hc
      exact h.2.2 hc (by simp)
    rw [dinsert_of_not_mem _ _ _ hfresh]
    have hyp2 : ((acc ++ [(a.2.nodeId, a.1)]).map Prod.fst ++
        t.map (fun q => q.2.nodeId)).Nodup := by
      rw [List.map_append]
      simpa [List.append_assoc] using h
    rw [ih _ hyp2]
    simp [List.append_assoc]

theorem nodeMapOf_eq (ns : List RNode)
    (h : (ns.map (fun n => n.nodeId)).Nodup) :
    nodeMapOf ns = ns.enum.map (fun q => (q.2.nodeId, q.1)) := by
  unfold nodeMapOf
  have hmap : ns.enum.map (fun q => q.2.nodeId) = ns.map (fun n => n.nodeId) := by
    rw [show (fun q : ℕ × RNode => q.2.nodeId) =
      (fun n : RNode => n.nodeId) ∘ Prod.snd from rfl, ← List.map_map,
      List.enum_map_snd]
  rw [nodeMap_fold ns.enum [] (by simpa [hmap] using h)]
  rfl

theorem nodeMapOf_sound (ns : List RNode)
    (h : (ns.map (fun n => n.nodeId)).Nodup) (k : String) (i : ℕ)
    (hm : (k, i) ∈ nodeMapOf ns) :
    ∃ n, ns.get? i = some n ∧ n.nodeId = k := by
  rw [nodeMapOf_eq ns h, List.mem_map] at hm
  obtain ⟨q, hq, hqe⟩ := hm
  rw [List.mem_enum_iff_get?] at hq
  have h1 : q.2.nodeId = k := congrArg Prod.fst hqe
  have h2 : q.1 = i := congrArg Prod.snd hqe
  exact ⟨q.2, by rw [← h2]; exact hq, h1⟩

theorem nodeMapOf_complete (ns : List RNode)
    (h : (ns.map (fun n => n.nodeId)).Nodup) (i : ℕ) (n : RNode)
    (hg : ns.get? i = some n) : (n.nodeId, i) ∈ nodeMapOf ns := by
  rw [nodeMapOf_eq ns h, List.mem_map]
  exact ⟨(i, n), List.mem_enum_iff_get?.mpr hg, rfl⟩

theorem pair_mem_zip_of_sorted (l : List ℤ)
    (h : l.Pairwise (fun a b => a < b)) (p : ℤ)
    (h1 : p ∈ l) (h2 : p + 1 ∈ l) : (p, p + 1) ∈ l.zip l.tail := by
  induction l with
  | nil => cases h1
  | cons a t ih =>
    rw [List.pairwise_cons] at h
    rcases List.mem_cons.mp h1 with he | he
    · cases t with
      | nil =>
        rcases List.mem_cons.mp h2 with hb | hb
        · exfalso
          omega
        · cases hb
      | cons b t2 =>
        rcases List.mem_cons.mp h2 with hb | hb
        · exfalso
          omega
        · rcases List.mem_cons.mp hb with hc | hc
          · refine List.mem_cons.mpr (Or.inl ?_)
            rw [Prod.ext_iff]
            exact ⟨he, hc⟩
          · exfalso
            have hab := h.1 b (by simp)
            rw [List.pairwise_cons] at h
            have hbc := h.2.1 (p + 1) hc
            omega
    · have hp1 : p + 1 ∈ t := by
        rcases List.mem_cons.mp h2 with hc | hc
        · exfalso
          have := h.1 p he
          omega
        · exact hc
      have hmem := ih h.2 he hp1
      cases t with
      | nil => cases he
      | cons b t2 => exact List.mem_cons_of_mem _ hmem

theorem backbone_mem (cn : List (String × List (ℤ × ℕ))) (c : String)
    (d : List (ℤ × ℕ)) (p : ℤ) (n1 n2 : ℕ)
    (hcd : (c, d) ∈ cn) (hnd : (d.map Prod.fst).Nodup)
    (h1 : dictGet d p = some n1) (h2 : dictGet d (p + 1) = some n2) :
    mkBackboneEdge n1 n2 ∈ backboneEdges cn := by
  unfold backboneEdges
  rw [List.mem_flatten]
  refine ⟨_, List.mem_map.mpr ⟨(c, d), hcd, rfl⟩, ?_⟩
  dsimp only
  rw [List.mem_filterMap]
  have hperm :
      (pySort (fun a b : ℤ => decide (a ≤ b)) (d.map Prod.fst)).Perm
        (d.map Prod.fst) := pySort_perm _ _
  refine ⟨(p, p + 1), ?_, ?_⟩
  · apply pair_mem_zip_of_sorted
    · refine pairwise_lt_of_le_nodup (fun x : ℤ => x) _ ?_ ?_
      · have hpw := pySort_pairwise (fun a b : ℤ => decide (a ≤ b))
          (by intro a b; rcases le_total a b with hab | hab <;> simp [hab])
          (by
            intro a b c hab hbc
            simp only [decide_eq_true_eq] at hab hbc ⊢
            omega)
          (d.map Prod.fst)
        exact hpw.imp (fun hx => of_decide_eq_true hx)
      · simpa using hperm.nodup_iff.mpr hnd
    · exact hperm.mem_iff.mpr
        (List.mem_map.mpr ⟨(p, n1), dictGet_mem _ _ _ h1, rfl⟩)
    · exact hperm.mem_iff.mpr
        (List.mem_map.mpr ⟨(p + 1, n2), dictGet_mem _ _ _ h2, rfl⟩)
  · rw [if_pos rfl, h1, h2]

theorem backbone_inv (cn : List (String × List (ℤ × ℕ))) (e : REdge)
    (he : e ∈ backboneEdges cn) :
    ∃ w ∈ cn, ∃ pr : ℤ × ℤ, ∃ n1 n2, dictGet w.2 pr.1 = some n1 ∧
      dictGet w.2 pr.2 = some n2 ∧ e = mkBackboneEdge n1 n2 := by
  unfold backboneEdges at he
  rw [List.mem_flatten] at he
  obtain ⟨inner, hinner, hein⟩ := he
  rw [List.mem_map] at hinner
  obtain ⟨w, hw, hwe⟩ := hinner
  rw [← hwe] at hein
  dsimp only at hein
  rw [List.mem_filterMap] at hein
  obtain ⟨pr, hpr, hf⟩ := hein
  by_cases hif : pr.2 = pr.1 + 1
  · rw [if_pos hif] at hf
    rcases hg1 : dictGet w.2 pr.1 with _ | n1
    · rw [hg1] at hf
      cases hf
    · rcases hg2 : dictGet w.2 pr.2 with _ | n2
      · rw [hg1, hg2] at hf
        cases hf
      · rw [hg1, hg2] at hf
        injection hf with hfe
        exact ⟨w, hw, pr, n1, n2, hg1, hg2, hfe.symm⟩
  · rw [if_neg hif] at hf
    cases hf

/-- Inverting a successful import: the four stages all succeeded and the
graph is the node list with backbone and file edges. -/
theorem importGraph_ok_inv (nf ef : TsvFile) (g : RGraph)
    (h : importGraph nf ef = ImportOutcome.ok g) :
    ∃ ci ns ei es, requiredNodeCols nf.header = some ci ∧
      processNodeRows ci nf.rows = some ns ∧
      requiredEdgeCols ef.header = some ei ∧
      processEdgeRows ei (nodeMapOf ns) ef.rows = some es ∧
      g = ⟨ns, backboneEdges (chainNodesOf ns (nodeMapOf ns)) ++ es⟩ := by
  unfold importGraph at h
  rcases h1 : requiredNodeCols nf.header with _ | ci
  · rw [h1] at h
    simp at h
  rw [h1] at h
  dsimp only at h
  rcases h2 : processNodeRows ci nf.rows with _ | ns
  · rw [h2] at h
    simp at h
  rw [h2] at h
  dsimp only at h
  rcases h3 : requiredEdgeCols ef.header with _ | ei
  · rw [h3] at h
    simp at h
  rw [h3] at h
  dsimp only at h
  rcases h4 : processEdgeRows ei (nodeMapOf ns) ef.rows with _ | es
  · rw [h4] at h
    simp at h
  rw [h4] at h
  dsimp only at h
  injection h with h
  exact ⟨ci, ns, ei, es, rfl, h2, rfl, h4, h.symm⟩

/-- An emitted edge record's endpoints always come from `nodeMap`
lookups. -/
theorem processEdgeRow_edge (ci : EdgeCols) (nm : List (String × ℕ))
    (row : String) (e : REdge) (h : processEdgeRow ci nm row = EdgeRowOut.edge e) :
    (∃ k1, dictGet nm k1 = some e.src) ∧ (∃ k2, dictGet nm k2 = some e.tgt) := by
  unfold processEdgeRow at h
  by_cases hb : pyBlank row = true
  · rw [if_pos hb] at h
    simp at h
  rw [if_neg hb] at h
  by_cases hg : (pySplitTab row).length ≤ max ci.nodeId2Idx ci.eModelIdx
  · rw [if_pos hg] at h
    simp at h
  rw [if_neg hg] at h
  rcases hs1 : (pySplitTab row)[ci.nodeId1Idx]? with _ | a1
  · rw [hs1] at h
    simp at h
  rw [hs1] at h
  rcases hs2 : (pySplitTab row)[ci.interactionIdx]? with _ | a2
  · rw [hs2] at h
    simp at h
  rw [hs2] at h
  rcases hs3 : (pySplitTab row)[ci.nodeId2Idx]? with _ | a3
  · rw [hs3] at h
    simp at h
  rw [hs3] at h
  rcases hs4 : (pySplitTab row)[ci.distanceIdx]? with _ | a4
  · rw [hs4] at h
    simp at h
  rw [hs4] at h
  rcases hs5 : (pySplitTab row)[ci.angleIdx]? with _ | a5
  · rw [hs5] at h
    simp at h
  rw [hs5] at h
  rcases hs6 : (pySplitTab row)[ci.atom1Idx]? with _ | a6
  · rw [hs6] at h
    simp at h
  rw [hs6] at h
  rcases hs7 : (pySplitTab row)[ci.atom2Idx]? with _ | a7
  · rw [hs7] at h
    simp at h
  rw [hs7] at h
  rcases hs8 : (pySplitTab row)[ci.donorIdx]? with _ | a8
  · rw [hs8] at h
    simp at h
  rw [hs8] at h
  rcases hs9 : (pySplitTab row)[ci.positiveIdx]? with _ | a9
  · rw [hs9] at h
    simp at h
  rw [hs9] at h
  rcases hs10 : (pySplitTab row)[ci.cationIdx]? with _ | a10
  · rw [hs10] at h
    simp at h
  rw [hs10] at h
  rcases hs11 : (pySplitTab row)[ci.orientationIdx]? with _ | a11
  · rw [hs11] at h
    simp at h
  rw [hs11] at h
  rcases hs12 : (pySplitTab row)[ci.eModelIdx]? with _ | a12
  · rw [hs12] at h
    simp at h
  rw [hs12] at h
  dsimp only at h
  rcases hd1 : dictGet nm a1 with _ | n1
  · rw [hd1] at h
    simp at h
  rw [hd1] at h
  rcases hd2 : dictGet nm a3 with _ | n2
  · rw [hd2] at h
    simp at h
  rw [hd2] at h
  injection h with h
  exact ⟨⟨a1, by rw [hd1, ← h]; rfl⟩, ⟨a3, by rw [hd2, ← h]; rfl⟩⟩

/-- Every edge record emitted by the edge loop has both endpoints from
`nodeMap`. -/
theorem processEdgeRows_valid (ci : EdgeCols) (nm : List (String × ℕ)) :
    ∀ rows es, processEdgeRows ci nm rows = some es →
      ∀ e ∈ es, (∃ k1, dictGet nm k1 = some e.src) ∧
        (∃ k2, dictGet nm k2 = some e.tgt) := by
  intro rows
  induction rows with
  | nil =>
    intro es h e he
    injection h with h
    rw [← h] at he
    cases he
  | cons r t ih =>
    intro es h e he
    unfold processEdgeRows at h
    rcases hr : processEdgeRow ci nm r with _ | _ | e0
    · rw [hr] at h
      exact ih es h e he
    · rw [hr] at h
      simp at h
    · rw [hr] at h
      rcases ht : processEdgeRows ci nm t with _ | es2
      · rw [ht] at h
        simp at h
      · rw [ht] at h
        injection h with h
        rw [← h] at he
        rcases List.mem_cons.mp he with he2 | he2
        · rw [he2]
          exact processEdgeRow_edge ci nm r e0 hr
        · exact ih es2 ht e he2

end RING

/--
Claim C5 (confirmed).  After a successful import from a node file whose
created node identifiers are unique, for every chain `c` and sequence
position `p`: a synthetic covalent backbone edge of category `COV:PEP`
runs from a chain-`c` node at position `p` to a chain-`c` node at position
`p + 1` if and only if the graph has a chain-`c` node at position `p` and
one at position `p + 1` — regardless of the contents of the edge file.
-/
theorem c5_backbone (nf ef : RING.TsvFile) (g : RGraph)
    (hok : RING.importGraph nf ef = RING.ImportOutcome.ok g)
    (hids : (g.nodes.map (fun n => n.nodeId)).Nodup)
    (c : String) (p : ℤ) :
    (∃ e ∈ g.edges, e.interaction = "COV:PEP" ∧
        (nodeRec g e.src).chain = c ∧ (nodeRec g e.src).position = p ∧
        (nodeRec g e.tgt).chain = c ∧ (nodeRec g e.tgt).position = p + 1) ↔
    ((∃ n ∈ g.nodes, n.chain = c ∧ n.position = p) ∧
     (∃ n ∈ g.nodes, n.chain = c ∧ n.position = p + 1)) := by
  obtain ⟨ci, ns, ei, es, h1, h2, h3, h4, hg⟩ :=
    RING.importGraph_ok_inv nf ef g hok
  subst hg
  dsimp only at hids ⊢
  have hnmv : ∀ q ∈ RING.nodeMapOf ns, q.2 < ns.length := by
    intro q hq
    obtain ⟨n, hn, _⟩ := RING.nodeMapOf_sound ns hids q.1 q.2 hq
    exact (List.get?_eq_some.mp hn).1
  obtain ⟨K1, K2, K3, K4, K5⟩ :=
    RING.cnFold_inv ns (RING.nodeMapOf ns) [] hnmv (by simp) (by simp) (by simp)
  constructor
  · rintro ⟨e, he, hint, hc1, hp1, hc2, hp2⟩
    have hval : e.src < ns.length ∧ e.tgt < ns.length := by
      rcases List.mem_append.mp he with hbb | hes
      · obtain ⟨w, hw, pr, n1, n2, hg1, hg2, hee⟩ := RING.backbone_inv _ e hbb
        have s1 := K3 w hw _ (RING.dictGet_mem _ _ _ hg1)
        have s2 := K3 w hw _ (RING.dictGet_mem _ _ _ hg2)
        rw [hee]
        exact ⟨s1.1, s2.1⟩
      · obtain ⟨⟨k1, hk1⟩, ⟨k2, hk2⟩⟩ :=
          RING.processEdgeRows_valid ei (RING.nodeMapOf ns) ef.rows es h4 e hes
        obtain ⟨n1, hn1, _⟩ := RING.nodeMapOf_sound ns hids k1 e.src
          (RING.dictGet_mem _ _ _ hk1)
        obtain ⟨n2, hn2, _⟩ := RING.nodeMapOf_sound ns hids k2 e.tgt
          (RING.dictGet_mem _ _ _ hk2)
        exact ⟨(List.get?_eq_some.mp hn1).1, (List.get?_eq_some.mp hn2).1⟩
    have hmem1 : nodeRec ⟨ns,
        RING.backboneEdges (RING.chainNodesOf ns (RING.nodeMapOf ns)) ++ es⟩
        e.src ∈ ns := by
      show ns.getD e.src default ∈ ns
      rw [List.getD_eq_getElem ns default hval.1]
      exact List.getElem_mem _
    have hmem2 : nodeRec ⟨ns,
        RING.backboneEdges (RING.chainNodesOf ns (RING.nodeMapOf ns)) ++ es⟩
        e.tgt ∈ ns := by
      show ns.getD e.tgt default ∈ ns
      rw [List.getD_eq_getElem ns default hval.2]
      exact List.getElem_mem _
    exact ⟨⟨_, hmem1, hc1, hp1⟩, ⟨_, hmem2, hc2, hp2⟩⟩
  · rintro ⟨⟨nA, hnA, hcA, hpA⟩, ⟨nB, hnB, hcB, hpB⟩⟩
    obtain ⟨iA, hiA⟩ := List.mem_iff_get?.mp hnA
    obtain ⟨iB, hiB⟩ := List.mem_iff_get?.mp hnB
    have hmA := RING.nodeMapOf_complete ns hids iA nA hiA
    have hmB := RING.nodeMapOf_complete ns hids iB nB hiB
    have hAtA : RING.nodeAt ns iA = nA := by
      unfold RING.nodeAt
      rw [List.getD_eq_getElem?_getD, ← List.get?_eq_getElem?, hiA]
      rfl
    have hAtB : RING.nodeAt ns iB = nB := by
      unfold RING.nodeAt
      rw [List.getD_eq_getElem?_getD, ← List.get?_eq_getElem?, hiB]
      rfl
    obtain ⟨dA, hdA, hpA2⟩ := K5 (nA.nodeId, iA) hmA
    obtain ⟨dB, hdB, hpB2⟩ := K5 (nB.nodeId, iB) hmB
    dsimp only at hdA hpA2 hdB hpB2
    rw [hAtA, hcA] at hdA
    rw [hAtA, hpA] at hpA2
    rw [hAtB, hcB] at hdB
    rw [hAtB, hpB] at hpB2
    have hdd : dA = dB := by
      rw [hdA] at hdB
      injection hdB with hdd
    rw [← hdd] at hpB2
    have hknd := K2 _ (RING.dictGet_mem _ _ _ hdA)
    obtain ⟨n1, hn1⟩ := RING.dictGet_isSome dA p hpA2
    obtain ⟨n2, hn2⟩ := RING.dictGet_isSome dA (p + 1) hpB2
    have hbmem := RING.backbone_mem _ c dA p n1 n2
      (RING.dictGet_mem _ _ _ hdA) hknd hn1 hn2
    have hm1 := K3 _ (RING.dictGet_mem _ _ _ hdA) _ (RING.dictGet_mem _ _ _ hn1)
    have hm2 := K3 _ (RING.dictGet_mem _ _ _ hdA) _ (RING.dictGet_mem _ _ _ hn2)
    refine ⟨RING.mkBackboneEdge n1 n2, List.mem_append.mpr (Or.inl hbmem),
      rfl, ?_, ?_, ?_, ?_⟩
    · exact hm1.2.1
    · exact hm1.2.2
    · exact hm2.2.1
    · exact hm2.2.2

/-- The graph imported from `c3nf`/`c3okef`: two chain-A nodes at positions
1 and 2 joined by one synthetic backbone edge. -/
def c5WitG : RGraph :=
  ⟨[⟨"A:1:_:GLU", "A", 1, "GLU", "RES", "H", 2, mkRat 51 2, 1, mkRat (-5) 2,
      0, "f.pdb", 1⟩,
    ⟨"A:2:_:LYS", "A", 2, "LYS", "RES", "H", 2, mkRat 51 2, mkRat 3 200,
      mkRat (-5) 2, 0, "f.pdb", 1⟩],
   [⟨0, 1, "COV:PEP", 0, 0, "", "", "", "", "", "", 0⟩]⟩

/-- Witness for claim C5: on the concrete import `c3nf`/`c3okef` the
backbone characterisation holds at chain `A`, position `1`. -/
theorem c5_backbone_witness :
    (∃ e ∈ c5WitG.edges, e.interaction = "COV:PEP" ∧
        (nodeRec c5WitG e.src).chain = "A" ∧
        (nodeRec c5WitG e.src).position = 1 ∧
        (nodeRec c5WitG e.tgt).chain = "A" ∧
        (nodeRec c5WitG e.tgt).position = 1 + 1) ↔
    ((∃ n ∈ c5WitG.nodes, n.chain = "A" ∧ n.position = 1) ∧
     (∃ n ∈ c5WitG.nodes, n.chain = "A" ∧ n.position = 1 + 1)) :=
  c5_backbone c3nf c3okef c5WitG (by decide) (by decide) "A" 1

/-! ## Embedding of `src/helper_scripts/ring_interactions.py`
(`count_interactions`, lines 93–115) -/

namespace RI

/-- One merge step of the connected-components computation: the classes of
the two endpoints are joined when they differ. -/
def mergeStep (comps : List (List ℕ)) (pr : ℕ × ℕ) : List (List ℕ) :=
  match comps.find? (fun c => decide (pr.1 ∈ c)),
    comps.find? (fun c => decide (pr.2 ∈ c)) with
  | some a, some b =>
    if a = b then comps
    else (a ++ b) :: comps.filter (fun c => !decide (c = a) && !decide (c = b))
  | _, _ => comps

/-- Connected components of the node set `N` under the link list `P`. -/
def unionComps (N : List ℕ) (P : List (ℕ × ℕ)) : List (List ℕ) :=
  P.foldl mergeStep (N.map (fun i => [i]))

/-- Adjacency generated by a link list. -/
def PAdj (P : List (ℕ × ℕ)) (x y : ℕ) : Prop := (x, y) ∈ P ∨ (y, x) ∈ P

/-- Two nodes lie in one common class. -/
def sameComp (comps : List (List ℕ)) (x y : ℕ) : Prop :=
  ∃ c ∈ comps, x ∈ c ∧ y ∈ c

theorem comps_nodup (comps : List (List ℕ)) (h1 : comps.flatten.Nodup)
    (h2 : ∀ c ∈ comps, c ≠ []) : comps.Nodup := by
  induction comps with
  | nil => exact List.nodup_nil
  | cons c t ih =>
    rw [List.flatten_cons, List.nodup_append] at h1
    rw [List.nodup_cons]
    refine ⟨?_, ih h1.2.1 (fun d hd => h2 d (List.mem_cons_of_mem _ hd))⟩
    intro hc
    have hne := h2 c (List.mem_cons_self _ _)
    obtain ⟨x, hx⟩ := List.exists_mem_of_ne_nil c hne
    exact h1.2.2 hx (List.mem_flatten.mpr ⟨c, hc, hx⟩)

theorem class_eq_of_common (comps : List (List ℕ))
    (h1 : comps.flatten.Nodup) (c1 c2 : List ℕ) (hc1 : c1 ∈ comps)
    (hc2 : c2 ∈ comps) (x : ℕ) (hx1 : x ∈ c1) (hx2 : x ∈ c2) : c1 = c2 := by
  by_contra hne
  obtain ⟨l1, l2, hsplit⟩ := List.append_of_mem hc1
  subst hsplit
  rcases List.mem_append.mp hc2 with h | h
  · rw [List.flatten_append, List.flatten_cons, List.nodup_append] at h1
    exact h1.2.2 (List.mem_flatten.mpr ⟨c2, h, hx2⟩)
      (List.mem_append.mpr (Or.inl hx1))
  · rcases List.mem_cons.mp h with h | h
    · exact hne h.symm
    · rw [List.flatten_append, List.flatten_cons, List.nodup_append,
        List.nodup_append] at h1
      exact h1.2.1.2.2 hx1 (List.mem_flatten.mpr ⟨c2, h, hx2⟩)

theorem perm_cons_filter_ne (l : List (List ℕ)) (hn : l.Nodup)
    (a : List ℕ) (ha : a ∈ l) :
    l.Perm (a :: l.filter (fun c => !decide (c = a))) := by
  induction l with
  | nil => cases ha
  | cons x t ih =>
    rw [List.nodup_cons] at hn
    rcases List.mem_cons.mp ha with h | h
    · subst h
      rw [List.filter_cons_of_neg (by simp)]
      have hft : t.filter (fun c => !decide (c = a)) = t := by
        refine List.filter_eq_self.mpr ?_
        intro c hc
        simp only [Bool.not_eq_true', decide_eq_false_iff_not]
        exact fun hca => hn.1 (hca ▸ hc)
      rw [hft]
    · have hxa : x ≠ a := fun hc => hn.1 (hc ▸ h)
      rw [List.filter_cons_of_pos (by simp [hxa])]
      refine ((ih hn.2 h).cons x).trans ?_
      exact List.Perm.swap _ _ _

theorem mergeStep_flatten (comps : List (List ℕ)) (pr : ℕ × ℕ)
    (h1 : comps.flatten.Nodup) (h2 : ∀ c ∈ comps, c ≠ []) :
    ((mergeStep comps pr).flatten).Perm comps.flatten := by
  unfold mergeStep
  cases hf1 : comps.find? (fun c => decide (pr.1 ∈ c)) with
  | none => exact List.Perm.refl _
  | some a =>
    cases hf2 : comps.find? (fun c => decide (pr.2 ∈ c)) with
    | none => exact List.Perm.refl _
    | some b =>
      dsimp only
      by_cases hab : a = b
      · rw [if_pos hab]
      · rw [if_neg hab]
        have hcn := comps_nodup comps h1 h2
        have ha : a ∈ comps := List.mem_of_find?_eq_some hf1
        have hb : b ∈ comps := List.mem_of_find?_eq_some hf2
        have hp1 := perm_cons_filter_ne comps hcn a ha
        have hbF : b ∈ comps.filter (fun c => !decide (c = a)) :=
          List.mem_filter.mpr ⟨hb, by simp; exact fun hc => hab hc.symm⟩
        have hp2 := perm_cons_filter_ne _ (hcn.filter _) b hbF
        have hff : (comps.filter (fun c => !decide (c = a))).filter
            (fun c => !decide (c = b)) =
            comps.filter (fun c => !decide (c = a) && !decide (c = b)) := by
          rw [List.filter_filter]
          refine List.filter_congr ?_
          intro c _
          rw [Bool.and_comm]
        have hflat : ((a ++ b) :: comps.filter
            (fun c => !decide (c = a) && !decide (c = b))).flatten.Perm
            ((a :: b :: (comps.filter (fun c => !decide (c = a))).filter
              (fun c => !decide (c = b))).flatten) := by
          rw [hff, List.flatten_cons, List.flatten_cons, List.flatten_cons,
            List.append_assoc]
        refine hflat.trans ?_
        have := (hp2.cons a).symm.trans hp1.symm
        exact this.flatten

theorem mergeStep_mem (comps : List (List ℕ)) (pr : ℕ × ℕ) (c : List ℕ)
    (hc : c ∈ mergeStep comps pr) :
    c ∈ comps ∨ ∃ a b, a ∈ comps ∧ b ∈ comps ∧ c = a ++ b ∧
      pr.1 ∈ a ∧ pr.2 ∈ b := by
  unfold mergeStep at hc
  cases hf1 : comps.find? (fun c => decide (pr.1 ∈ c)) with
  | none =>
    rw [hf1] at hc
    exact Or.inl hc
  | some a =>
    cases hf2 : comps.find? (fun c => decide (pr.2 ∈ c)) with
    | none =>
      rw [hf1, hf2] at hc
      exact Or.inl hc
    | some b =>
      rw [hf1, hf2] at hc
      dsimp only at hc
      by_cases hab : a = b
      · rw [if_pos hab] at hc
        exact Or.inl hc
      · rw [if_neg hab] at hc
        rcases List.mem_cons.mp hc with hc | hc
        · refine Or.inr ⟨a, b, List.mem_of_find?_eq_some hf1,
            List.mem_of_find?_eq_some hf2, hc, ?_, ?_⟩
          · have := List.find?_some hf1
            exact of_decide_eq_true this
          · have := List.find?_some hf2
            exact of_decide_eq_true this
        · exact Or.inl (List.mem_of_mem_filter hc)

theorem mergeStep_sameComp (comps : List (List ℕ)) (pr : ℕ × ℕ) (x y : ℕ)
    (h : sameComp comps x y) : sameComp (mergeStep comps pr) x y := by
  obtain ⟨c, hc, hx, hy⟩ := h
  unfold mergeStep
  cases hf1 : comps.find? (fun c => decide (pr.1 ∈ c)) with
  | none => exact ⟨c, hc, hx, hy⟩
  | some a =>
    cases hf2 : comps.find? (fun c => decide (pr.2 ∈ c)) with
    | none => exact ⟨c, hc, hx, hy⟩
    | some b =>
      dsimp only
      by_cases hab : a = b
      · rw [if_pos hab]
        exact ⟨c, hc, hx, hy⟩
      · rw [if_neg hab]
        by_cases hca : c = a
        · refine ⟨a ++ b, List.mem_cons_self _ _, ?_, ?_⟩
          · exact List.mem_append.mpr (Or.inl (hca ▸ hx))
          · exact List.mem_append.mpr (Or.inl (hca ▸ hy))
        · by_cases hcb : c = b
          · refine ⟨a ++ b, List.mem_cons_self _ _, ?_, ?_⟩
            · exact List.mem_append.mpr (Or.inr (hcb ▸ hx))
            · exact List.mem_append.mpr (Or.inr (hcb ▸ hy))
          · refine ⟨c, ?_, hx, hy⟩
            refine List.mem_cons_of_mem _ (List.mem_filter.mpr ⟨hc, ?_⟩)
            simp [hca, hcb]

theorem mergeStep_links (comps : List (List ℕ)) (pr : ℕ × ℕ)
    (h1 : pr.1 ∈ comps.flatten) (h2 : pr.2 ∈ comps.flatten) :
    sameComp (mergeStep comps pr) pr.1 pr.2 := by
  obtain ⟨c1, hc1, hx1⟩ := List.mem_flatten.mp h1
  obtain ⟨c2, hc2, hx2⟩ := List.mem_flatten.mp h2
  have hf1 : ∃ a, comps.find? (fun c => decide (pr.1 ∈ c)) = some a := by
    cases hf : comps.find? (fun c => decide (pr.1 ∈ c)) with
    | none =>
      rw [List.find?_eq_none] at hf
      exact absurd (decide_eq_true hx1) (hf c1 hc1)
    | some a => exact ⟨a, rfl⟩
  have hf2 : ∃ b, comps.find? (fun c => decide (pr.2 ∈ c)) = some b := by
    cases hf : comps.find? (fun c => decide (pr.2 ∈ c)) with
    | none =>
      rw [List.find?_eq_none] at hf
      exact absurd (decide_eq_true hx2) (hf c2 hc2)
    | some b => exact ⟨b, rfl⟩
  obtain ⟨a, hfa⟩ := hf1
  obtain ⟨b, hfb⟩ := hf2
  have hfa2 := List.find?_some hfa
  have hfb2 := List.find?_some hfb
  have hpa : pr.1 ∈ a := of_decide_eq_true hfa2
  have hpb : pr.2 ∈ b := of_decide_eq_true hfb2
  unfold mergeStep
  rw [hfa, hfb]
  dsimp only
  by_cases hab : a = b
  · rw [if_pos hab]
    exact ⟨a, List.mem_of_find?_eq_some hfa, hpa, hab ▸ hpb⟩
  · rw [if_neg hab]
    exact ⟨a ++ b, List.mem_cons_self _ _,
      List.mem_append.mpr (Or.inl hpa), List.mem_append.mpr (Or.inr hpb)⟩

theorem unionComps_spec (P : List (ℕ × ℕ)) (Pall : List (ℕ × ℕ))
    (hsub : ∀ p ∈ P, p ∈ Pall) :
    ∀ comps : List (List ℕ),
    comps.flatten.Nodup →
    (∀ c ∈ comps, c ≠ []) →
    (∀ c ∈ comps, ∀ x ∈ c, ∀ y ∈ c, Relation.ReflTransGen (PAdj Pall) x y) →
    (∀ p ∈ P, p.1 ∈ comps.flatten ∧ p.2 ∈ comps.flatten) →
    ((P.foldl mergeStep comps).flatten).Perm comps.flatten ∧
    (∀ c ∈ P.foldl mergeStep comps, c ≠ []) ∧
    (∀ c ∈ P.foldl mergeStep comps, ∀ x ∈ c, ∀ y ∈ c,
      Relation.ReflTransGen (PAdj Pall) x y) ∧
    (∀ x y, sameComp comps x y → sameComp (P.foldl mergeStep comps) x y) ∧
    (∀ p ∈ P, sameComp (P.foldl mergeStep comps) p.1 p.2) := by
  induction P with
  | nil =>
    intro comps hn hne hconn _
    refine ⟨List.Perm.refl _, hne, hconn, ?_, ?_⟩
    · intro x y h
      exact h
    · intro p hp
      cases hp
  | cons q t ih =>
    intro comps hn hne hconn hin
    have hq1 : q.1 ∈ comps.flatten := (hin q (by simp)).1
    have hq2 : q.2 ∈ comps.flatten := (hin q (by simp)).2
    have hstepP : ((mergeStep comps q).flatten).Perm comps.flatten :=
      mergeStep_flatten comps q hn hne
    have hn2 : (mergeStep comps q).flatten.Nodup := hstepP.nodup_iff.mpr hn
    have hne2 : ∀ c ∈ mergeStep comps q, c ≠ [] := by
      intro c hc
      rcases mergeStep_mem comps q c hc with hc | ⟨a, b, hac, _, hcab, _, _⟩
      · exact hne c hc
      · intro hnil
        rw [hcab] at hnil
        exact hne a hac (List.append_eq_nil.mp hnil).1
    have hconn2 : ∀ c ∈ mergeStep comps q, ∀ x ∈ c, ∀ y ∈ c,
        Relation.ReflTransGen (PAdj Pall) x y := by
      intro c hc x hx y hy
      rcases mergeStep_mem comps q c hc with hc | ⟨a, b, hac, hbc, hcab, hqa, hqb⟩
      · exact hconn c hc x hx y hy
      · subst hcab
        have hadj : Relation.ReflTransGen (PAdj Pall) q.1 q.2 :=
          Relation.ReflTransGen.single (Or.inl (by
            have := hsub q (by simp)
            simpa using this))
        rcases List.mem_append.mp hx with hx | hx
        · rcases List.mem_append.mp hy with hy | hy
          · exact hconn a hac x hx y hy
          · exact ((hconn a hac x hx q.1 hqa).trans hadj).trans
              (hconn b hbc q.2 hqb y hy)
        · rcases List.mem_append.mp hy with hy | hy
          · exact ((hconn b hbc x hx q.2 hqb).trans
              (Relation.ReflTransGen.single (Or.inr (by
                have := hsub q (by simp)
                simpa using this)))).trans (hconn a hac q.1 hqa y hy)
          · exact hconn b hbc x hx y hy
    have hin2 : ∀ p ∈ t, p.1 ∈ (mergeStep comps q).flatten ∧
        p.2 ∈ (mergeStep comps q).flatten := by
      intro p hp
      have := hin p (by simp [hp])
      exact ⟨hstepP.mem_iff.mpr this.1, hstepP.mem_iff.mpr this.2⟩
    obtain ⟨F1, F2, F3, F4, F5⟩ := ih (fun p hp => hsub p (by simp [hp]))
      (mergeStep comps q) hn2 hne2 hconn2 hin2
    rw [List.foldl_cons]
    refine ⟨F1.trans hstepP, F2, F3, ?_, ?_⟩
    · intro x y h
      exact F4 x y (mergeStep_sameComp comps q x y h)
    · intro p hp
      rcases List.mem_cons.mp hp with hp | hp
      · subst hp
        exact F4 p.1 p.2 (mergeStep_links comps p hq1 hq2)
      · exact F5 p hp

theorem reach_sameComp (P : List (ℕ × ℕ)) (comps : List (List ℕ))
    (hflat : comps.flatten.Nodup)
    (hlinks : ∀ p ∈ P, sameComp comps p.1 p.2)
    (x y : ℕ) (hx : x ∈ comps.flatten)
    (hr : Relation.ReflTransGen (PAdj P) x y) : sameComp comps x y := by
  induction hr with
  | refl =>
    obtain ⟨c, hc, hxc⟩ := List.mem_flatten.mp hx
    exact ⟨c, hc, hxc, hxc⟩
  | @tail b z h1 h2 ih =>
    obtain ⟨c1, hc1, hx1, hb1⟩ := ih
    have hsame2 : sameComp comps b z := by
      rcases h2 with h2 | h2
      · exact hlinks _ h2
      · obtain ⟨cc, hcc, hm1, hm2⟩ := hlinks _ h2
        exact ⟨cc, hcc, hm2, hm1⟩
    obtain ⟨c2, hc2, hb2, hcm⟩ := hsame2
    have hcc := class_eq_of_common comps hflat c1 c2 hc1 hc2 _ hb1 hb2
    exact ⟨c1, hc1, hx1, hcc ▸ hcm⟩

theorem foldl_max_le (l : List ℕ) (m : ℕ) :
    ∀ acc, acc ≤ m → (∀ x ∈ l, x ≤ m) → l.foldl max acc ≤ m := by
  induction l with
  | nil =>
    intro acc ha _
    exact ha
  | cons x t ih =>
    intro acc ha hl
    rw [List.foldl_cons]
    refine ih _ ?_ (fun z hz => hl z (List.mem_cons_of_mem _ hz))
    exact max_le ha (hl x (List.mem_cons_self _ _))

theorem le_foldl_max (l : List ℕ) :
    ∀ acc, (∀ x ∈ l, x ≤ l.foldl max acc) ∧ acc ≤ l.foldl max acc := by
  induction l with
  | nil =>
    intro acc
    exact ⟨fun x hx => absurd hx (List.not_mem_nil x), le_refl _⟩
  | cons z t ih =>
    intro acc
    rw [List.foldl_cons]
    obtain ⟨h1, h2⟩ := ih (max acc z)
    refine ⟨?_, le_trans (le_max_left _ _) h2⟩
    intro x hx
    rcases List.mem_cons.mp hx with hx | hx
    · exact le_trans (hx ▸ le_max_right acc z) h2
    · exact h1 x hx

theorem foldl_max_mem (l : List ℕ) :
    ∀ acc, l.foldl max acc = acc ∨ l.foldl max acc ∈ l := by
  induction l with
  | nil =>
    intro acc
    exact Or.inl rfl
  | cons z t ih =>
    intro acc
    rw [List.foldl_cons]
    rcases ih (max acc z) with h | h
    · rw [h]
      rcases max_choice acc z with h2 | h2
      · exact Or.inl h2
      · exact Or.inr (by rw [h2]; exact List.mem_cons_self _ _)
    · exact Or.inr (List.mem_cons_of_mem _ h)

theorem foldl_mergeStep_nil (P : List (ℕ × ℕ)) :
    P.foldl mergeStep [] = [] := by
  induction P with
  | nil => rfl
  | cons q t ih =>
    rw [List.foldl_cons]
    exact ih

theorem flatten_singletons (N : List ℕ) :
    (N.map (fun i => [i])).flatten = N := by
  induction N with
  | nil => rfl
  | cons x t ih =>
    rw [List.map_cons, List.flatten_cons, ih]
    rfl

/-- Qualifying binder–target edge: the interaction test of
`identify_interacting_nodes` together with its A–B chain check. -/
def btABEdge (g : RGraph) (vdw : Bool) (e : REdge) : Bool :=
  BT.is_interesting_interaction e.interaction vdw &&
  ((decide ((nodeRec g e.src).chain = "A") &&
      decide ((nodeRec g e.tgt).chain = "B")) ||
   (decide ((nodeRec g e.src).chain = "B") &&
      decide ((nodeRec g e.tgt).chain = "A")))

/-- The node set of the binder–target interaction subgraph: the union of
the interacting binder and target sets (`binder_target_nodes` in
`create_interaction_subgraph`). -/
def btNodes (g : RGraph) (vdw : Bool) : List ℕ :=
  ((g.edges.filter (btABEdge g vdw)).map (fun e => [e.src, e.tgt])).flatten.dedup

/-- The edge list of the binder–target interaction subgraph: every graph
edge with both endpoints in the node set whose category passes the
interaction test. -/
def btEdges (g : RGraph) (vdw : Bool) : List REdge :=
  g.edges.filter (fun e => decide (e.src ∈ btNodes g vdw) &&
    decide (e.tgt ∈ btNodes g vdw) &&
    BT.is_interesting_interaction e.interaction vdw)

/-- The subgraph's links as endpoint pairs. -/
def btLinks (g : RGraph) (vdw : Bool) : List (ℕ × ℕ) :=
  (btEdges g vdw).map (fun e => (e.src, e.tgt))

/-- `counts['binder_target_bonds']` (resp. the `no_vdw` variant):
`binder_target_sub.numberOfEdges()`. -/
def binder_target_bonds (g : RGraph) (vdw : Bool) : ℕ :=
  (btEdges g vdw).length

/-- The connected components of the subgraph
(`tlp.ConnectedTest.computeConnectedComponents`, modelled by class
merging over the subgraph's links). -/
def btComps (g : RGraph) (vdw : Bool) : List (List ℕ) :=
  unionComps (btNodes g vdw) (btLinks g vdw)

/-- `counts['binder_target_bonds_largest_component']`:
`len(max(connected_components, key=len))`, and `0` on an empty component
list. -/
def largest_component (g : RGraph) (vdw : Bool) : ℕ :=
  if btComps g vdw = [] then 0
  else ((btComps g vdw).map (fun c => c.length)).foldl max 0

/-- Reachability inside the binder–target subgraph. -/
def SubReach (g : RGraph) (vdw : Bool) (x y : ℕ) : Prop :=
  Relation.ReflTransGen (PAdj (btLinks g vdw)) x y

/-- Connectivity of the binder–target subgraph. -/
def SubConnected (g : RGraph) (vdw : Bool) : Prop :=
  ∀ x ∈ btNodes g vdw, ∀ y ∈ btNodes g vdw, SubReach g vdw x y

end RI

